import Mathlib

/-! # Downtime lifecycle of `lib/icinga/service-downtime.cpp`

A shallow embedding of the downtime subsystem of the monitoring daemon:
the per-object downtime stores, the process-wide downtime index with its
legacy-id counter, the debounced index rebuild, the expiration sweep and the
trigger cascade.

Conventions of the embedding.

* Times (`double` in the source) are exact integers; the clock
  (`Utility::GetTime()`) is an input `now` of each top-level operation.
* The C++ `int` (the legacy id and the counter `l_NextDowntimeID`) is a 32-bit
  two's complement integer: its values are the integers from `INT_MIN` to
  `INT_MAX`, and an increment that leaves this range wraps around
  (`wrapInt`), as the compiled daemon does; the language itself leaves signed
  overflow undefined.
* `Utility::NewUUID()` is an input `id` of `AddDowntime`.
* `Dictionary` and `std::map` are key-ordered association lists; iteration
  visits entries in key order as in the source.
* Monitored objects are the positions of the list `State.services`, in the
  enumeration order of `DynamicType::GetObjects("Service")`; a
  `Service::WeakPtr` is an optional position.
* Dereferencing a null smart pointer is the fault `Fault.nullDeref`;
  recursion is bounded by a budget and `Fault.stackExhausted` reports that
  the budget did not suffice.
-/

namespace Icinga

/-! ## Ordered maps -/

/-- Order of `String` keys: lexicographic on the characters. -/
def strLt (a b : String) : Bool := decide (a.toList < b.toList)

/-- Order of `int` keys. -/
def intLt (a b : Int) : Bool := decide (a < b)

/-! ## The type `int` -/

/-- Largest value of an `int`: 2^31 - 1. -/
def INT_MAX : Int := 2147483647

/-- Smallest value of an `int`: -2^31. -/
def INT_MIN : Int := -2147483648

/-- The `int` an arithmetic result is stored as: the result modulo 2^32, taken
in the range `INT_MIN` .. `INT_MAX`. -/
def wrapInt (x : Int) : Int := (x + 2147483648) % 4294967296 - 2147483648

namespace StdMap

/-- Lookup `find(k)`: the value bound to `k`, if any. -/
def find {K V : Type} [DecidableEq K] : List (K × V) → K → Option V
  | [], _ => none
  | (k', v) :: rest, k => if k' = k then some v else find rest k

/-- Assignment `m[k] = v`: replaces the binding of `k` or inserts it at its
place in key order. -/
def set {K V : Type} [DecidableEq K] (lt : K → K → Bool) :
    List (K × V) → K → V → List (K × V)
  | [], k, v => [(k, v)]
  | (k', v') :: rest, k, v =>
    if lt k k' then (k, v) :: (k', v') :: rest
    else if k = k' then (k, v) :: rest
    else (k', v') :: set lt rest k v

/-- Removal `erase(k)`: no binding of `k` is left (a map binds a key once). -/
def erase {K V : Type} [DecidableEq K] (m : List (K × V)) (k : K) : List (K × V) :=
  m.filter (fun e => decide (e.1 ≠ k))

/-- In-place mutation, by `f`, of the value that `find k` returns (reached in
the source through the pointer stored under `k`). -/
def mutate {K V : Type} [DecidableEq K] : List (K × V) → K → (V → V) → List (K × V)
  | [], _, _ => []
  | (k', v) :: rest, k, f =>
    if k' = k then (k', f v) :: rest else (k', v) :: mutate rest k f

/-- The keys in iteration order. -/
def keys {K V : Type} (m : List (K × V)) : List K := m.map Prod.fst

/-- Representation invariant of a map: keys strictly increasing. -/
def WF {K V : Type} (lt : K → K → Bool) (m : List (K × V)) : Prop :=
  m.Pairwise (fun a b => lt a.1 b.1 = true)

end StdMap

/-! ## Data model -/

/-- The downtime record, a `Dictionary` with these fixed fields in the source. -/
structure Downtime where
  entry_time : Int
  author : String
  comment : String
  start_time : Int
  end_time : Int
  fixed : Bool
  duration : Int
  triggered_by : String
  triggers : List (String × String)
  trigger_time : Int
  legacy_id : Int
deriving DecidableEq, Repr

/-- A per-object downtime store: `Dictionary` from downtime id to record. -/
abbrev Downtimes := List (String × Downtime)

/-- A monitored object; `m_Downtimes` may be the null pointer. -/
structure Service where
  m_Downtimes : Option Downtimes
deriving DecidableEq, Repr

/-- What a timer was connected to. -/
inductive TimerCallback where
  | RefreshDowntimesCache
  | DowntimesExpireTimerHandler
deriving DecidableEq, Repr

/-- A timer object. -/
structure Timer where
  interval : Rat
  callback : TimerCallback
  started : Bool
deriving DecidableEq, Repr

/-- The process state: the objects and the file-level statics. `touchLog`
records the receivers of `Touch("downtimes")` in call order. -/
structure State where
  services : List Service
  l_NextDowntimeID : Int
  l_LegacyDowntimesCache : List (Int × String)
  l_DowntimesCache : List (String × Option Nat)
  l_DowntimesCacheNeedsUpdate : Bool
  l_DowntimesCacheTimer : Option Timer
  l_DowntimesExpireTimer : Option Timer
  touchLog : List Nat
deriving DecidableEq, Repr

/-- Ways an operation can fail to return. -/
inductive Fault where
  | nullDeref
  | stackExhausted
deriving DecidableEq, Repr

/-- The state of a fresh process with the given objects: no index, counter 1. -/
def State.init (services : List Service) : State :=
  { services := services
    l_NextDowntimeID := 1
    l_LegacyDowntimesCache := []
    l_DowntimesCache := []
    l_DowntimesCacheNeedsUpdate := false
    l_DowntimesCacheTimer := none
    l_DowntimesExpireTimer := none
    touchLog := [] }

/-- Apply `f` to the element at position `n`, if any. -/
def modifyAt {α : Type} (f : α → α) : List α → Nat → List α
  | [], _ => []
  | x :: xs, 0 => f x :: xs
  | x :: xs, n + 1 => x :: modifyAt f xs n

/-- `Service::GetDowntimes` on the object at position `self`. -/
def GetDowntimes (self : Nat) (st : State) : Option Downtimes :=
  st.services[self]?.bind (fun s => s.m_Downtimes)

/-- Store `d` as the downtimes dictionary of the object at position `self`. -/
def setDowntimes (self : Nat) (d : Downtimes) (st : State) : State :=
  { st with services := modifyAt (fun _ => { m_Downtimes := some d }) st.services self }

/-- `Service::GetNextDowntimeID`. -/
def GetNextDowntimeID (st : State) : Int := st.l_NextDowntimeID

/-! ## Index invalidation and notification -/

/-- The timer `InvalidateDowntimesCache` creates: interval 0.5, connected to
`RefreshDowntimesCache`, started. -/
def newRefreshTimer : Timer :=
  { interval := 1 / 2, callback := TimerCallback.RefreshDowntimesCache, started := true }

/-- The timer `RefreshDowntimesCache` creates: interval 300, connected to
`DowntimesExpireTimerHandler`, started. -/
def newExpireTimer : Timer :=
  { interval := 300, callback := TimerCallback.DowntimesExpireTimerHandler, started := true }

/-- `Service::InvalidateDowntimesCache`. -/
def InvalidateDowntimesCache (st : State) : State :=
  if st.l_DowntimesCacheNeedsUpdate then st
  else
    let st1 : State :=
      match st.l_DowntimesCacheTimer with
      | some _ => st
      | none =>
        { st with l_DowntimesCacheTimer := some newRefreshTimer }
    { st1 with l_DowntimesCacheNeedsUpdate := true }

/-- Modelled from the spec: `DynamicObject::Touch("downtimes")` is defined
outside `service-downtime.cpp`. Per §4.1 each mutation notifies the object's
attribute-changed signal for `downtimes` and also marks the Global Index
stale: the notification is recorded in `touchLog`, then the index is
invalidated. -/
def Touch (self : Nat) (st : State) : State :=
  InvalidateDowntimesCache { st with touchLog := st.touchLog ++ [self] }

/-! ## Index lookups -/

/-- `WeakPtr::lock`: the object, if the reference is set and the object exists. -/
def lock (w : Option Nat) (st : State) : Option Nat :=
  w.bind (fun i => if i < st.services.length then some i else none)

/-- `Service::GetDowntimeIDFromLegacyID`; `Empty` is the empty string. -/
def GetDowntimeIDFromLegacyID (id : Int) (st : State) : String :=
  match StdMap.find st.l_LegacyDowntimesCache id with
  | none => ""
  | some s => s

/-- `Service::GetOwnerByDowntimeID`: `l_DowntimesCache[id].lock()`; `operator[]`
default-inserts a null reference for an absent key. -/
def GetOwnerByDowntimeID (id : String) (st : State) : Option Nat × State :=
  match StdMap.find st.l_DowntimesCache id with
  | some w => (lock w st, st)
  | none => (none, { st with l_DowntimesCache := StdMap.set strLt st.l_DowntimesCache id none })

/-- `Service::GetDowntimeByID`. -/
def GetDowntimeByID (id : String) (st : State) : Option Downtime × State :=
  let r := GetOwnerByDowntimeID id st
  match r.1 with
  | none => (none, r.2)
  | some owner =>
    match GetDowntimes owner r.2 with
    | some downtimes => (StdMap.find downtimes id, r.2)
    | none => (none, r.2)

/-! ## Predicates on a record -/

/-- `Service::IsDowntimeActive` with the clock reading `now`. -/
def IsDowntimeActive (downtime : Downtime) (now : Int) : Bool :=
  if now < downtime.start_time ∨ now > downtime.end_time then false
  else if downtime.fixed then true
  else
    let triggerTime := downtime.trigger_time
    if triggerTime = 0 then false
    else decide (triggerTime + downtime.duration < now)

/-- `Service::IsDowntimeExpired` with the clock reading `now`. -/
def IsDowntimeExpired (downtime : Downtime) (now : Int) : Bool :=
  decide (downtime.end_time < now)

/-- `Service::IsInDowntime` on the object at position `self`. -/
def IsInDowntime (self : Nat) (now : Int) (st : State) : Bool :=
  match GetDowntimes self st with
  | none => false
  | some downtimes => downtimes.any (fun e => IsDowntimeActive e.2 now)

/-! ## Adding and removing -/

/-- The record `AddDowntime` builds before it is stored. -/
def newDowntime (author comment : String) (startTime endTime : Int) ( fixed : Bool)
    (triggeredBy : String) (duration : Int) (now : Int) (legacy_id : Int) : Downtime :=
  { entry_time := now
    author := author
    comment := comment
    start_time := startTime
    end_time := endTime
    fixed := fixed
    duration := duration
    triggered_by := triggeredBy
    triggers := []
    trigger_time := 0
    legacy_id := legacy_id }

/-- The block of `AddDowntime` guarded by `!triggeredBy.IsEmpty()`: resolve the
owner of `triggeredBy` through the index, fetch its record from the owner's
`downtimes` attribute (the dictionary `GetDowntimes` returns) and execute
`triggers->Set(triggeredBy, triggeredBy)` on it, then touch the owner. Every
pointer on the way is dereferenced unchecked. -/
def registerTrigger (triggeredBy : String) (st : State) : Except Fault State :=
  let r := GetOwnerByDowntimeID triggeredBy st
  match r.1 with
  | none => Except.error Fault.nullDeref
  | some otherOwner =>
    match GetDowntimes otherOwner r.2 with
    | none => Except.error Fault.nullDeref
    | some otherDowntimes =>
      match StdMap.find otherDowntimes triggeredBy with
      | none => Except.error Fault.nullDeref
      | some _ =>
        let st1 := setDowntimes otherOwner
          (StdMap.mutate otherDowntimes triggeredBy
            (fun d => { d with triggers := StdMap.set strLt d.triggers triggeredBy triggeredBy }))
          r.2
        Except.ok (Touch otherOwner st1)

/-- `Service::AddDowntime` on the object at position `self`. The inputs `now`
and `id` are the values `Utility::GetTime()` and `Utility::NewUUID()` return;
`l_NextDowntimeID++` is an `int` increment, taken through `wrapInt`. -/
def AddDowntime (self : Nat) (author comment : String) (startTime endTime : Int)
    ( fixed : Bool) (triggeredBy : String) (duration : Int) (now : Int) (id : String)
    (st : State) : Except Fault (String × State) :=
  let legacy_id := st.l_NextDowntimeID
  let st1 : State := { st with l_NextDowntimeID := wrapInt (st.l_NextDowntimeID + 1) }
  let downtime := newDowntime author comment startTime endTime fixed triggeredBy duration
    now legacy_id
  match (if triggeredBy ≠ "" then registerTrigger triggeredBy st1 else Except.ok st1) with
  | Except.error e => Except.error e
  | Except.ok st2 =>
    let downtimes : Downtimes :=
      match GetDowntimes self st2 with
      | some d => d
      | none => []
    let st3 := setDowntimes self (StdMap.set strLt downtimes id downtime) st2
    Except.ok (id, Touch self st3)

/-- `Service::RemoveDowntime`. -/
def RemoveDowntime (id : String) (st : State) : State :=
  let r := GetOwnerByDowntimeID id st
  match r.1 with
  | none => r.2
  | some owner =>
    match GetDowntimes owner r.2 with
    | none => r.2
    | some downtimes => Touch owner (setDowntimes owner (StdMap.erase downtimes id) r.2)

/-! ## Trigger cascade -/

/-- The assignment `downtime->Set("trigger_time", now)` on the record `id` of `owner`. -/
def setTriggerTime (owner : Nat) (id : String) (now : Int) (st : State) : State :=
  match GetDowntimes owner st with
  | none => st
  | some downtimes =>
    setDowntimes owner (StdMap.mutate downtimes id (fun d => { d with trigger_time := now })) st

/-- `Service::TriggerDowntime` with clock reading `now`. The first argument
bounds the recursion depth; `Fault.stackExhausted` means the bound was hit.
The record is located through its owner, so the branch for a null `owner`
next to a non-null `downtime` is never taken
(`TriggerDowntime_succ_of_find`). -/
def TriggerDowntime : Nat → String → Int → State → Except Fault State
  | 0, _, _, _ => Except.error Fault.stackExhausted
  | fuel + 1, id, now, st =>
    let r := GetOwnerByDowntimeID id st
    let q := GetDowntimeByID id r.2
    match q.1 with
    | none => Except.ok q.2
    | some downtime =>
      if now < downtime.start_time ∨ now > downtime.end_time then Except.ok q.2
      else
        match r.1 with
        | none => Except.error Fault.nullDeref
        | some owner =>
          let st1 := if downtime.trigger_time = 0 then setTriggerTime owner id now q.2 else q.2
          match List.foldlM (fun s tid => TriggerDowntime fuel tid now s) st1
              (StdMap.keys downtime.triggers) with
          | Except.error e => Except.error e
          | Except.ok st2 => Except.ok (Touch owner st2)

/-- `Service::TriggerDowntimes` on the object at position `self`. -/
def TriggerDowntimes (fuel : Nat) (self : Nat) (now : Int) (st : State) : Except Fault State :=
  match GetDowntimes self st with
  | none => Except.ok st
  | some downtimes =>
    List.foldlM (fun s id => TriggerDowntime fuel id now s) st (StdMap.keys downtimes)

/-! ## Index rebuild -/

/-- The locals `newLegacyDowntimesCache` and `newDowntimesCache` of the rebuild. -/
structure NewCaches where
  newLegacyDowntimesCache : List (Int × String)
  newDowntimesCache : List (String × Option Nat)
deriving DecidableEq, Repr

/-- Body of the inner loop of `RefreshDowntimesCache` for the entry
`(id, downtime)` of `service`: returns the record as the loop leaves it. The
local `legacy_id` and the counter are `int`s, so `legacy_id + 1` and
`l_NextDowntimeID++` are taken through `wrapInt`. -/
def refreshEntry (service : Nat) (id : String) (downtime : Downtime)
    (st : State) (c : NewCaches) : Downtime × State × NewCaches :=
  let legacy_id := downtime.legacy_id
  let st1 : State :=
    if legacy_id ≥ st.l_NextDowntimeID then
      { st with l_NextDowntimeID := wrapInt (legacy_id + 1) }
    else st
  if (StdMap.find c.newLegacyDowntimesCache legacy_id).isSome then
    let legacy_id1 := st1.l_NextDowntimeID
    let st2 : State := { st1 with l_NextDowntimeID := wrapInt (st1.l_NextDowntimeID + 1) }
    let st3 := Touch service st2
    ({ downtime with legacy_id := legacy_id1 }, st3,
      { newLegacyDowntimesCache := StdMap.set intLt c.newLegacyDowntimesCache legacy_id1 id
        newDowntimesCache := StdMap.set strLt c.newDowntimesCache id (some service) })
  else
    (downtime, st1,
      { newLegacyDowntimesCache := StdMap.set intLt c.newLegacyDowntimesCache legacy_id id
        newDowntimesCache := StdMap.set strLt c.newDowntimesCache id (some service) })

/-- Inner loop of `RefreshDowntimesCache` over the entries of one store, in key
order; returns the store as the loop leaves it. -/
def refreshEntries (service : Nat) : Downtimes → State → NewCaches →
    Downtimes × State × NewCaches
  | [], st, c => ([], st, c)
  | (id, downtime) :: rest, st, c =>
    let r := refreshEntry service id downtime st c
    let q := refreshEntries service rest r.2.1 r.2.2
    ((id, r.1) :: q.1, q.2.1, q.2.2)

/-- Outer loop of `RefreshDowntimesCache` over the objects from position
`service` on; an object without a store is skipped. Returns the objects as
the loop leaves them. -/
def refreshObjects : Nat → List Service → State → NewCaches →
    List Service × State × NewCaches
  | _, [], st, c => ([], st, c)
  | service, s :: rest, st, c =>
    match s.m_Downtimes with
    | none =>
      let q := refreshObjects (service + 1) rest st c
      (s :: q.1, q.2.1, q.2.2)
    | some downtimes =>
      let r := refreshEntries service downtimes st c
      let q := refreshObjects (service + 1) rest r.2.1 r.2.2
      ({ m_Downtimes := some r.1 } :: q.1, q.2.1, q.2.2)

/-- The rebuild proper: the part of `RefreshDowntimesCache` after the stale
flag was found set and cleared. -/
def rebuild (st : State) : State :=
  let st0 : State := { st with l_DowntimesCacheNeedsUpdate := false }
  let r := refreshObjects 0 st0.services st0 { newLegacyDowntimesCache := [], newDowntimesCache := [] }
  let st1 : State :=
    { r.2.1 with
      services := r.1
      l_DowntimesCache := r.2.2.newDowntimesCache
      l_LegacyDowntimesCache := r.2.2.newLegacyDowntimesCache }
  match st1.l_DowntimesExpireTimer with
  | some _ => st1
  | none => { st1 with l_DowntimesExpireTimer := some newExpireTimer }

/-- `Service::RefreshDowntimesCache`. -/
def RefreshDowntimesCache (st : State) : State :=
  if st.l_DowntimesCacheNeedsUpdate then rebuild st else st

/-! ## Expiration sweep -/

/-- The ids `RemoveExpiredDowntimes` collects in `expiredDowntimes`. -/
def expiredDowntimes (downtimes : Downtimes) (now : Int) : List String :=
  (downtimes.filter (fun e => IsDowntimeExpired e.2 now)).map Prod.fst

/-- `Service::RemoveExpiredDowntimes` on the object at position `self`. -/
def RemoveExpiredDowntimes (self : Nat) (now : Int) (st : State) : State :=
  match GetDowntimes self st with
  | none => st
  | some downtimes =>
    let expired := expiredDowntimes downtimes now
    if expired.isEmpty then st
    else Touch self (setDowntimes self (expired.foldl StdMap.erase downtimes) st)

/-- `Service::DowntimesExpireTimerHandler`. -/
def DowntimesExpireTimerHandler (now : Int) (st : State) : State :=
  (List.range st.services.length).foldl (fun s i => RemoveExpiredDowntimes i now s) st

/-! ## Runs of operations -/

/-- One step of a run: an `AddDowntime` call with its arguments and the values
it draws from the clock and the id generator, or a `RefreshDowntimesCache`
timer callback. -/
inductive Op where
  | add (self : Nat) (author comment : String) (startTime endTime : Int) ( fixed : Bool)
      (triggeredBy : String) (duration : Int) (now : Int) (id : String)
  | refresh
deriving DecidableEq, Repr

/-- The step is an `AddDowntime` call. -/
def Op.isAdd : Op → Bool
  | Op.add _ _ _ _ _ _ _ _ _ _ => true
  | Op.refresh => false

/-- The state after one step, or the fault that stopped the process. -/
def Op.apply : Op → State → Except Fault State
  | Op.add self author comment startTime endTime fixed triggeredBy duration now id, st =>
    match AddDowntime self author comment startTime endTime fixed triggeredBy duration now id st with
    | Except.error e => Except.error e
    | Except.ok r => Except.ok r.2
  | Op.refresh, st => Except.ok (RefreshDowntimesCache st)

/-- The state after a sequence of steps, or the first fault. -/
def runOps : List Op → State → Except Fault State
  | [], st => Except.ok st
  | op :: ops, st =>
    match op.apply st with
    | Except.error e => Except.error e
    | Except.ok st1 => runOps ops st1

/-! ## Records across all stores -/

/-- The records of one store as triples (owner, id, legacy id), in iteration order. -/
def storeRecords (service : Nat) (d : Downtimes) : List (Nat × String × Int) :=
  d.map (fun e => (service, e.1, e.2.legacy_id))

/-- The records of the objects from position `base` on, in enumeration order. -/
def recordsFrom : Nat → List Service → List (Nat × String × Int)
  | _, [] => []
  | base, s :: rest =>
    (match s.m_Downtimes with
      | none => []
      | some d => storeRecords base d) ++ recordsFrom (base + 1) rest

/-- The legacy ids of the records of one object. -/
def storeLegacyIds (s : Service) : List Int :=
  match s.m_Downtimes with
  | none => []
  | some d => d.map (fun e => e.2.legacy_id)

/-- The legacy ids of all records of all stores, one entry per record. -/
def legacyIds (st : State) : List Int :=
  (recordsFrom 0 st.services).map (fun r => r.2.2)

/-- Invariant of a run: legacy ids pairwise distinct and below the counter. -/
def LegacyInv (st : State) : Prop :=
  (legacyIds st).Nodup ∧ ∀ x ∈ legacyIds st, x < st.l_NextDowntimeID

/-- Room for the rest of a rebuild pass, with the counter at `next` and `R` the
legacy ids of the records still to visit: the counter is an `int`, and both it
and the successor of each of these ids can still be advanced once per record
to visit without passing `INT_MAX`. No increment of the pass then overflows. -/
def Room (next : Int) (R : List Int) : Prop :=
  INT_MIN ≤ next ∧ next + R.length ≤ INT_MAX ∧ ∀ x ∈ R, x + 1 + R.length ≤ INT_MAX

/-- Room for a whole rebuild from the state `st`: with `N` the number of
records of all stores, `INT_MIN ≤ l_NextDowntimeID`,
`l_NextDowntimeID + N ≤ INT_MAX` and `legacy_id + 1 + N ≤ INT_MAX` for the
legacy id of every record. -/
def Headroom (st : State) : Prop := Room st.l_NextDowntimeID (legacyIds st)

instance (next : Int) (R : List Int) : Decidable (Room next R) := by
  unfold Room
  infer_instance

instance (st : State) : Decidable (Headroom st) := by
  unfold Headroom
  infer_instance

/-- Loop invariant of the rebuild: `P` lists the records visited so far with the
legacy ids the loop left them. -/
structure RebuildInv (st : State) (c : NewCaches) (P : List (Nat × String × Int)) : Prop where
  nodup : (P.map (fun r => r.2.2)).Nodup
  below : ∀ r ∈ P, r.2.2 < st.l_NextDowntimeID
  legacy_sound : ∀ x i, StdMap.find c.newLegacyDowntimesCache x = some i → ∃ o, (o, i, x) ∈ P
  legacy_complete : ∀ r ∈ P, StdMap.find c.newLegacyDowntimesCache r.2.2 = some r.2.1
  cache_sound : ∀ id w, StdMap.find c.newDowntimesCache id = some w →
    ∃ o x, w = some o ∧ (o, id, x) ∈ P
  cache_complete : ∀ r ∈ P, ∃ w, StdMap.find c.newDowntimesCache r.2.1 = some w

/-! ## Order of states in a cascade -/

/-- The record `r'` is the record `r` except that a `trigger_time` of 0 may
have become `now`. -/
def RecLe (now : Int) (r r' : Downtime) : Prop :=
  r' = { r with trigger_time := r'.trigger_time } ∧
  (r'.trigger_time = r.trigger_time ∨ (r.trigger_time = 0 ∧ r'.trigger_time = now))

/-- Entry by entry, `d'` has the keys of `d` and records related by `RecLe`. -/
def StoreLe (now : Int) (d d' : Downtimes) : Prop :=
  List.Forall₂ (fun e e' => e'.1 = e.1 ∧ RecLe now e.2 e'.2) d d'

/-- The state `s'` can follow `s` in a cascade at time `now`: same objects,
stores related by `StoreLe`, every binding of the owner index kept. -/
structure StateLe (now : Int) (s s' : State) : Prop where
  length : s'.services.length = s.services.length
  stores : ∀ o d, GetDowntimes o s = some d →
    ∃ d', GetDowntimes o s' = some d' ∧ StoreLe now d d'
  stores_none : ∀ o, GetDowntimes o s = none → GetDowntimes o s' = none
  cache : ∀ k w, StdMap.find s.l_DowntimesCache k = some w →
    StdMap.find s'.l_DowntimesCache k = some w

/-- The states agree on all stores and on the owner index. -/
def SameStores (s s' : State) : Prop :=
  s.services = s'.services ∧ s.l_DowntimesCache = s'.l_DowntimesCache

/-- Every record that `find` reaches in a store of `s` and whose validity window
contains `now2` has `now1` in its window too. -/
def WindowsKept (now1 now2 : Int) (s : State) : Prop :=
  ∀ o d k r, GetDowntimes o s = some d → StdMap.find d k = some r →
    ¬ (now2 < r.start_time ∨ now2 > r.end_time) →
    ¬ (now1 < r.start_time ∨ now1 > r.end_time)

/-- The trigger relation of `s` descends along `rank`: every id in the
`triggers` of a record stored under `k` has a smaller rank than `k`; the
trigger relation then has no cycle. -/
def Ranked (rank : String → Nat) (s : State) : Prop :=
  ∀ o d k r, GetDowntimes o s = some d → StdMap.find d k = some r →
    ∀ c ∈ StdMap.keys r.triggers, rank c < rank k

/-- What the rebuild may do to an entry: `e'` has the key of `e` and its record
up to `legacy_id`; the `legacy_id` is kept when it occurs once in the list `L`
of all legacy ids and either it is below `c0` and the pass has room (`H`), or
`L` has no duplicates at all. -/
def Kept (H : Prop) (L : List Int) (c0 : Int) (e e' : String × Downtime) : Prop :=
  e'.1 = e.1 ∧ e'.2 = { e.2 with legacy_id := e'.2.legacy_id } ∧
  (L.count e.2.legacy_id = 1 → ((e.2.legacy_id < c0 ∧ H) ∨ L.Nodup) →
    e'.2.legacy_id = e.2.legacy_id)

/-- The relation `Kept` lifted to the store of an object. -/
def KeptStore (H : Prop) (L : List Int) (c0 : Int) (s s' : Service) : Prop :=
  (s.m_Downtimes = none ∧ s'.m_Downtimes = none) ∨
  ∃ d d', s.m_Downtimes = some d ∧ s'.m_Downtimes = some d' ∧ List.Forall₂ (Kept H L c0) d d'

/-- Loop invariant of the rebuild on reassigned ids: with `V` the legacy ids of
the records visited so far as they were before the rebuild and `R` those of
the records still to visit, every key of `newLegacyDowntimesCache` is in `V`
or is an id issued from the counter after a collision. When the pass started
with room (`H`), it still has room and the counter and the issued ids are at
least `c0`. -/
def FreshInv (H : Prop) (c : NewCaches) (V R : List Int) (c0 : Int) (st : State) : Prop :=
  (H → c0 ≤ st.l_NextDowntimeID ∧ Room st.l_NextDowntimeID R) ∧
  ∀ x i, StdMap.find c.newLegacyDowntimesCache x = some i →
    x ∈ V ∨ (¬ V.Nodup ∧ (H → c0 ≤ x))

/-- A call of one operation of the subsystem, with its arguments and the values
it draws from the clock and the id generator. -/
inductive Call where
  | addDowntime (self : Nat) (author comment : String) (startTime endTime : Int)
      ( fixed : Bool) (triggeredBy : String) (duration : Int) (now : Int) (id : String)
  | removeDowntime (id : String)
  | triggerDowntime (fuel : Nat) (id : String) (now : Int)
  | triggerDowntimes (fuel : Nat) (self : Nat) (now : Int)
  | refreshDowntimesCache
  | removeExpiredDowntimes (self : Nat) (now : Int)
deriving DecidableEq, Repr

/-- The state a call leaves, or the fault that stopped it. -/
def Call.run : Call → State → Except Fault State
  | Call.addDowntime self author comment startTime endTime fixed triggeredBy duration now id,
      st =>
    match AddDowntime self author comment startTime endTime fixed triggeredBy duration now id st with
    | Except.error e => Except.error e
    | Except.ok r => Except.ok r.2
  | Call.removeDowntime id, st => Except.ok (RemoveDowntime id st)
  | Call.triggerDowntime fuel id now, st => TriggerDowntime fuel id now st
  | Call.triggerDowntimes fuel self now, st => TriggerDowntimes fuel self now st
  | Call.refreshDowntimesCache, st => Except.ok (RefreshDowntimesCache st)
  | Call.removeExpiredDowntimes self now, st => Except.ok (RemoveExpiredDowntimes self now st)

/-- The clock reading of a call that runs `TriggerDowntime`; none for the others. -/
def Call.triggerClock : Call → Option Int
  | Call.triggerDowntime _ _ now => some now
  | Call.triggerDowntimes _ _ now => some now
  | _ => none

/-- The id an `AddDowntime` call generates is not yet a key of the caller's store. -/
def Call.idFresh : Call → State → Prop
  | Call.addDowntime self _ _ _ _ _ _ _ _ id, st =>
    ∀ d, GetDowntimes self st = some d → StdMap.find d id = none
  | _, _ => True

/-- The record `r'` is `r` except that a `trigger_time` of 0 may have become
`now`, which then lies in the validity window of the record. -/
def RecTrig (now : Int) (r r' : Downtime) : Prop :=
  r' = { r with trigger_time := r'.trigger_time } ∧
  (r'.trigger_time = r.trigger_time ∨
    (r.trigger_time = 0 ∧ r'.trigger_time = now ∧ r.start_time ≤ now ∧ now ≤ r.end_time))

/-- Every record that `find` reaches in a store of `s` is still reached in `s'`,
related by `RecTrig`. -/
def StateTrig (now : Int) (s s' : State) : Prop :=
  ∀ o d, GetDowntimes o s = some d →
    ∃ d', GetDowntimes o s' = some d' ∧
      ∀ k r, StdMap.find d k = some r → ∃ r', StdMap.find d' k = some r' ∧ RecTrig now r r'

/-- The two assignments the rebuild makes for a visited record (owner, id,
legacy id): `newLegacyDowntimesCache[legacy_id] = id` and
`newDowntimesCache[id] = service`. -/
def indexStep (c : NewCaches) (r : Nat × String × Int) : NewCaches :=
  { newLegacyDowntimesCache := StdMap.set intLt c.newLegacyDowntimesCache r.2.2 r.2.1
    newDowntimesCache := StdMap.set strLt c.newDowntimesCache r.2.1 (some r.1) }

/-- The index built from a list of records, in order. -/
def indexFrom (recs : List (Nat × String × Int)) (c : NewCaches) : NewCaches :=
  recs.foldl indexStep c

/-- The id resolves, through the index and its owner's store, to a record whose
validity window contains `now`: the case in which `TriggerDowntime` goes past
its two early returns. -/
def ResolvesInWindow (id : String) (now : Int) (st : State) : Prop :=
  ∃ r, (GetDowntimeByID id st).1 = some r ∧ r.start_time ≤ now ∧ now ≤ r.end_time

/-! ## Example states -/

/-- A flexible downtime with window 100..300, duration 60 and the given `trigger_time`. -/
def flexibleExample (triggerTime : Int) : Downtime :=
  { newDowntime "admin" "flexible" 100 300 false "" 60 0 1 with trigger_time := triggerTime }

/-- A store with one record that ended at 50 and one that ends at 500. -/
def sweepStore : Downtimes :=
  [("a", newDowntime "admin" "old" 10 50 true "" 0 0 1),
   ("b", newDowntime "admin" "current" 10 500 true "" 0 0 2)]

/-- One object owning `sweepStore`. -/
def sweepExample : State :=
  { State.init [{ m_Downtimes := some sweepStore }] with l_NextDowntimeID := 3 }

/-- Two objects whose three records carry the legacy ids 5, 5 and 6, an index
that is stale and still lists a downtime `zz` that no store holds, and the
counter at 1. -/
def collidingExample : State :=
  { services :=
      [{ m_Downtimes := some
          [("a", newDowntime "admin" "first" 100 200 true "" 0 0 5),
           ("b", newDowntime "admin" "second" 100 200 true "" 0 0 5)] },
       { m_Downtimes := some [("c", newDowntime "admin" "third" 100 200 true "" 0 0 6)] }]
    l_NextDowntimeID := 1
    l_LegacyDowntimesCache := [(9, "zz")]
    l_DowntimesCache := [("zz", some 0)]
    l_DowntimesCacheNeedsUpdate := true
    l_DowntimesCacheTimer := some newRefreshTimer
    l_DowntimesExpireTimer := none
    touchLog := [] }

/-- Two objects whose three records all carry the legacy id `INT_MAX`, with
distinct ids, an empty index marked stale and the counter at 1. -/
def overflowExample : State :=
  { services :=
      [{ m_Downtimes := some
          [("a", newDowntime "admin" "first" 100 200 true "" 0 0 2147483647),
           ("b", newDowntime "admin" "second" 100 200 true "" 0 0 2147483647)] },
       { m_Downtimes := some
          [("c", newDowntime "admin" "third" 100 200 true "" 0 0 2147483647)] }]
    l_NextDowntimeID := 1
    l_LegacyDowntimesCache := []
    l_DowntimesCache := []
    l_DowntimesCacheNeedsUpdate := true
    l_DowntimesCacheTimer := some newRefreshTimer
    l_DowntimesExpireTimer := none
    touchLog := [] }

/-- One object whose four records carry the legacy ids `INT_MAX`, 7, 7 and 8,
with the index marked stale and the counter at 100. -/
def overflowFrameExample : State :=
  { services :=
      [{ m_Downtimes := some
          [("a", newDowntime "admin" "first" 100 200 true "" 0 0 2147483647),
           ("b", newDowntime "admin" "second" 100 200 true "" 0 0 7),
           ("c", newDowntime "admin" "third" 100 200 true "" 0 0 7),
           ("d", newDowntime "admin" "fourth" 100 200 true "" 0 0 8)] }]
    l_NextDowntimeID := 100
    l_LegacyDowntimesCache := []
    l_DowntimesCache := []
    l_DowntimesCacheNeedsUpdate := true
    l_DowntimesCacheTimer := some newRefreshTimer
    l_DowntimesExpireTimer := none
    touchLog := [] }

/-- The generated id of the `k`-th call of `addRun`: the letter `a`, `k` times. -/
def longId (k : Nat) : String := String.mk (List.replicate k 'a')

/-- A run of `n` `AddDowntime` calls on object 0 with empty `triggeredBy`, the
`k`-th (from 0) with the generated id `longId k`. -/
def addRun (n : Nat) : List Op :=
  (List.range n).map (fun k => Op.add 0 "admin" "" 100 200 true "" 0 0 (longId k))

/-- Two objects without downtimes. -/
def twoObjects : List Service := [{ m_Downtimes := none }, { m_Downtimes := none }]

/-- A process with two objects without downtimes whose counter stands at
`INT_MAX`. -/
def counterAtMax : State := { State.init twoObjects with l_NextDowntimeID := 2147483647 }

/-- A run: a downtime `P` on object 0, a rebuild, a downtime `C` on object 1
with `triggeredBy = P`, a rebuild, a downtime `Q` on object 0, a rebuild. -/
def runExample : List Op :=
  [Op.add 0 "admin" "parent" 100 200 false "" 60 10 "P",
   Op.refresh,
   Op.add 1 "admin" "child" 100 200 false "P" 60 11 "C",
   Op.refresh,
   Op.add 0 "admin" "other" 100 200 true "" 0 12 "Q",
   Op.refresh]

/-- The first four steps of `runExample`: parent `P` on object 0, child `C` on
object 1 created with `triggeredBy = P`, the index rebuilt after each. -/
def familyOps : List Op := runExample.take 4

/-- The state a run leaves; the unchanged start state if it faults. -/
def stateAfter (ops : List Op) (st : State) : State :=
  match runOps ops st with
  | Except.ok st1 => st1
  | Except.error _ => st

/-- The state after `P` was added, before any rebuild of the index. -/
def unindexedParentState : State := stateAfter (runExample.take 1) (State.init twoObjects)

/-- The state after `P` was added and the index rebuilt. -/
def parentState : State := stateAfter (runExample.take 2) (State.init twoObjects)

/-- The state after `P` and its child `C` were added and the index rebuilt. -/
def familyState : State := stateAfter familyOps (State.init twoObjects)

/-- The record of `P` in `familyState` once its `trigger_time` is 150: its
`triggers` hold its own id, as `AddDowntime` of the child left them. -/
def parentTriggered : Downtime :=
  { newDowntime "admin" "parent" 100 200 false "" 60 10 1 with
    triggers := [("P", "P")]
    trigger_time := 150 }

/-- The state `familyState` with the `trigger_time` of `P` set to 150. -/
def familyTriggered : State := setTriggerTime 0 "P" 150 familyState

/-- A parent `P` on object 0 whose `triggers` hold its child `C` on object 1,
both listed in the index; neither is triggered yet. -/
def cascadeExample : State :=
  { State.init
      [{ m_Downtimes := some
          [("P", { newDowntime "admin" "parent" 100 200 false "" 60 10 1 with
                   triggers := [("C", "C")] })] },
       { m_Downtimes := some [("C", newDowntime "admin" "child" 120 180 false "P" 60 11 2)] }] with
    l_NextDowntimeID := 3
    l_LegacyDowntimesCache := [(1, "P"), (2, "C")]
    l_DowntimesCache := [("C", some 1), ("P", some 0)] }

/-- The state `TriggerDowntime(P)` at time 150 leaves from `cascadeExample`. -/
def cascadeTriggered : State :=
  match TriggerDowntime 2 "P" 150 cascadeExample with
  | Except.ok s => s
  | Except.error _ => cascadeExample

/-- One object with an untriggered downtime `a` whose window 100..200 has not
opened yet at time 99; the index resolves `a`. -/
def pendingExample : State :=
  { State.init
      [{ m_Downtimes := some [("a", newDowntime "admin" "pending" 100 200 false "" 60 0 1)] }] with
    l_NextDowntimeID := 2
    l_LegacyDowntimesCache := [(1, "a")]
    l_DowntimesCache := [("a", some 0)] }

/-- Two downtimes `A` and `B` of object 0 that trigger each other, both with
window 100..200 and listed in the index. -/
def cycleExample : State :=
  { State.init
      [{ m_Downtimes := some
          [("A", { newDowntime "admin" "first" 100 200 false "" 60 10 1 with
                   triggers := [("B", "B")] }),
           ("B", { newDowntime "admin" "second" 100 200 false "" 60 11 2 with
                   triggers := [("A", "A")] })] }] with
    l_NextDowntimeID := 3
    l_LegacyDowntimesCache := [(1, "A"), (2, "B")]
    l_DowntimesCache := [("A", some 0), ("B", some 0)] }

/-- The state `cycleExample` once `A` is triggered at 150. -/
def cycleHalf : State := setTriggerTime 0 "A" 150 cycleExample

/-- The state `cycleExample` once `A` and `B` are triggered at 150. -/
def cycleTriggered : State := setTriggerTime 0 "B" 150 cycleHalf

/-- The record of `A` in `cycleExample`. -/
def cycleA : Downtime :=
  { newDowntime "admin" "first" 100 200 false "" 60 10 1 with triggers := [("B", "B")] }

/-- The record of `B` in `cycleExample`. -/
def cycleB : Downtime :=
  { newDowntime "admin" "second" 100 200 false "" 60 11 2 with triggers := [("A", "A")] }

/-- The rank of the ids of `cascadeExample`: the parent above the child. -/
def cascadeRank (id : String) : Nat := if id = "P" then 1 else 0

/-- A trigger relation without a cycle in which `C` is reached along two paths:
`P` triggers `A` and `B`, and both trigger `C`. Object 0 owns `P`, `A` and
`B`; object 1 owns only `C`. -/
def diamondExample : State :=
  { State.init
      [{ m_Downtimes := some
          [("A", { newDowntime "admin" "left" 100 200 false "P" 60 11 2 with
                   triggers := [("C", "C")] }),
           ("B", { newDowntime "admin" "right" 100 200 false "P" 60 12 3 with
                   triggers := [("C", "C")] }),
           ("P", { newDowntime "admin" "top" 100 200 false "" 60 10 1 with
                   triggers := [("A", "A"), ("B", "B")] })] },
       { m_Downtimes := some [("C", newDowntime "admin" "bottom" 100 200 false "A" 60 13 4)] }] with
    l_NextDowntimeID := 5
    l_LegacyDowntimesCache := [(1, "P"), (2, "A"), (3, "B"), (4, "C")]
    l_DowntimesCache := [("A", some 0), ("B", some 0), ("C", some 1), ("P", some 0)] }

/-- The notifications a returned call has issued; none for a call that faults. -/
def touchesOf (r : Except Fault State) : List Nat :=
  match r with
  | Except.ok s => s.touchLog
  | Except.error _ => []

/-! ## Lemmas on maps and state access -/


theorem strLt_irrefl (a : String) : strLt a a = false := by
  simp [strLt]

theorem StdMap.WF.nodup_keys {V : Type} {m : List (String × V)} (h : StdMap.WF strLt m) :
    (StdMap.keys m).Nodup := by
  unfold StdMap.keys
  rw [List.Nodup, List.pairwise_map]
  refine h.imp ?_
  intro a b hab heq
  rw [heq, strLt_irrefl] at hab
  exact Bool.false_ne_true hab

theorem StdMap.foldl_erase {K V : Type} [DecidableEq K] (ks : List K) (m : List (K × V)) :
    ks.foldl StdMap.erase m = m.filter (fun e => decide (e.1 ∉ ks)) := by
  induction ks generalizing m with
  | nil => simp
  | cons k ks ih =>
    rw [List.foldl_cons, ih, StdMap.erase, List.filter_filter]
    apply List.filter_congr
    intro e _
    by_cases h1 : e.1 = k <;> by_cases h2 : e.1 ∈ ks <;> simp [h1, h2]

theorem length_modifyAt {α : Type} (f : α → α) (l : List α) (n : Nat) :
    (modifyAt f l n).length = l.length := by
  induction l generalizing n with
  | nil => rfl
  | cons x xs ih => cases n <;> simp [modifyAt, ih]

theorem getElem?_modifyAt {α : Type} (f : α → α) (l : List α) (n m : Nat) :
    (modifyAt f l n)[m]? = if m = n then l[m]?.map f else l[m]? := by
  induction l generalizing n m with
  | nil => simp [modifyAt]
  | cons x xs ih =>
    cases n with
    | zero => cases m <;> simp [modifyAt]
    | succ n => cases m <;> simp [modifyAt, ih]

theorem GetDowntimes_setDowntimes (self other : Nat) (d : Downtimes) (st : State) :
    GetDowntimes other (setDowntimes self d st) =
      if other = self ∧ self < st.services.length then some d else GetDowntimes other st := by
  unfold GetDowntimes setDowntimes
  simp only [getElem?_modifyAt]
  by_cases h : other = self
  · subst h
    by_cases hl : other < st.services.length
    · simp [hl, List.getElem?_eq_getElem hl]
    · simp [hl, List.getElem?_eq_none (Nat.le_of_not_lt hl)]
  · simp [h]

theorem services_InvalidateDowntimesCache (st : State) :
    (InvalidateDowntimesCache st).services = st.services := by
  unfold InvalidateDowntimesCache
  split
  · rfl
  · cases st.l_DowntimesCacheTimer <;> rfl

theorem services_Touch (self : Nat) (st : State) : (Touch self st).services = st.services := by
  unfold Touch
  rw [services_InvalidateDowntimesCache]

theorem GetDowntimes_Touch (self other : Nat) (st : State) :
    GetDowntimes other (Touch self st) = GetDowntimes other st := by
  unfold GetDowntimes
  rw [services_Touch]

theorem GetDowntimes_lt {self : Nat} {st : State} {d : Downtimes}
    (h : GetDowntimes self st = some d) : self < st.services.length := by
  unfold GetDowntimes at h
  by_contra hl
  rw [List.getElem?_eq_none (Nat.le_of_not_lt hl)] at h
  simp at h

/-- C1: for a fixed downtime `IsDowntimeActive` returns true exactly when
`start_time <= now <= end_time`, whatever `trigger_time` and `duration` are. -/
theorem IsDowntimeActive_fixed (downtime : Downtime) (now : Int)
    (hfixed : downtime.fixed = true) :
    IsDowntimeActive downtime now
      = decide (downtime.start_time ≤ now ∧ now ≤ downtime.end_time) := by
  unfold IsDowntimeActive
  by_cases h : now < downtime.start_time ∨ now > downtime.end_time
  · rw [if_pos h]
    symm
    rw [decide_eq_false_iff_not]
    omega
  · rw [if_neg h, if_pos hfixed]
    symm
    rw [decide_eq_true_iff]
    omega

/-- Scenario A: window 100..200, active at 150, not active at 250. -/
theorem IsDowntimeActive_fixed_witness :
    (newDowntime "admin" "maintenance" 100 200 true "" 0 0 1).fixed = true ∧
    IsDowntimeActive (newDowntime "admin" "maintenance" 100 200 true "" 0 0 1) 150 = true ∧
    IsDowntimeActive (newDowntime "admin" "maintenance" 100 200 true "" 0 0 1) 250 = false :=
  ⟨rfl,
   (IsDowntimeActive_fixed (newDowntime "admin" "maintenance" 100 200 true "" 0 0 1) 150 rfl).trans
     (by decide),
   (IsDowntimeActive_fixed (newDowntime "admin" "maintenance" 100 200 true "" 0 0 1) 250 rfl).trans
     (by decide)⟩

/-- C2: for a flexible downtime and `now` inside the validity window,
`IsDowntimeActive` returns false when `trigger_time` is 0, and otherwise returns
true exactly when `trigger_time + duration < now`. -/
theorem IsDowntimeActive_flexible (downtime : Downtime) (now : Int)
    (hfixed : downtime.fixed = false)
    (hwindow : downtime.start_time ≤ now ∧ now ≤ downtime.end_time) :
    (downtime.trigger_time = 0 → IsDowntimeActive downtime now = false) ∧
    (downtime.trigger_time ≠ 0 →
      (IsDowntimeActive downtime now = true ↔
        downtime.trigger_time + downtime.duration < now)) := by
  have hw : ¬ (now < downtime.start_time ∨ now > downtime.end_time) := by omega
  unfold IsDowntimeActive
  rw [if_neg hw]
  simp only [hfixed, Bool.false_eq_true, if_false]
  constructor
  · intro h0
    rw [if_pos h0]
  · intro h0
    rw [if_neg h0, decide_eq_true_iff]


theorem StdMap.find_eq_none {K V : Type} [DecidableEq K] {m : List (K × V)} {k : K}
    (h : k ∉ StdMap.keys m) : StdMap.find m k = none := by
  induction m with
  | nil => rfl
  | cons e rest ih =>
    obtain ⟨k', v⟩ := e
    simp only [StdMap.keys, List.map_cons, List.mem_cons, not_or] at h
    simp only [StdMap.find]
    rw [if_neg (fun heq => h.1 heq.symm)]
    exact ih h.2

theorem StdMap.find_filter {K V : Type} [DecidableEq K] (p : V → Bool) {m : List (K × V)}
    (h : (StdMap.keys m).Nodup) (k : K) :
    StdMap.find (m.filter (fun e => p e.2)) k = (StdMap.find m k).filter p := by
  induction m with
  | nil => rfl
  | cons e rest ih =>
    obtain ⟨k', v⟩ := e
    simp only [StdMap.keys, List.map_cons, List.nodup_cons] at h
    have ih' := ih h.2
    by_cases hk : k' = k
    · subst hk
      have hnone : StdMap.find rest k' = none := StdMap.find_eq_none h.1
      by_cases hp : p v = true
      · simp [List.filter_cons, hp, StdMap.find, Option.filter]
      · simp [List.filter_cons, hp, StdMap.find, Option.filter, ih', hnone]
    · by_cases hp : p v = true
      · simp [List.filter_cons, hp, StdMap.find, hk, ih']
      · simp [List.filter_cons, hp, StdMap.find, hk, ih']

theorem mem_expiredDowntimes {downtimes : Downtimes} (h : (StdMap.keys downtimes).Nodup)
    (now : Int) {e : String × Downtime} (he : e ∈ downtimes) :
    e.1 ∈ expiredDowntimes downtimes now ↔ e.2.end_time < now := by
  unfold expiredDowntimes IsDowntimeExpired
  simp only [List.mem_map, List.mem_filter, decide_eq_true_eq]
  constructor
  · rintro ⟨e', ⟨he', hexp⟩, hkey⟩
    have : e' = e := List.inj_on_of_nodup_map h he' he hkey
    rw [← this]
    exact hexp
  · intro hexp
    exact ⟨e, ⟨he, hexp⟩, rfl⟩

theorem sweep_eq_filter {downtimes : Downtimes} (h : (StdMap.keys downtimes).Nodup) (now : Int) :
    (expiredDowntimes downtimes now).foldl StdMap.erase downtimes
      = downtimes.filter (fun e => !IsDowntimeExpired e.2 now) := by
  rw [StdMap.foldl_erase]
  apply List.filter_congr
  intro e he
  have := mem_expiredDowntimes h now he
  by_cases hx : e.2.end_time < now
  · simp [IsDowntimeExpired, hx, this.mpr hx]
  · simp [IsDowntimeExpired, hx, mt this.mp hx]

/-- Scenario B: duration 60, triggered at 120: not active at 150, active at
181; an untriggered record is not active. -/
theorem IsDowntimeActive_flexible_witness :
    IsDowntimeActive (flexibleExample 120) 150 = false ∧
    IsDowntimeActive (flexibleExample 120) 181 = true ∧
    IsDowntimeActive (flexibleExample 0) 150 = false :=
  ⟨Bool.eq_false_iff.mpr (fun h =>
      absurd (((IsDowntimeActive_flexible (flexibleExample 120) 150 rfl (by decide)).2
        (by decide)).mp h) (by decide)),
   ((IsDowntimeActive_flexible (flexibleExample 120) 181 rfl (by decide)).2 (by decide)).mpr
      (by decide),
   (IsDowntimeActive_flexible (flexibleExample 0) 150 rfl (by decide)).1 rfl⟩

/-- C3: after `RemoveExpiredDowntimes` the store holds exactly the entries of
the original store whose `end_time` is not `< now`: an id whose record has
`end_time < now` is absent, every other id is present with its record
unchanged, and no id appears that was not there. -/
theorem RemoveExpiredDowntimes_store (self : Nat) (now : Int) (st : State)
    (downtimes : Downtimes)
    (hstore : GetDowntimes self st = some downtimes)
    (hwf : StdMap.WF strLt downtimes) :
    ∃ remaining : Downtimes,
      GetDowntimes self (RemoveExpiredDowntimes self now st) = some remaining ∧
      remaining = downtimes.filter (fun e => decide (¬ e.2.end_time < now)) ∧
      (∀ id record, StdMap.find downtimes id = some record → record.end_time < now →
        StdMap.find remaining id = none) ∧
      (∀ id record, StdMap.find downtimes id = some record → ¬ record.end_time < now →
        StdMap.find remaining id = some record) ∧
      (∀ id, StdMap.find downtimes id = none → StdMap.find remaining id = none) := by
  have hnodup := hwf.nodup_keys
  have hfilter : (fun e : String × Downtime => decide (¬ e.2.end_time < now))
      = (fun e => !IsDowntimeExpired e.2 now) := by
    funext e
    by_cases hx : e.2.end_time < now <;> simp [IsDowntimeExpired, hx]
  have hfind : ∀ id, StdMap.find (downtimes.filter (fun e => decide (¬ e.2.end_time < now))) id
      = (StdMap.find downtimes id).filter (fun r => decide (¬ r.end_time < now)) :=
    fun id => StdMap.find_filter (fun r => decide (¬ r.end_time < now)) hnodup id
  refine ⟨downtimes.filter (fun e => decide (¬ e.2.end_time < now)), ?_, rfl, ?_, ?_, ?_⟩
  · unfold RemoveExpiredDowntimes
    rw [hstore]
    simp only
    split
    · rename_i hempty
      rw [hstore, hfilter, ← sweep_eq_filter hnodup now]
      rw [List.isEmpty_iff] at hempty
      rw [hempty]
      rfl
    · rw [GetDowntimes_Touch, GetDowntimes_setDowntimes, if_pos ⟨rfl, GetDowntimes_lt hstore⟩,
        hfilter, sweep_eq_filter hnodup now]
  · intro id record hrec hexp
    rw [hfind, hrec]
    simp [Option.filter, hexp]
  · intro id record hrec hexp
    rw [hfind, hrec]
    simp [Option.filter, hexp]
  · intro id hnone
    rw [hfind, hnone]
    rfl

/-- The sweep at time 100 removes the record that ended at 50 and keeps the other. -/
theorem RemoveExpiredDowntimes_store_witness :
    StdMap.WF strLt sweepStore ∧
    GetDowntimes 0 (RemoveExpiredDowntimes 0 100 sweepExample)
      = some [("b", newDowntime "admin" "current" 10 500 true "" 0 0 2)] :=
  ⟨by unfold StdMap.WF; decide,
   match RemoveExpiredDowntimes_store 0 100 sweepExample sweepStore rfl
      (by unfold StdMap.WF; decide) with
   | ⟨_, hget, heq, _⟩ => hget.trans (congrArg some (heq.trans (by decide)))⟩

theorem StdMap.find_set {K V : Type} [DecidableEq K] (lt : K → K → Bool)
    (m : List (K × V)) (k : K) (v : V) (k' : K) :
    StdMap.find (StdMap.set lt m k v) k' = if k' = k then some v else StdMap.find m k' := by
  induction m with
  | nil =>
    simp only [StdMap.set, StdMap.find]
    by_cases h : k = k'
    · simp [h]
    · have h' : ¬ k' = k := fun e => h e.symm
      simp [h, h']
  | cons e rest ih =>
    obtain ⟨k0, v0⟩ := e
    simp only [StdMap.set]
    split
    · simp only [StdMap.find]
      by_cases h : k = k'
      · simp [h]
      · have h' : ¬ k' = k := fun e => h e.symm
        simp [h, h']
    · split
      · rename_i _ hk
        subst hk
        simp only [StdMap.find]
        by_cases h : k = k'
        · simp [h]
        · have h' : ¬ k' = k := fun e => h e.symm
          simp [h, h']
      · rename_i _ hk
        simp only [StdMap.find, ih]
        by_cases h : k0 = k'
        · have : ¬ k' = k := fun h' => hk (h'.symm.trans h.symm)
          simp [h, this]
        · simp [h]

theorem l_NextDowntimeID_InvalidateDowntimesCache (st : State) :
    (InvalidateDowntimesCache st).l_NextDowntimeID = st.l_NextDowntimeID := by
  unfold InvalidateDowntimesCache
  split
  · rfl
  · cases st.l_DowntimesCacheTimer <;> rfl

theorem l_NextDowntimeID_Touch (self : Nat) (st : State) :
    (Touch self st).l_NextDowntimeID = st.l_NextDowntimeID := by
  unfold Touch
  rw [l_NextDowntimeID_InvalidateDowntimesCache]

/-! ## The rebuild -/

theorem wrapInt_of_range {x : Int} (h1 : INT_MIN ≤ x) (h2 : x ≤ INT_MAX) : wrapInt x = x := by
  unfold INT_MIN at h1
  unfold INT_MAX at h2
  unfold wrapInt
  omega

theorem recordsFrom_legacy (base : Nat) (svcs : List Service) :
    (recordsFrom base svcs).map (fun r => r.2.2) = svcs.flatMap storeLegacyIds := by
  induction svcs generalizing base with
  | nil => rfl
  | cons s rest ih =>
    simp only [recordsFrom, List.map_append, ih, List.flatMap_cons]
    congr 1
    unfold storeLegacyIds
    cases s.m_Downtimes with
    | none => rfl
    | some d => simp [storeRecords]

theorem legacyIds_eq (st : State) : legacyIds st = st.services.flatMap storeLegacyIds :=
  recordsFrom_legacy 0 st.services

theorem refreshEntry_of_room {st : State} {R : List Int} (service : Nat) (id : String)
    (downtime : Downtime) (c : NewCaches)
    (h : Room st.l_NextDowntimeID (downtime.legacy_id :: R)) :
    refreshEntry service id downtime st c =
      (let st1 : State :=
        if downtime.legacy_id ≥ st.l_NextDowntimeID then
          { st with l_NextDowntimeID := downtime.legacy_id + 1 }
        else st
      if (StdMap.find c.newLegacyDowntimesCache downtime.legacy_id).isSome then
        ({ downtime with legacy_id := st1.l_NextDowntimeID },
          Touch service { st1 with l_NextDowntimeID := st1.l_NextDowntimeID + 1 },
          { newLegacyDowntimesCache :=
              StdMap.set intLt c.newLegacyDowntimesCache st1.l_NextDowntimeID id
            newDowntimesCache := StdMap.set strLt c.newDowntimesCache id (some service) })
      else
        (downtime, st1,
          { newLegacyDowntimesCache :=
              StdMap.set intLt c.newLegacyDowntimesCache downtime.legacy_id id
            newDowntimesCache := StdMap.set strLt c.newDowntimesCache id (some service) })) := by
  obtain ⟨h1, h2, h3⟩ := h
  have hx := h3 _ (List.mem_cons_self _ _)
  simp only [List.length_cons, Nat.cast_add, Nat.cast_one, INT_MIN, INT_MAX] at h1 h2 hx
  unfold refreshEntry
  by_cases hge : downtime.legacy_id ≥ st.l_NextDowntimeID
  · have e1 : wrapInt (downtime.legacy_id + 1) = downtime.legacy_id + 1 := by
      unfold wrapInt
      omega
    have e2 : wrapInt (downtime.legacy_id + 1 + 1) = downtime.legacy_id + 1 + 1 := by
      unfold wrapInt
      omega
    simp only [if_pos hge, e1, e2]
  · have e2 : wrapInt (st.l_NextDowntimeID + 1) = st.l_NextDowntimeID + 1 := by
      unfold wrapInt
      omega
    simp only [if_neg hge, e2]

theorem refreshEntry_room {st : State} {R : List Int} (service : Nat) (id : String)
    (downtime : Downtime) (c : NewCaches)
    (h : Room st.l_NextDowntimeID (downtime.legacy_id :: R)) :
    st.l_NextDowntimeID ≤ (refreshEntry service id downtime st c).2.1.l_NextDowntimeID ∧
    Room (refreshEntry service id downtime st c).2.1.l_NextDowntimeID R := by
  rw [refreshEntry_of_room service id downtime c h]
  obtain ⟨h1, h2, h3⟩ := h
  have hx := h3 _ (List.mem_cons_self _ _)
  have hrest : ∀ y ∈ R, y + 1 + (R.length : Int) ≤ INT_MAX := by
    intro y hy
    have := h3 y (List.mem_cons_of_mem _ hy)
    simp only [List.length_cons, Nat.cast_add, Nat.cast_one] at this
    omega
  simp only [List.length_cons, Nat.cast_add, Nat.cast_one] at h2 hx
  simp only
  unfold Room
  split
  · rw [l_NextDowntimeID_Touch]
    simp only
    refine ⟨?_, ?_, ?_, hrest⟩ <;> split <;> first | omega | (simp only; omega)
  · refine ⟨?_, ?_, ?_, hrest⟩ <;> split <;> first | omega | (simp only; omega)

theorem RebuildInv.extend {st st' : State} {c : NewCaches} {P : List (Nat × String × Int)}
    (h : RebuildInv st c P) (service : Nat) (id : String) (x : Int)
    (hfresh : StdMap.find c.newLegacyDowntimesCache x = none)
    (hx : x < st'.l_NextDowntimeID) (hmono : st.l_NextDowntimeID ≤ st'.l_NextDowntimeID) :
    RebuildInv st'
      { newLegacyDowntimesCache := StdMap.set intLt c.newLegacyDowntimesCache x id
        newDowntimesCache := StdMap.set strLt c.newDowntimesCache id (some service) }
      (P ++ [(service, id, x)]) := by
  have hnotin : ∀ r ∈ P, r.2.2 ≠ x := by
    intro r hr heq
    have := h.legacy_complete r hr
    rw [heq, hfresh] at this
    exact Option.noConfusion this
  constructor
  · rw [List.map_append, List.nodup_append]
    refine ⟨h.nodup, by simp, ?_⟩
    intro a ha hb
    simp only [List.map_cons, List.map_nil, List.mem_singleton] at hb
    obtain ⟨r, hr, hra⟩ := List.mem_map.mp ha
    exact hnotin r hr (hra.trans hb)
  · intro r hr
    rcases List.mem_append.mp hr with hr | hr
    · exact lt_of_lt_of_le (h.below r hr) hmono
    · rw [List.mem_singleton.mp hr]
      exact hx
  · intro y i hy
    simp only [StdMap.find_set] at hy
    split at hy
    · rename_i hyx
      injection hy with hy
      exact ⟨service, List.mem_append_right _ (by simp [hyx, hy])⟩
    · obtain ⟨o, ho⟩ := h.legacy_sound y i hy
      exact ⟨o, List.mem_append_left _ ho⟩
  · intro r hr
    simp only [StdMap.find_set]
    rcases List.mem_append.mp hr with hr | hr
    · rw [if_neg (hnotin r hr)]
      exact h.legacy_complete r hr
    · rw [List.mem_singleton.mp hr]
      simp
  · intro i w hw
    simp only [StdMap.find_set] at hw
    split at hw
    · rename_i hi
      injection hw with hw
      exact ⟨service, x, hw.symm, List.mem_append_right _ (by simp [hi])⟩
    · obtain ⟨o, y, hwo, ho⟩ := h.cache_sound i w hw
      exact ⟨o, y, hwo, List.mem_append_left _ ho⟩
  · intro r hr
    simp only [StdMap.find_set]
    rcases List.mem_append.mp hr with hr | hr
    · split
      · exact ⟨_, rfl⟩
      · exact h.cache_complete r hr
    · rw [List.mem_singleton.mp hr]
      simp

theorem refreshEntry_inv {st : State} {c : NewCaches} {P : List (Nat × String × Int)}
    {R : List Int} (h : RebuildInv st c P) (service : Nat) (id : String) (downtime : Downtime)
    (hroom : Room st.l_NextDowntimeID (downtime.legacy_id :: R)) :
    RebuildInv (refreshEntry service id downtime st c).2.1
      (refreshEntry service id downtime st c).2.2
      (P ++ [(service, id, (refreshEntry service id downtime st c).1.legacy_id)]) := by
  rw [refreshEntry_of_room service id downtime c hroom]
  simp only
  split
  · rename_i hcoll
    apply h.extend
    · cases hf : StdMap.find c.newLegacyDowntimesCache
          (if downtime.legacy_id ≥ st.l_NextDowntimeID then
            { st with l_NextDowntimeID := downtime.legacy_id + 1 } else st).l_NextDowntimeID with
      | none => rfl
      | some i =>
        obtain ⟨o, ho⟩ := h.legacy_sound _ _ hf
        have := h.below _ ho
        simp only at this
        split at this <;> first | omega | (simp only at this; omega)
    · rw [l_NextDowntimeID_Touch]
      simp only
      omega
    · rw [l_NextDowntimeID_Touch]
      simp only
      split <;> first | omega | (simp only; omega)
  · rename_i hcoll
    apply h.extend
    · cases hf : StdMap.find c.newLegacyDowntimesCache downtime.legacy_id with
      | none => rfl
      | some i => simp [hf] at hcoll
    · split <;> first | omega | (simp only; omega)
    · split <;> first | omega | (simp only; omega)

theorem refreshEntries_inv (service : Nat) (d : Downtimes) {st : State} {c : NewCaches}
    {P : List (Nat × String × Int)} (T : List Int) (h : RebuildInv st c P)
    (hroom : Room st.l_NextDowntimeID (d.map (fun e => e.2.legacy_id) ++ T)) :
    RebuildInv (refreshEntries service d st c).2.1 (refreshEntries service d st c).2.2
      (P ++ storeRecords service (refreshEntries service d st c).1) ∧
    Room (refreshEntries service d st c).2.1.l_NextDowntimeID T := by
  induction d generalizing st c P with
  | nil => exact ⟨by simpa [refreshEntries, storeRecords] using h, by simpa using hroom⟩
  | cons e rest ih =>
    obtain ⟨id, downtime⟩ := e
    simp only [List.map_cons, List.cons_append] at hroom
    have h1 := refreshEntry_inv h service id downtime hroom
    have h2 := ih h1 (refreshEntry_room service id downtime c hroom).2
    simp only [refreshEntries, storeRecords, List.map_cons]
    simp only [storeRecords, List.append_assoc, List.singleton_append] at h2
    exact h2

theorem refreshObjects_inv (base : Nat) (svcs : List Service) {st : State} {c : NewCaches}
    {P : List (Nat × String × Int)} (T : List Int) (h : RebuildInv st c P)
    (hroom : Room st.l_NextDowntimeID (svcs.flatMap storeLegacyIds ++ T)) :
    RebuildInv (refreshObjects base svcs st c).2.1 (refreshObjects base svcs st c).2.2
      (P ++ recordsFrom base (refreshObjects base svcs st c).1) ∧
    Room (refreshObjects base svcs st c).2.1.l_NextDowntimeID T := by
  induction svcs generalizing base st c P with
  | nil => exact ⟨by simpa [refreshObjects, recordsFrom] using h, by simpa using hroom⟩
  | cons s rest ih =>
    unfold refreshObjects
    cases hs : s.m_Downtimes with
    | none =>
      have hnil : storeLegacyIds s = [] := by simp [storeLegacyIds, hs]
      simp only [List.flatMap_cons, hnil, List.nil_append] at hroom
      simp only [recordsFrom, hs, List.nil_append]
      exact ih (base + 1) h hroom
    | some d =>
      have hd : storeLegacyIds s = d.map (fun e => e.2.legacy_id) := by
        simp [storeLegacyIds, hs]
      simp only [List.flatMap_cons, hd, List.append_assoc] at hroom
      simp only [recordsFrom]
      have h1 := refreshEntries_inv base d (rest.flatMap storeLegacyIds ++ T) h hroom
      have h2 := ih (base + 1) h1.1 h1.2
      rw [List.append_assoc] at h2
      exact h2


theorem RebuildInv.of_counter_eq {st st' : State} {c : NewCaches}
    {P : List (Nat × String × Int)} (h : RebuildInv st c P)
    (heq : st'.l_NextDowntimeID = st.l_NextDowntimeID) : RebuildInv st' c P :=
  { nodup := h.nodup
    below := fun r hr => heq ▸ h.below r hr
    legacy_sound := h.legacy_sound
    legacy_complete := h.legacy_complete
    cache_sound := h.cache_sound
    cache_complete := h.cache_complete }

theorem RebuildInv.start (st : State) :
    RebuildInv st { newLegacyDowntimesCache := [], newDowntimesCache := [] } [] :=
  { nodup := List.nodup_nil
    below := fun _ hr => absurd hr (List.not_mem_nil _)
    legacy_sound := fun _ _ h => Option.noConfusion h
    legacy_complete := fun _ hr => absurd hr (List.not_mem_nil _)
    cache_sound := fun _ _ h => Option.noConfusion h
    cache_complete := fun _ hr => absurd hr (List.not_mem_nil _) }

theorem rebuild_inv (st : State) (hroom : Headroom st) :
    RebuildInv (rebuild st)
      { newLegacyDowntimesCache := (rebuild st).l_LegacyDowntimesCache
        newDowntimesCache := (rebuild st).l_DowntimesCache }
      (recordsFrom 0 (rebuild st).services) := by
  have hroom' : Room ({ st with l_DowntimesCacheNeedsUpdate := false } : State).l_NextDowntimeID
      (st.services.flatMap storeLegacyIds ++ []) := by
    rw [List.append_nil, ← legacyIds_eq]
    exact hroom
  have h := (refreshObjects_inv 0 st.services []
    (RebuildInv.start { st with l_DowntimesCacheNeedsUpdate := false }) hroom').1
  rw [List.nil_append] at h
  unfold rebuild
  simp only
  split <;> exact h.of_counter_eq rfl

theorem mem_recordsFrom {base : Nat} {svcs : List Service} {o : Nat} {id : String} {x : Int} :
    (o, id, x) ∈ recordsFrom base svcs ↔
      base ≤ o ∧ ∃ d, svcs[o - base]?.bind (fun s => s.m_Downtimes) = some d ∧
        ∃ e ∈ d, e.1 = id ∧ e.2.legacy_id = x := by
  induction svcs generalizing base with
  | nil => simp [recordsFrom]
  | cons s rest ih =>
    simp only [recordsFrom, List.mem_append, ih]
    constructor
    · rintro (h | ⟨hle, d, hd, he⟩)
      · cases hs : s.m_Downtimes with
        | none => simp [hs] at h
        | some d =>
          simp only [hs, storeRecords, List.mem_map, Prod.mk.injEq] at h
          obtain ⟨e, he, hbase, hid, hx⟩ := h
          subst hbase
          exact ⟨le_refl _, d, by simp [hs], e, he, hid, hx⟩
      · refine ⟨by omega, d, ?_, he⟩
        have : o - base = (o - (base + 1)) + 1 := by omega
        rw [this, List.getElem?_cons_succ]
        exact hd
    · rintro ⟨hle, d, hd, e, he, hid, hx⟩
      by_cases hob : o = base
      · left
        subst hob
        simp only [Nat.sub_self, List.getElem?_cons_zero, Option.some_bind] at hd
        simp only [hd, storeRecords, List.mem_map, Prod.mk.injEq]
        exact ⟨e, he, trivial, hid, hx⟩
      · right
        refine ⟨by omega, d, ?_, e, he, hid, hx⟩
        have : o - base = (o - (base + 1)) + 1 := by omega
        rw [this, List.getElem?_cons_succ] at hd
        exact hd

theorem mem_records_iff {st : State} {o : Nat} {id : String} {x : Int} :
    (o, id, x) ∈ recordsFrom 0 st.services ↔
      ∃ d, GetDowntimes o st = some d ∧ ∃ e ∈ d, e.1 = id ∧ e.2.legacy_id = x := by
  rw [mem_recordsFrom]
  simp [GetDowntimes]

theorem refreshEntries_keys (service : Nat) (d : Downtimes) (st : State) (c : NewCaches) :
    StdMap.keys (refreshEntries service d st c).1 = StdMap.keys d := by
  induction d generalizing st c with
  | nil => rfl
  | cons e rest ih =>
    obtain ⟨id, downtime⟩ := e
    simp only [refreshEntries, StdMap.keys, List.map_cons]
    exact congrArg _ (ih _ _)

theorem refreshObjects_keys (base : Nat) (svcs : List Service) (st : State) (c : NewCaches) :
    (refreshObjects base svcs st c).1.map (fun s => s.m_Downtimes.map StdMap.keys)
      = svcs.map (fun s => s.m_Downtimes.map StdMap.keys) := by
  induction svcs generalizing base st c with
  | nil => rfl
  | cons s rest ih =>
    unfold refreshObjects
    cases hs : s.m_Downtimes with
    | none => simp [hs, ih]
    | some d => simp [hs, ih, refreshEntries_keys]

theorem services_rebuild (st : State) :
    (rebuild st).services =
      (refreshObjects 0 st.services { st with l_DowntimesCacheNeedsUpdate := false }
        { newLegacyDowntimesCache := [], newDowntimesCache := [] }).1 := by
  unfold rebuild
  simp only
  split <;> rfl

theorem GetDowntimes_rebuild_keys {st : State} {o : Nat} {d' : Downtimes}
    (h : GetDowntimes o (rebuild st) = some d') :
    ∃ d, GetDowntimes o st = some d ∧ StdMap.keys d = StdMap.keys d' := by
  have hk := congrArg (fun l => l[o]?) (refreshObjects_keys 0 st.services
    { st with l_DowntimesCacheNeedsUpdate := false }
    { newLegacyDowntimesCache := [], newDowntimesCache := [] })
  simp only [List.getElem?_map, ← services_rebuild] at hk
  unfold GetDowntimes at h ⊢
  cases h1 : (rebuild st).services[o]? with
  | none => simp [h1] at h
  | some s' =>
    cases h2 : st.services[o]? with
    | none => simp [h1, h2] at hk
    | some s =>
      simp only [h1, h2, Option.map_some', Option.some.injEq] at hk
      simp only [h1, Option.some_bind] at h
      simp only [Option.some_bind]
      rw [h] at hk
      cases h3 : s.m_Downtimes with
      | none => simp [h3] at hk
      | some d =>
        simp only [h3, Option.map_some', Option.some.injEq] at hk
        exact ⟨d, rfl, hk.symm⟩



theorem refreshEntry_index (service : Nat) (id : String) (downtime : Downtime) (st : State)
    (c : NewCaches) :
    (refreshEntry service id downtime st c).2.2
      = indexStep c (service, id, (refreshEntry service id downtime st c).1.legacy_id) := by
  unfold refreshEntry
  simp only
  split <;> rfl

theorem refreshEntries_index (service : Nat) (d : Downtimes) (st : State) (c : NewCaches) :
    (refreshEntries service d st c).2.2
      = indexFrom (storeRecords service (refreshEntries service d st c).1) c := by
  induction d generalizing st c with
  | nil => rfl
  | cons e rest ih =>
    obtain ⟨id, downtime⟩ := e
    simp only [refreshEntries, storeRecords, List.map_cons, indexFrom, List.foldl_cons]
    rw [ih, refreshEntry_index]
    rfl

theorem refreshObjects_index (base : Nat) (svcs : List Service) (st : State) (c : NewCaches) :
    (refreshObjects base svcs st c).2.2
      = indexFrom (recordsFrom base (refreshObjects base svcs st c).1) c := by
  induction svcs generalizing base st c with
  | nil => rfl
  | cons s rest ih =>
    unfold refreshObjects
    cases hs : s.m_Downtimes with
    | none =>
      simp only [recordsFrom, hs, List.nil_append]
      exact ih _ _ _
    | some d =>
      simp only [recordsFrom, indexFrom, List.foldl_append]
      rw [ih, refreshEntries_index]
      rfl

theorem refreshEntry_clean {service : Nat} {id : String} {downtime : Downtime} {st : State}
    {c : NewCaches} (hlt : downtime.legacy_id < st.l_NextDowntimeID)
    (hnew : StdMap.find c.newLegacyDowntimesCache downtime.legacy_id = none) :
    refreshEntry service id downtime st c
      = (downtime, st, indexStep c (service, id, downtime.legacy_id)) := by
  unfold refreshEntry
  have hge : ¬ downtime.legacy_id ≥ st.l_NextDowntimeID := by omega
  simp only [if_neg hge, hnew, Option.isSome_none, Bool.false_eq_true, if_false]
  rfl

theorem refreshEntries_clean (service : Nat) (d : Downtimes) {st : State} {c : NewCaches}
    {V : List Int} (hlt : ∀ e ∈ d, e.2.legacy_id < st.l_NextDowntimeID)
    (hnodup : (V ++ d.map (fun e => e.2.legacy_id)).Nodup)
    (hkeys : ∀ y i, StdMap.find c.newLegacyDowntimesCache y = some i → y ∈ V) :
    refreshEntries service d st c = (d, st, indexFrom (storeRecords service d) c) ∧
    ∀ y i, StdMap.find (indexFrom (storeRecords service d) c).newLegacyDowntimesCache y = some i →
      y ∈ V ++ d.map (fun e => e.2.legacy_id) := by
  induction d generalizing c V with
  | nil =>
    simp only [refreshEntries, storeRecords, List.map_nil, indexFrom, List.foldl_nil,
      List.append_nil]
    exact ⟨trivial, hkeys⟩
  | cons e rest ih =>
    obtain ⟨id, downtime⟩ := e
    have hx : downtime.legacy_id ∉ V := by
      intro hmem
      rw [List.nodup_append] at hnodup
      exact hnodup.2.2 hmem (by simp)
    have hnew : StdMap.find c.newLegacyDowntimesCache downtime.legacy_id = none := by
      cases hf : StdMap.find c.newLegacyDowntimesCache downtime.legacy_id with
      | none => rfl
      | some i => exact absurd (hkeys _ i hf) hx
    have hstep : refreshEntry service id downtime st c
        = (downtime, st, indexStep c (service, id, downtime.legacy_id)) :=
      refreshEntry_clean (hlt (id, downtime) (List.mem_cons_self _ _)) hnew
    have hkeys' : ∀ y i, StdMap.find
        (indexStep c (service, id, downtime.legacy_id)).newLegacyDowntimesCache y = some i →
        y ∈ V ++ [downtime.legacy_id] := by
      intro y i hy
      simp only [indexStep, StdMap.find_set] at hy
      split at hy
      · rename_i hyx
        rw [hyx]
        simp
      · exact List.mem_append_left _ (hkeys y i hy)
    have hrest := ih (c := indexStep c (service, id, downtime.legacy_id))
      (V := V ++ [downtime.legacy_id])
      (fun e he => hlt e (List.mem_cons_of_mem _ he))
      (by simpa using hnodup) hkeys'
    constructor
    · simp only [refreshEntries, hstep, hrest.1]
      rfl
    · intro y i hy
      have := hrest.2 y i (by simpa [storeRecords, indexFrom] using hy)
      simpa using this

theorem refreshObjects_clean (base : Nat) (svcs : List Service) {st : State} {c : NewCaches}
    {V : List Int} (hlt : ∀ x ∈ svcs.flatMap storeLegacyIds, x < st.l_NextDowntimeID)
    (hnodup : (V ++ svcs.flatMap storeLegacyIds).Nodup)
    (hkeys : ∀ y i, StdMap.find c.newLegacyDowntimesCache y = some i → y ∈ V) :
    refreshObjects base svcs st c = (svcs, st, indexFrom (recordsFrom base svcs) c) := by
  induction svcs generalizing base c V with
  | nil => rfl
  | cons s rest ih =>
    unfold refreshObjects
    cases hs : s.m_Downtimes with
    | none =>
      have hnil : storeLegacyIds s = [] := by simp [storeLegacyIds, hs]
      simp only [List.flatMap_cons, hnil, List.nil_append] at hlt hnodup
      simp only [recordsFrom, hs, List.nil_append]
      rw [ih (base + 1) hlt hnodup hkeys]
    | some d =>
      have hd : storeLegacyIds s = d.map (fun e => e.2.legacy_id) := by
        simp [storeLegacyIds, hs]
      simp only [List.flatMap_cons, hd] at hlt hnodup
      have h1 := refreshEntries_clean base d (c := c) (V := V)
        (fun e he => hlt _ (List.mem_append_left _ (List.mem_map.mpr ⟨e, he, rfl⟩)))
        (by rw [← List.append_assoc] at hnodup; exact (List.nodup_append.mp hnodup).1)
        hkeys
      simp only [h1.1]
      rw [ih (base + 1) (fun x hx => hlt x (List.mem_append_right _ hx))
        (by rw [← List.append_assoc] at hnodup; exact hnodup) h1.2]
      simp only [recordsFrom, indexFrom, List.foldl_append]
      cases s
      simp only at hs
      simp only [hs]


theorem rebuild_fields (st : State) :
    (rebuild st).l_NextDowntimeID
      = (refreshObjects 0 st.services { st with l_DowntimesCacheNeedsUpdate := false }
          { newLegacyDowntimesCache := [], newDowntimesCache := [] }).2.1.l_NextDowntimeID ∧
    (rebuild st).l_LegacyDowntimesCache
      = (refreshObjects 0 st.services { st with l_DowntimesCacheNeedsUpdate := false }
          { newLegacyDowntimesCache := [], newDowntimesCache := [] }).2.2.newLegacyDowntimesCache ∧
    (rebuild st).l_DowntimesCache
      = (refreshObjects 0 st.services { st with l_DowntimesCacheNeedsUpdate := false }
          { newLegacyDowntimesCache := [], newDowntimesCache := [] }).2.2.newDowntimesCache ∧
    (rebuild st).l_DowntimesCacheNeedsUpdate
      = (refreshObjects 0 st.services { st with l_DowntimesCacheNeedsUpdate := false }
          { newLegacyDowntimesCache := [], newDowntimesCache := [] }).2.1.l_DowntimesCacheNeedsUpdate ∧
    (rebuild st).touchLog
      = (refreshObjects 0 st.services { st with l_DowntimesCacheNeedsUpdate := false }
          { newLegacyDowntimesCache := [], newDowntimesCache := [] }).2.1.touchLog ∧
    (rebuild st).l_DowntimesExpireTimer ≠ none := by
  unfold rebuild
  simp only
  split
  · rename_i h
    exact ⟨rfl, rfl, rfl, rfl, rfl, fun hc => Option.noConfusion (h.symm.trans hc)⟩
  · exact ⟨rfl, rfl, rfl, rfl, rfl, fun hc => Option.noConfusion hc⟩

theorem rebuild_index (st : State) :
    ({ newLegacyDowntimesCache := (rebuild st).l_LegacyDowntimesCache
       newDowntimesCache := (rebuild st).l_DowntimesCache } : NewCaches)
      = indexFrom (recordsFrom 0 (rebuild st).services)
          { newLegacyDowntimesCache := [], newDowntimesCache := [] } := by
  have h := refreshObjects_index 0 st.services { st with l_DowntimesCacheNeedsUpdate := false }
    { newLegacyDowntimesCache := [], newDowntimesCache := [] }
  rw [← services_rebuild] at h
  rw [← h, (rebuild_fields st).2.1, (rebuild_fields st).2.2.1]

theorem indexFrom_cache_sound (recs : List (Nat × String × Int)) (c : NewCaches) (id : String)
    (w : Option Nat) (h : StdMap.find (indexFrom recs c).newDowntimesCache id = some w) :
    (∃ o x, w = some o ∧ (o, id, x) ∈ recs) ∨ StdMap.find c.newDowntimesCache id = some w := by
  induction recs generalizing c with
  | nil => exact Or.inr h
  | cons r rest ih =>
    obtain ⟨o, i, x⟩ := r
    simp only [indexFrom, List.foldl_cons] at h
    rcases ih (indexStep c (o, i, x)) h with ⟨o', x', hw, hmem⟩ | h'
    · exact Or.inl ⟨o', x', hw, List.mem_cons_of_mem _ hmem⟩
    · simp only [indexStep, StdMap.find_set] at h'
      split at h'
      · rename_i hi
        injection h' with h'
        exact Or.inl ⟨o, x, h'.symm, by simp [hi]⟩
      · exact Or.inr h'

theorem indexFrom_cache_mono (recs : List (Nat × String × Int)) (c : NewCaches) (id : String)
    (h : (StdMap.find c.newDowntimesCache id).isSome) :
    (StdMap.find (indexFrom recs c).newDowntimesCache id).isSome := by
  induction recs generalizing c with
  | nil => exact h
  | cons r rest ih =>
    simp only [indexFrom, List.foldl_cons]
    apply ih
    simp only [indexStep, StdMap.find_set]
    split
    · rfl
    · exact h

theorem indexFrom_cache_complete (recs : List (Nat × String × Int)) (c : NewCaches) :
    ∀ r ∈ recs, (StdMap.find (indexFrom recs c).newDowntimesCache r.2.1).isSome := by
  induction recs generalizing c with
  | nil => exact fun _ hr => absurd hr (List.not_mem_nil _)
  | cons r0 rest ih =>
    intro r hr
    simp only [indexFrom, List.foldl_cons]
    rcases List.mem_cons.mp hr with hr | hr
    · subst hr
      apply indexFrom_cache_mono
      simp [indexStep, StdMap.find_set]
    · exact ih _ r hr

theorem indexFrom_legacy_sound (recs : List (Nat × String × Int)) (c : NewCaches) (x : Int)
    (i : String) (h : StdMap.find (indexFrom recs c).newLegacyDowntimesCache x = some i) :
    (∃ o, (o, i, x) ∈ recs) ∨ StdMap.find c.newLegacyDowntimesCache x = some i := by
  induction recs generalizing c with
  | nil => exact Or.inr h
  | cons r rest ih =>
    obtain ⟨o, i0, x0⟩ := r
    simp only [indexFrom, List.foldl_cons] at h
    rcases ih (indexStep c (o, i0, x0)) h with ⟨o', hmem⟩ | h'
    · exact Or.inl ⟨o', List.mem_cons_of_mem _ hmem⟩
    · simp only [indexStep, StdMap.find_set] at h'
      split at h'
      · rename_i hx
        injection h' with h'
        exact Or.inl ⟨o, by simp [hx, h']⟩
      · exact Or.inr h'

theorem indexFrom_legacy_mono (recs : List (Nat × String × Int)) (c : NewCaches) (x : Int)
    (h : (StdMap.find c.newLegacyDowntimesCache x).isSome) :
    (StdMap.find (indexFrom recs c).newLegacyDowntimesCache x).isSome := by
  induction recs generalizing c with
  | nil => exact h
  | cons r rest ih =>
    simp only [indexFrom, List.foldl_cons]
    apply ih
    simp only [indexStep, StdMap.find_set]
    split
    · rfl
    · exact h

theorem indexFrom_legacy_complete (recs : List (Nat × String × Int)) (c : NewCaches) :
    ∀ r ∈ recs, (StdMap.find (indexFrom recs c).newLegacyDowntimesCache r.2.2).isSome := by
  induction recs generalizing c with
  | nil => exact fun _ hr => absurd hr (List.not_mem_nil _)
  | cons r0 rest ih =>
    intro r hr
    simp only [indexFrom, List.foldl_cons]
    rcases List.mem_cons.mp hr with hr | hr
    · subst hr
      apply indexFrom_legacy_mono
      simp [indexStep, StdMap.find_set]
    · exact ih _ r hr

theorem eq_of_count_map_eq_one {α β : Type} [DecidableEq β] (f : α → β) {l : List α} {a b : α}
    (ha : a ∈ l) (hb : b ∈ l) (hab : f b = f a) (h : (l.map f).count (f a) = 1) : a = b := by
  induction l with
  | nil => exact absurd ha (List.not_mem_nil _)
  | cons c rest ih =>
    simp only [List.map_cons, List.count_cons] at h
    have hpos : ∀ z ∈ rest, f z = f a → 0 < (rest.map f).count (f a) := fun z hz hfz =>
      List.count_pos_iff.mpr (List.mem_map.mpr ⟨z, hz, hfz⟩)
    rcases List.mem_cons.mp ha with ha | ha <;> rcases List.mem_cons.mp hb with hb | hb
    · rw [ha, hb]
    · have hc : f c = f a := by rw [ha]
      have := hpos b hb hab
      simp only [hc, beq_self_eq_true, if_true] at h
      omega
    · have hc : f c = f a := by rw [← hb, hab]
      have := hpos a ha rfl
      simp only [hc, beq_self_eq_true, if_true] at h
      omega
    · have := hpos a ha rfl
      refine ih ha hb ?_
      split at h <;> omega

theorem l_DowntimesCache_rebuild_sound {st : State} {id : String} {w : Option Nat}
    (h : StdMap.find (rebuild st).l_DowntimesCache id = some w) :
    ∃ o d, w = some o ∧ GetDowntimes o (rebuild st) = some d ∧ id ∈ StdMap.keys d := by
  have hidx := congrArg NewCaches.newDowntimesCache (rebuild_index st)
  simp only at hidx
  rw [hidx] at h
  rcases indexFrom_cache_sound _ _ id w h with ⟨o, x, hw, hmem⟩ | h'
  · obtain ⟨d, hd, e, he, hid, _⟩ := mem_records_iff.mp hmem
    exact ⟨o, d, hw, hd, List.mem_map.mpr ⟨e, he, hid⟩⟩
  · exact Option.noConfusion h'

theorem l_DowntimesCache_rebuild_complete {st : State} {o : Nat} {d : Downtimes} {id : String}
    (hd : GetDowntimes o (rebuild st) = some d) (hid : id ∈ StdMap.keys d) :
    ∃ w, StdMap.find (rebuild st).l_DowntimesCache id = some w := by
  obtain ⟨e, he, hek⟩ := List.mem_map.mp hid
  have hmem : (o, id, e.2.legacy_id) ∈ recordsFrom 0 (rebuild st).services :=
    mem_records_iff.mpr ⟨d, hd, e, he, hek, rfl⟩
  have hidx := congrArg NewCaches.newDowntimesCache (rebuild_index st)
  simp only at hidx
  rw [hidx]
  exact Option.isSome_iff_exists.mp
    (indexFrom_cache_complete _ { newLegacyDowntimesCache := [], newDowntimesCache := [] } _ hmem)

theorem l_LegacyDowntimesCache_rebuild_sound {st : State} {x : Int} {i : String}
    (h : StdMap.find (rebuild st).l_LegacyDowntimesCache x = some i) :
    ∃ o, (o, i, x) ∈ recordsFrom 0 (rebuild st).services := by
  have hidx := congrArg NewCaches.newLegacyDowntimesCache (rebuild_index st)
  simp only at hidx
  rw [hidx] at h
  rcases indexFrom_legacy_sound _ _ x i h with h' | h'
  · exact h'
  · exact Option.noConfusion h'

theorem l_LegacyDowntimesCache_rebuild_complete {st : State} {r : Nat × String × Int}
    (hr : r ∈ recordsFrom 0 (rebuild st).services) :
    ∃ i, StdMap.find (rebuild st).l_LegacyDowntimesCache r.2.2 = some i := by
  have hidx := congrArg NewCaches.newLegacyDowntimesCache (rebuild_index st)
  simp only at hidx
  rw [hidx]
  exact Option.isSome_iff_exists.mp
    (indexFrom_legacy_complete _ { newLegacyDowntimesCache := [], newDowntimesCache := [] } _ hr)

/-- C5 (amended): after a `RefreshDowntimesCache` that runs with the index marked
stale from a state with room for the pass (`Headroom`: the counter and the
successor of every legacy id lie at least as many steps below `INT_MAX` as there
are records), the legacy ids of all records of all stores are pairwise distinct
(two entries with equal legacy ids are the same entry of the same store) and
each is strictly smaller than `l_NextDowntimeID`. -/
theorem RefreshDowntimesCache_legacy_ids (st : State)
    (hstale : st.l_DowntimesCacheNeedsUpdate = true) (hroom : Headroom st) :
    (legacyIds (RefreshDowntimesCache st)).Nodup ∧
    (∀ o1 o2 d1 d2 e1 e2,
      GetDowntimes o1 (RefreshDowntimesCache st) = some d1 → e1 ∈ d1 →
      GetDowntimes o2 (RefreshDowntimesCache st) = some d2 → e2 ∈ d2 →
      e1.2.legacy_id = e2.2.legacy_id → o1 = o2 ∧ e1.1 = e2.1) ∧
    (∀ o d e, GetDowntimes o (RefreshDowntimesCache st) = some d → e ∈ d →
      e.2.legacy_id < (RefreshDowntimesCache st).l_NextDowntimeID) := by
  unfold RefreshDowntimesCache
  rw [if_pos hstale]
  have h := rebuild_inv st hroom
  refine ⟨h.nodup, ?_, ?_⟩
  · intro o1 o2 d1 d2 e1 e2 h1 he1 h2 he2 heq
    have m1 : (o1, e1.1, e1.2.legacy_id) ∈ recordsFrom 0 (rebuild st).services :=
      mem_records_iff.mpr ⟨d1, h1, e1, he1, rfl, rfl⟩
    have m2 : (o2, e2.1, e2.2.legacy_id) ∈ recordsFrom 0 (rebuild st).services :=
      mem_records_iff.mpr ⟨d2, h2, e2, he2, rfl, rfl⟩
    have := List.inj_on_of_nodup_map h.nodup m1 m2 heq
    simp only [Prod.mk.injEq] at this
    exact ⟨this.1, this.2.1⟩
  · intro o d e hd he
    exact h.below _ (mem_records_iff.mpr ⟨d, hd, e, he, rfl, rfl⟩)

/-- C6 (amended): after a `RefreshDowntimesCache` that runs with the index marked
stale, with ids distinct across stores, the index is the image of the stores as
the rebuild leaves them. `GetOwnerByDowntimeID` returns the object whose store
holds the id and none for an id in no store. `GetDowntimeIDFromLegacyID` maps
the legacy id of a record to the id it is stored under whenever no other record
carries that legacy id after the rebuild, which is so for every record when the
pass had room (`Headroom`); and it maps every legacy id held by no record to
the empty id. -/
theorem RefreshDowntimesCache_index (st : State)
    (hstale : st.l_DowntimesCacheNeedsUpdate = true)
    (hdistinct : ∀ o1 o2 d1 d2 id, GetDowntimes o1 st = some d1 → GetDowntimes o2 st = some d2 →
      id ∈ StdMap.keys d1 → id ∈ StdMap.keys d2 → o1 = o2) :
    (∀ o d id, GetDowntimes o (RefreshDowntimesCache st) = some d → id ∈ StdMap.keys d →
      (GetOwnerByDowntimeID id (RefreshDowntimesCache st)).1 = some o) ∧
    (∀ id, (∀ o d, GetDowntimes o (RefreshDowntimesCache st) = some d → id ∉ StdMap.keys d) →
      (GetOwnerByDowntimeID id (RefreshDowntimesCache st)).1 = none) ∧
    (∀ o d id record, GetDowntimes o (RefreshDowntimesCache st) = some d → (id, record) ∈ d →
      (legacyIds (RefreshDowntimesCache st)).count record.legacy_id = 1 →
      GetDowntimeIDFromLegacyID record.legacy_id (RefreshDowntimesCache st) = id) ∧
    (Headroom st →
      ∀ o d id record, GetDowntimes o (RefreshDowntimesCache st) = some d → (id, record) ∈ d →
        GetDowntimeIDFromLegacyID record.legacy_id (RefreshDowntimesCache st) = id) ∧
    (∀ x, (∀ o d e, GetDowntimes o (RefreshDowntimesCache st) = some d → e ∈ d →
        e.2.legacy_id ≠ x) →
      GetDowntimeIDFromLegacyID x (RefreshDowntimesCache st) = "") := by
  unfold RefreshDowntimesCache
  rw [if_pos hstale]
  have hunique : ∀ o d id record, GetDowntimes o (rebuild st) = some d → (id, record) ∈ d →
      (legacyIds (rebuild st)).count record.legacy_id = 1 →
      GetDowntimeIDFromLegacyID record.legacy_id (rebuild st) = id := by
    intro o d id record hd he hcount
    have hmem : (o, id, record.legacy_id) ∈ recordsFrom 0 (rebuild st).services :=
      mem_records_iff.mpr ⟨d, hd, (id, record), he, rfl, rfl⟩
    obtain ⟨i, hi⟩ := l_LegacyDowntimesCache_rebuild_complete hmem
    obtain ⟨o', hmem'⟩ := l_LegacyDowntimesCache_rebuild_sound hi
    have heq := eq_of_count_map_eq_one (fun r : Nat × String × Int => r.2.2) hmem hmem' rfl hcount
    simp only [Prod.mk.injEq] at heq
    simp only at hi
    unfold GetDowntimeIDFromLegacyID
    rw [hi]
    exact heq.2.1.symm
  refine ⟨?_, ?_, hunique, ?_, ?_⟩
  · intro o d id hd hid
    obtain ⟨w, hw⟩ := l_DowntimesCache_rebuild_complete hd hid
    obtain ⟨o', d', hwo, hd', hid'⟩ := l_DowntimesCache_rebuild_sound hw
    obtain ⟨d0, hd0, hk0⟩ := GetDowntimes_rebuild_keys hd
    obtain ⟨d0', hd0', hk0'⟩ := GetDowntimes_rebuild_keys hd'
    have hoo : o' = o := hdistinct o' o d0' d0 id hd0' hd0 (hk0' ▸ hid') (hk0 ▸ hid)
    subst hoo
    unfold GetOwnerByDowntimeID
    simp only [hw, hwo, lock, Option.some_bind]
    rw [if_pos (GetDowntimes_lt hd)]
  · intro id hnone
    cases hf : StdMap.find (rebuild st).l_DowntimesCache id with
    | none =>
      unfold GetOwnerByDowntimeID
      simp only [hf]
    | some w =>
      obtain ⟨o, d, _, hd, hid⟩ := l_DowntimesCache_rebuild_sound hf
      exact absurd hid (hnone o d hd)
  · intro hroom o d id record hd he
    refine hunique o d id record hd he ?_
    have hmem : (o, id, record.legacy_id) ∈ recordsFrom 0 (rebuild st).services :=
      mem_records_iff.mpr ⟨d, hd, (id, record), he, rfl, rfl⟩
    exact List.count_eq_one_of_mem (rebuild_inv st hroom).nodup
      (List.mem_map.mpr ⟨_, hmem, rfl⟩)
  · intro x hnone
    cases hf : StdMap.find (rebuild st).l_LegacyDowntimesCache x with
    | none =>
      unfold GetDowntimeIDFromLegacyID
      simp only [hf]
    | some i =>
      obtain ⟨o, ho⟩ := l_LegacyDowntimesCache_rebuild_sound hf
      obtain ⟨d, hd, e, he, _, hx⟩ := mem_records_iff.mp ho
      exact absurd hx (hnone o d e hd he)


/-- The rebuild turns the colliding legacy ids 5, 5, 6 into 5, 6, 7 and moves
the counter from 1 to 8. -/
theorem RefreshDowntimesCache_legacy_ids_witness :
    collidingExample.l_DowntimesCacheNeedsUpdate = true ∧
    Headroom collidingExample ∧
    legacyIds collidingExample = [5, 5, 6] ∧
    legacyIds (RefreshDowntimesCache collidingExample) = [5, 6, 7] ∧
    (legacyIds (RefreshDowntimesCache collidingExample)).Nodup ∧
    (RefreshDowntimesCache collidingExample).l_NextDowntimeID = 8 :=
  ⟨rfl, by decide, by decide, by decide,
   (RefreshDowntimesCache_legacy_ids collidingExample rfl (by decide)).1, by decide⟩

/-- C5 (counterexample): in `overflowExample` all three records carry the legacy
id `INT_MAX`. At each of them the rebuild sets the counter to `INT_MAX + 1`,
which as an `int` is `INT_MIN`; the second and the third record collide with
the first and are both reassigned the counter value `INT_MIN`. Two records
share a legacy id afterwards, and the counter ends at `INT_MIN + 1`, below the
legacy id `INT_MAX` of the first record. -/
theorem RefreshDowntimesCache_legacy_ids_counterexample :
    overflowExample.l_DowntimesCacheNeedsUpdate = true ∧
    overflowExample.l_NextDowntimeID = 1 ∧
    legacyIds overflowExample = [2147483647, 2147483647, 2147483647] ∧
    legacyIds (RefreshDowntimesCache overflowExample)
      = [2147483647, -2147483648, -2147483648] ∧
    ¬ (legacyIds (RefreshDowntimesCache overflowExample)).Nodup ∧
    (RefreshDowntimesCache overflowExample).l_NextDowntimeID = -2147483647 :=
  ⟨rfl, rfl, by decide, by decide, by decide, by decide⟩

theorem collidingExample_ids_distinct :
    ∀ o1 o2 d1 d2 id, GetDowntimes o1 collidingExample = some d1 →
      GetDowntimes o2 collidingExample = some d2 →
      id ∈ StdMap.keys d1 → id ∈ StdMap.keys d2 → o1 = o2 := by
  intro o1 o2 d1 d2 id h1 h2 hi1 hi2
  rcases o1 with _ | _ | o1 <;> rcases o2 with _ | _ | o2 <;>
    simp [GetDowntimes, collidingExample] at h1 h2 <;>
    subst h1 <;> subst h2 <;> simp [StdMap.keys] at hi1 hi2 <;>
    first
      | rfl
      | (rcases hi1 with rfl | rfl <;> simp at hi2)

/-- After the rebuild of `collidingExample` the index resolves `b` and the
reassigned legacy id 7, and has dropped the stale entries `zz` and 9. -/
theorem RefreshDowntimesCache_index_witness :
    collidingExample.l_DowntimesCacheNeedsUpdate = true ∧
    Headroom collidingExample ∧
    (GetOwnerByDowntimeID "b" (RefreshDowntimesCache collidingExample)).1 = some 0 ∧
    (GetOwnerByDowntimeID "zz" (RefreshDowntimesCache collidingExample)).1 = none ∧
    GetDowntimeIDFromLegacyID 7 (RefreshDowntimesCache collidingExample) = "c" ∧
    GetDowntimeIDFromLegacyID 9 (RefreshDowntimesCache collidingExample) = "" :=
  ⟨rfl, by decide,
   (RefreshDowntimesCache_index collidingExample rfl collidingExample_ids_distinct).1
      0 _ "b" rfl (by decide),
   by decide,
   (RefreshDowntimesCache_index collidingExample rfl collidingExample_ids_distinct).2.2.2.1
      (by decide)
      1 _ "c" { newDowntime "admin" "third" 100 200 true "" 0 0 6 with legacy_id := 7 } rfl
      (by decide),
   by decide⟩

/-- C6 (counterexample): in `overflowExample`, whose ids `a`, `b`, `c` are
distinct across the stores, the rebuild leaves the records `b` and `c` both
with the legacy id `INT_MIN`; the legacy index maps it to `c`, so the lookup of
the legacy id of the record `b` does not return `b`. -/
theorem RefreshDowntimesCache_index_counterexample :
    overflowExample.l_DowntimesCacheNeedsUpdate = true ∧
    (overflowExample.services.map
        (fun s => s.m_Downtimes.map (fun d => d.map (fun e => (e.1, e.2.legacy_id)))))
      = [some [("a", 2147483647), ("b", 2147483647)], some [("c", 2147483647)]] ∧
    ((RefreshDowntimesCache overflowExample).services.map
        (fun s => s.m_Downtimes.map (fun d => d.map (fun e => (e.1, e.2.legacy_id)))))
      = [some [("a", 2147483647), ("b", -2147483648)], some [("c", -2147483648)]] ∧
    GetDowntimeIDFromLegacyID (-2147483648) (RefreshDowntimesCache overflowExample) = "c" :=
  ⟨rfl, by decide, by decide, by decide⟩

/-! ## Uniqueness of legacy ids along a run -/

theorem flatMap_modifyAt_eq {α β : Type} (f : α → List β) (g : α → α) (l : List α) (n : Nat)
    (h : ∀ s, l[n]? = some s → f (g s) = f s) :
    (modifyAt g l n).flatMap f = l.flatMap f := by
  induction l generalizing n with
  | nil => rfl
  | cons x xs ih =>
    cases n with
    | zero => simp [modifyAt, h x (by simp)]
    | succ n =>
      simp only [modifyAt, List.flatMap_cons]
      rw [ih n (fun s hs => h s (by simpa using hs))]

theorem count_flatMap_modifyAt_le {α β : Type} [DecidableEq β] (f : α → List β) (g : α → α)
    (l : List α) (n : Nat) (a : β) (k : Nat)
    (h : ∀ s, l[n]? = some s → (f (g s)).count a ≤ (f s).count a + k) :
    ((modifyAt g l n).flatMap f).count a ≤ (l.flatMap f).count a + k := by
  induction l generalizing n with
  | nil => simp [modifyAt]
  | cons x xs ih =>
    cases n with
    | zero =>
      have := h x (by simp)
      simp only [modifyAt, List.flatMap_cons, List.count_append]
      omega
    | succ n =>
      have := ih n (fun s hs => h s (by simpa using hs))
      simp only [modifyAt, List.flatMap_cons, List.count_append]
      omega

theorem StdMap.count_set_le {K V : Type} [DecidableEq K] (lt : K → K → Bool) (f : V → Int)
    (m : List (K × V)) (k : K) (v : V) (a : Int) :
    ((StdMap.set lt m k v).map (fun e => f e.2)).count a
      ≤ (m.map (fun e => f e.2)).count a + [f v].count a := by
  induction m with
  | nil => simp [StdMap.set]
  | cons e rest ih =>
    obtain ⟨k0, v0⟩ := e
    simp only [StdMap.set]
    split
    · simp only [List.map_cons, List.count_cons, List.count_nil]
      omega
    · split
      · simp only [List.map_cons, List.count_cons, List.count_nil]
        omega
      · simp only [List.map_cons, List.count_cons, List.count_nil] at ih ⊢
        omega

theorem StdMap.map_mutate {K V β : Type} [DecidableEq K] (m : List (K × V)) (k : K)
    (g : V → V) (f : V → β) (h : ∀ v, f (g v) = f v) :
    (StdMap.mutate m k g).map (fun e => f e.2) = m.map (fun e => f e.2) := by
  induction m with
  | nil => rfl
  | cons e rest ih =>
    obtain ⟨k0, v0⟩ := e
    simp only [StdMap.mutate]
    split
    · simp [h]
    · simp [ih]

theorem legacyIds_setDowntimes_eq {self : Nat} {st : State} {d d' : Downtimes}
    (hd : GetDowntimes self st = some d)
    (heq : d'.map (fun e => e.2.legacy_id) = d.map (fun e => e.2.legacy_id)) :
    legacyIds (setDowntimes self d' st) = legacyIds st := by
  rw [legacyIds_eq, legacyIds_eq]
  unfold setDowntimes
  simp only
  apply flatMap_modifyAt_eq
  intro s hs
  unfold GetDowntimes at hd
  rw [hs] at hd
  simp only [Option.some_bind] at hd
  simp only [storeLegacyIds, hd, heq]

theorem count_legacyIds_setDowntimes_set (self : Nat) (st : State) (id : String)
    (downtime : Downtime) (a : Int) :
    (legacyIds (setDowntimes self
      (StdMap.set strLt (match GetDowntimes self st with | some d => d | none => []) id downtime)
      st)).count a ≤ (legacyIds st).count a + [downtime.legacy_id].count a := by
  rw [legacyIds_eq, legacyIds_eq]
  unfold setDowntimes
  simp only
  apply count_flatMap_modifyAt_le
  intro s hs
  unfold GetDowntimes
  rw [hs]
  simp only [Option.some_bind, storeLegacyIds]
  cases hm : s.m_Downtimes with
  | none => simp [StdMap.set]
  | some d => exact StdMap.count_set_le strLt (fun v => v.legacy_id) d id downtime a


theorem services_GetOwnerByDowntimeID (id : String) (st : State) :
    (GetOwnerByDowntimeID id st).2.services = st.services := by
  unfold GetOwnerByDowntimeID
  split <;> rfl

theorem l_NextDowntimeID_GetOwnerByDowntimeID (id : String) (st : State) :
    (GetOwnerByDowntimeID id st).2.l_NextDowntimeID = st.l_NextDowntimeID := by
  unfold GetOwnerByDowntimeID
  split <;> rfl

theorem legacyIds_congr {st st' : State} (h : st'.services = st.services) :
    legacyIds st' = legacyIds st := by
  unfold legacyIds
  rw [h]

theorem registerTrigger_legacy {triggeredBy : String} {st st' : State}
    (h : registerTrigger triggeredBy st = Except.ok st') :
    legacyIds st' = legacyIds st ∧ st'.l_NextDowntimeID = st.l_NextDowntimeID := by
  unfold registerTrigger at h
  simp only at h
  split at h
  · exact Except.noConfusion h
  · rename_i otherOwner _
    split at h
    · exact Except.noConfusion h
    · rename_i otherDowntimes hd
      split at h
      · exact Except.noConfusion h
      · injection h with h
        subst h
        constructor
        · rw [legacyIds_congr (services_Touch _ _)]
          refine (legacyIds_setDowntimes_eq hd ?_).trans
            (legacyIds_congr (services_GetOwnerByDowntimeID _ _))
          refine StdMap.map_mutate otherDowntimes triggeredBy _ (fun v : Downtime => v.legacy_id) ?_
          intro v
          rfl
        · rw [l_NextDowntimeID_Touch]
          exact l_NextDowntimeID_GetOwnerByDowntimeID _ _

theorem LegacyInv.store_new {st st2 : State} (h : LegacyInv st)
    (hl : legacyIds st2 = legacyIds st)
    (hn : st2.l_NextDowntimeID = st.l_NextDowntimeID + 1)
    (self : Nat) (id : String) (downtime : Downtime)
    (hlegacy : downtime.legacy_id = st.l_NextDowntimeID) :
    LegacyInv (Touch self (setDowntimes self
      (StdMap.set strLt (match GetDowntimes self st2 with | some d => d | none => []) id downtime)
      st2)) := by
  have hcount := count_legacyIds_setDowntimes_set self st2 id downtime
  rw [hl] at hcount
  unfold LegacyInv
  rw [legacyIds_congr (services_Touch _ _), l_NextDowntimeID_Touch]
  have hnext : (setDowntimes self
      (StdMap.set strLt (match GetDowntimes self st2 with | some d => d | none => []) id downtime)
      st2).l_NextDowntimeID = st.l_NextDowntimeID + 1 := hn
  rw [hnext]
  have hfresh : (legacyIds st).count st.l_NextDowntimeID = 0 :=
    List.count_eq_zero_of_not_mem (fun hm => lt_irrefl _ (h.2 _ hm))
  constructor
  · rw [List.nodup_iff_count_le_one]
    intro a
    have ha := hcount a
    by_cases hax : a = st.l_NextDowntimeID
    · subst hax
      rw [hfresh, hlegacy] at ha
      simpa using ha
    · have h1 := List.nodup_iff_count_le_one.mp h.1 a
      have h0 : [downtime.legacy_id].count a = 0 := by
        rw [hlegacy]
        exact List.count_eq_zero_of_not_mem (by simpa using hax)
      omega
  · intro x hx
    have hpos := List.count_pos_iff.mpr hx
    have hc := hcount x
    by_cases hxx : x = st.l_NextDowntimeID
    · omega
    · have h0 : [downtime.legacy_id].count x = 0 := by
        rw [hlegacy]
        exact List.count_eq_zero_of_not_mem (by simpa using hxx)
      have : 0 < (legacyIds st).count x := by omega
      have := h.2 x (List.count_pos_iff.mp this)
      omega

theorem AddDowntime_legacyInv {self : Nat} {author comment : String} {startTime endTime : Int}
    { fixed : Bool} {triggeredBy : String} {duration now : Int} {id : String} {st : State}
    {r : String × State} (h : LegacyInv st)
    (hlow : INT_MIN ≤ st.l_NextDowntimeID) (hhigh : st.l_NextDowntimeID < INT_MAX)
    (hadd : AddDowntime self author comment startTime endTime fixed triggeredBy duration now id st
      = Except.ok r) :
    LegacyInv r.2 ∧ r.2.l_NextDowntimeID = st.l_NextDowntimeID + 1 := by
  have hwrap : wrapInt (st.l_NextDowntimeID + 1) = st.l_NextDowntimeID + 1 := by
    unfold INT_MIN at hlow
    unfold INT_MAX at hhigh
    unfold wrapInt
    omega
  unfold AddDowntime at hadd
  simp only [hwrap] at hadd
  split at hadd
  · exact Except.noConfusion hadd
  · rename_i st2 hreg
    injection hadd with hadd
    subst hadd
    have hst2 : legacyIds st2 = legacyIds st ∧ st2.l_NextDowntimeID = st.l_NextDowntimeID + 1 := by
      split at hreg
      · exact registerTrigger_legacy hreg
      · injection hreg with hreg
        subst hreg
        exact ⟨rfl, rfl⟩
    refine ⟨h.store_new hst2.1 hst2.2 self id _ rfl, ?_⟩
    simp only
    rw [l_NextDowntimeID_Touch]
    exact hst2.2

theorem rebuild_of_legacyInv {st : State} (h : LegacyInv st) :
    (rebuild st).services = st.services ∧
    (rebuild st).l_NextDowntimeID = st.l_NextDowntimeID := by
  have hclean : refreshObjects 0 st.services { st with l_DowntimesCacheNeedsUpdate := false }
        { newLegacyDowntimesCache := [], newDowntimesCache := [] }
      = (st.services, { st with l_DowntimesCacheNeedsUpdate := false },
          indexFrom (recordsFrom 0 st.services)
            { newLegacyDowntimesCache := [], newDowntimesCache := [] }) :=
    refreshObjects_clean 0 st.services
      (by rw [← legacyIds_eq]; exact h.2)
      (by rw [List.nil_append, ← legacyIds_eq]; exact h.1)
      (fun _ _ hf => Option.noConfusion hf)
  rw [services_rebuild, (rebuild_fields st).1, hclean]
  exact ⟨rfl, rfl⟩

theorem RefreshDowntimesCache_legacyInv {st : State} (h : LegacyInv st) :
    LegacyInv (RefreshDowntimesCache st) ∧
    (RefreshDowntimesCache st).l_NextDowntimeID = st.l_NextDowntimeID := by
  unfold RefreshDowntimesCache
  split
  · obtain ⟨hs, hn⟩ := rebuild_of_legacyInv h
    unfold LegacyInv
    rw [legacyIds_congr hs, hn]
    exact ⟨h, rfl⟩
  · exact ⟨h, rfl⟩

theorem Op.apply_legacyInv {op : Op} {st st' : State} (h : LegacyInv st)
    (hlow : INT_MIN ≤ st.l_NextDowntimeID)
    (hhigh : st.l_NextDowntimeID + (if op.isAdd then 1 else 0) ≤ INT_MAX)
    (hop : op.apply st = Except.ok st') :
    LegacyInv st' ∧
    st'.l_NextDowntimeID = st.l_NextDowntimeID + (if op.isAdd then 1 else 0) := by
  cases op with
  | add self author comment startTime endTime fixed triggeredBy duration now id =>
    simp only [Op.isAdd, if_true] at hhigh ⊢
    simp only [Op.apply] at hop
    split at hop
    · exact Except.noConfusion hop
    · rename_i r hr
      injection hop with hop
      subst hop
      exact AddDowntime_legacyInv h hlow (by omega) hr
  | refresh =>
    simp only [Op.apply] at hop
    injection hop with hop
    subst hop
    simpa [Op.isAdd] using RefreshDowntimesCache_legacyInv h

theorem runOps_legacyInv {ops : List Op} {st st' : State} (h : LegacyInv st)
    (hlow : INT_MIN ≤ st.l_NextDowntimeID)
    (hhigh : st.l_NextDowntimeID + (ops.countP Op.isAdd : Nat) ≤ INT_MAX)
    (hrun : runOps ops st = Except.ok st') : LegacyInv st' := by
  induction ops generalizing st with
  | nil =>
    simp only [runOps] at hrun
    injection hrun with hrun
    subst hrun
    exact h
  | cons op ops ih =>
    simp only [runOps] at hrun
    split at hrun
    · exact Except.noConfusion hrun
    · rename_i st1 hop
      rw [List.countP_cons] at hhigh
      have hstep := Op.apply_legacyInv h hlow
        (by split <;> simp_all <;> omega) hop
      refine ih hstep.1 ?_ ?_ hrun
      · rw [hstep.2]
        split <;> omega
      · rw [hstep.2]
        split <;> simp_all <;> omega

theorem recordsFrom_eq_nil {base : Nat} {svcs : List Service}
    (h : ∀ s ∈ svcs, s.m_Downtimes = none ∨ s.m_Downtimes = some []) :
    recordsFrom base svcs = [] := by
  induction svcs generalizing base with
  | nil => rfl
  | cons s rest ih =>
    simp only [recordsFrom, ih (fun s' hs' => h s' (List.mem_cons_of_mem _ hs')),
      List.append_nil]
    rcases h s (List.mem_cons_self _ _) with hs | hs <;> simp [hs, storeRecords]

/-- C4 (amended): starting from a process whose objects hold no downtimes, with
the counter at its initial value 1, after every sequence of `AddDowntime` and
`RefreshDowntimesCache` steps that the process completes and that holds at
most `INT_MAX - 1 = 2147483646` `AddDowntime` steps, no two records of any
stores carry the same legacy id. -/
theorem legacy_ids_unique_along_run (services : List Service) (ops : List Op) (st : State)
    (hempty : ∀ s ∈ services, s.m_Downtimes = none ∨ s.m_Downtimes = some [])
    (hadds : ops.countP Op.isAdd ≤ 2147483646)
    (hrun : runOps ops (State.init services) = Except.ok st) :
    (legacyIds st).Nodup ∧
    (∀ o1 o2 d1 d2 e1 e2,
      GetDowntimes o1 st = some d1 → e1 ∈ d1 → GetDowntimes o2 st = some d2 → e2 ∈ d2 →
      e1.2.legacy_id = e2.2.legacy_id → o1 = o2 ∧ e1.1 = e2.1) := by
  have hinit : LegacyInv (State.init services) := by
    unfold LegacyInv legacyIds
    have : recordsFrom 0 (State.init services).services = [] := recordsFrom_eq_nil hempty
    rw [this]
    exact ⟨List.nodup_nil, fun _ hx => absurd hx (List.not_mem_nil _)⟩
  have hinv := runOps_legacyInv hinit
    (by
      unfold INT_MIN State.init
      simp only
      omega)
    (by
      unfold INT_MAX State.init
      simp only
      omega) hrun
  refine ⟨hinv.1, ?_⟩
  intro o1 o2 d1 d2 e1 e2 h1 he1 h2 he2 heq
  have m1 : (o1, e1.1, e1.2.legacy_id) ∈ recordsFrom 0 st.services :=
    mem_records_iff.mpr ⟨d1, h1, e1, he1, rfl, rfl⟩
  have m2 : (o2, e2.1, e2.2.legacy_id) ∈ recordsFrom 0 st.services :=
    mem_records_iff.mpr ⟨d2, h2, e2, he2, rfl, rfl⟩
  have := List.inj_on_of_nodup_map hinv.1 m1 m2 heq
  simp only [Prod.mk.injEq] at this
  exact ⟨this.1, this.2.1⟩

/-- The run `runExample` completes and leaves the legacy ids 1, 3, 2. -/
theorem legacy_ids_unique_along_run_witness :
    runExample.countP Op.isAdd ≤ 2147483646 ∧
    runOps runExample (State.init twoObjects)
      = Except.ok (stateAfter runExample (State.init twoObjects)) ∧
    legacyIds (stateAfter runExample (State.init twoObjects)) = [1, 3, 2] ∧
    (legacyIds (stateAfter runExample (State.init twoObjects))).Nodup :=
  ⟨by decide, rfl, by decide,
   (legacy_ids_unique_along_run twoObjects runExample
      (stateAfter runExample (State.init twoObjects)) (by decide) (by decide) rfl).1⟩

theorem runOps_append (a b : List Op) (st : State) :
    runOps (a ++ b) st =
      match runOps a st with
      | Except.error e => Except.error e
      | Except.ok st1 => runOps b st1 := by
  induction a generalizing st with
  | nil => rfl
  | cons op a ih =>
    simp only [List.cons_append, runOps]
    cases op.apply st with
    | error e => rfl
    | ok st1 => exact ih st1

theorem addRun_succ (n : Nat) :
    addRun (n + 1) = addRun n ++ [Op.add 0 "admin" "" 100 200 true "" 0 0 (longId n)] := by
  simp [addRun, List.range_succ]

theorem longId_injective {j k : Nat} (h : longId j = longId k) : j = k := by
  unfold longId at h
  have := congrArg (fun s : String => s.data.length) h
  simpa using this

theorem wrapInt_succ (x : Int) : wrapInt (wrapInt x + 1) = wrapInt (x + 1) := by
  unfold wrapInt
  omega

theorem StdMap.mem_of_find {K V : Type} [DecidableEq K] {m : List (K × V)} {k : K} {v : V}
    (h : StdMap.find m k = some v) : (k, v) ∈ m := by
  induction m with
  | nil => exact Option.noConfusion h
  | cons e rest ih =>
    obtain ⟨k0, v0⟩ := e
    simp only [StdMap.find] at h
    split at h
    · rename_i hk
      injection h with h
      rw [hk, h]
      exact List.mem_cons_self _ _
    · exact List.mem_cons_of_mem _ (ih h)

theorem AddDowntime_of_empty_triggeredBy (self : Nat) (author comment : String)
    (startTime endTime : Int) ( fixed : Bool) (duration now : Int) (id : String) (st : State) :
    AddDowntime self author comment startTime endTime fixed "" duration now id st
      = Except.ok (id, Touch self (setDowntimes self
          (StdMap.set strLt (match GetDowntimes self st with | some d => d | none => []) id
            (newDowntime author comment startTime endTime fixed "" duration now
              st.l_NextDowntimeID))
          { st with l_NextDowntimeID := wrapInt (st.l_NextDowntimeID + 1) })) := by
  unfold AddDowntime
  simp only [ne_eq, not_true_eq_false, if_false]
  rfl

theorem runOps_addRun (n : Nat) :
    ∃ st, runOps (addRun n) (State.init [{ m_Downtimes := none }]) = Except.ok st ∧
      st.services.length = 1 ∧
      st.l_NextDowntimeID = wrapInt (1 + n) ∧
      ∀ j, j < n → ∃ d r, GetDowntimes 0 st = some d ∧
        StdMap.find d (longId j) = some r ∧ r.legacy_id = wrapInt (1 + j) := by
  induction n with
  | zero =>
    refine ⟨_, rfl, rfl, ?_, fun j hj => absurd hj (Nat.not_lt_zero j)⟩
    unfold wrapInt State.init
    simp
  | succ n ih =>
    obtain ⟨st, hrun, hlen, hnext, hrec⟩ := ih
    refine ⟨Touch 0 (setDowntimes 0
        (StdMap.set strLt (match GetDowntimes 0 st with | some d => d | none => []) (longId n)
          (newDowntime "admin" "" 100 200 true "" 0 0 st.l_NextDowntimeID))
        { st with l_NextDowntimeID := wrapInt (st.l_NextDowntimeID + 1) }), ?_, ?_, ?_, ?_⟩
    · rw [addRun_succ, runOps_append, hrun]
      simp only [runOps, Op.apply, AddDowntime_of_empty_triggeredBy]
    · rw [services_Touch]
      unfold setDowntimes
      simp only [length_modifyAt]
      exact hlen
    · rw [l_NextDowntimeID_Touch]
      show wrapInt (st.l_NextDowntimeID + 1) = wrapInt (1 + ((n + 1 : Nat) : Int))
      rw [hnext, wrapInt_succ]
      exact congrArg wrapInt (by push_cast; ring)
    · intro j hj
      have hget : GetDowntimes 0 (Touch 0 (setDowntimes 0
          (StdMap.set strLt (match GetDowntimes 0 st with | some d => d | none => []) (longId n)
            (newDowntime "admin" "" 100 200 true "" 0 0 st.l_NextDowntimeID))
          { st with l_NextDowntimeID := wrapInt (st.l_NextDowntimeID + 1) }))
          = some (StdMap.set strLt (match GetDowntimes 0 st with | some d => d | none => [])
              (longId n) (newDowntime "admin" "" 100 200 true "" 0 0 st.l_NextDowntimeID)) := by
        rw [GetDowntimes_Touch, GetDowntimes_setDowntimes,
          if_pos ⟨rfl, by show 0 < st.services.length; omega⟩]
      by_cases hjn : j = n
      · subst hjn
        exact ⟨_, _, hget, by rw [StdMap.find_set, if_pos rfl], hnext⟩
      · have hne : longId j ≠ longId n := fun he => hjn (longId_injective he)
        obtain ⟨d, r, hd, hr, hl⟩ := hrec j (by omega)
        refine ⟨_, r, hget, ?_, hl⟩
        rw [StdMap.find_set, if_neg hne, hd]
        exact hr

/-- C4 (counterexample): 2^32 + 1 `AddDowntime` calls on one object of a fresh
process, with pairwise distinct generated ids, complete; the counter has then
run once through all 2^32 values of an `int`, and the first and the last
record both carry the legacy id 1. -/
theorem legacy_ids_unique_along_run_counterexample :
    ∃ st d r1 r2,
      runOps (addRun 4294967297) (State.init [{ m_Downtimes := none }]) = Except.ok st ∧
      GetDowntimes 0 st = some d ∧
      longId 0 ≠ longId 4294967296 ∧
      StdMap.find d (longId 0) = some r1 ∧ r1.legacy_id = 1 ∧
      StdMap.find d (longId 4294967296) = some r2 ∧ r2.legacy_id = 1 ∧
      ¬ (legacyIds st).Nodup := by
  obtain ⟨st, hrun, _, _, hrec⟩ := runOps_addRun 4294967297
  obtain ⟨d, r1, hd, hr1, h1⟩ := hrec 0 (by omega)
  obtain ⟨d', r2, hd', hr2, h2⟩ := hrec 4294967296 (by omega)
  rw [hd] at hd'
  injection hd' with hd'
  subst hd'
  have hne : longId 0 ≠ longId 4294967296 := fun he => by
    have := longId_injective he
    omega
  have e1 : r1.legacy_id = 1 := by
    rw [h1]
    unfold wrapInt
    omega
  have e2 : r2.legacy_id = 1 := by
    rw [h2]
    unfold wrapInt
    omega
  refine ⟨st, d, r1, r2, hrun, hd, hne, hr1, e1, hr2, e2, ?_⟩
  intro hnodup
  have m1 : (0, longId 0, r1.legacy_id) ∈ recordsFrom 0 st.services :=
    mem_records_iff.mpr ⟨d, hd, _, StdMap.mem_of_find hr1, rfl, rfl⟩
  have m2 : (0, longId 4294967296, r2.legacy_id) ∈ recordsFrom 0 st.services :=
    mem_records_iff.mpr ⟨d, hd, _, StdMap.mem_of_find hr2, rfl, rfl⟩
  have := List.inj_on_of_nodup_map hnodup m1 m2 (e1.trans e2.symm)
  simp only [Prod.mk.injEq] at this
  exact hne this.2.1


/-! ## Registration of a triggered downtime on its parent -/

theorem GetOwnerByDowntimeID_fst_counter (id : String) (st : State) (n : Int) :
    (GetOwnerByDowntimeID id { st with l_NextDowntimeID := n }).1
      = (GetOwnerByDowntimeID id st).1 := by
  unfold GetOwnerByDowntimeID
  simp only
  split <;> rfl

/-- C7 (code evaluated at the failing input): with `P` resolving through the
index, `AddDowntime` with `triggeredBy = P` returns the new id `C`, and the
parent's `triggers` then hold the parent's own id `P` and not `C`. -/
theorem AddDowntime_registers_parent_id :
    (GetOwnerByDowntimeID "P" parentState).1 = some 0 ∧
    ∃ st, AddDowntime 1 "admin" "child" 100 200 false "P" 60 11 "C" parentState
        = Except.ok ("C", st) ∧
      (GetDowntimeByID "P" st).1.map (fun d => d.triggers) = some [("P", "P")] ∧
      (GetDowntimeByID "P" st).1.map (fun d => StdMap.find d.triggers "C") = some none :=
  ⟨by decide, _, rfl, by decide, by decide⟩

/-- C8 (what the code does): when `triggeredBy` is non-empty and does not
resolve to an owner through the index, `AddDowntime` dereferences the null
owner and faults; it returns no id and stores no record. -/
theorem AddDowntime_unresolved_parent_faults (self : Nat) (author comment : String)
    (startTime endTime : Int) ( fixed : Bool) (triggeredBy : String) (duration now : Int)
    (id : String) (st : State)
    (hnonempty : triggeredBy ≠ "")
    (hunresolved : (GetOwnerByDowntimeID triggeredBy st).1 = none) :
    AddDowntime self author comment startTime endTime fixed triggeredBy duration now id st
      = Except.error Fault.nullDeref := by
  unfold AddDowntime
  simp only [if_pos hnonempty]
  unfold registerTrigger
  simp only [GetOwnerByDowntimeID_fst_counter, hunresolved]

/-- The call faults for a parent id that never existed and for a parent added
after the last rebuild. -/
theorem AddDowntime_unresolved_parent_faults_witness :
    (GetOwnerByDowntimeID "Z" parentState).1 = none ∧
    AddDowntime 1 "admin" "child" 100 200 false "Z" 60 11 "C" parentState
      = Except.error Fault.nullDeref ∧
    (GetOwnerByDowntimeID "P" unindexedParentState).1 = none ∧
    AddDowntime 1 "admin" "child" 100 200 false "P" 60 11 "C" unindexedParentState
      = Except.error Fault.nullDeref :=
  ⟨by decide,
   AddDowntime_unresolved_parent_faults 1 "admin" "child" 100 200 false "Z" 60 11 "C"
     parentState (by decide) (by decide),
   by decide,
   AddDowntime_unresolved_parent_faults 1 "admin" "child" 100 200 false "P" 60 11 "C"
     unindexedParentState (by decide) (by decide)⟩


/-! ## Cascade from a parent registered by `AddDowntime` -/

theorem TriggerDowntime_familyTriggered (fuel : Nat) :
    TriggerDowntime fuel "P" 150 familyTriggered = Except.error Fault.stackExhausted := by
  induction fuel with
  | zero => rfl
  | succ fuel ih =>
    have e1 : GetOwnerByDowntimeID "P" familyTriggered = (some 0, familyTriggered) := rfl
    have e2 : GetDowntimeByID "P" familyTriggered = (some parentTriggered, familyTriggered) := rfl
    have e3 : ¬ ((150 : Int) < parentTriggered.start_time ∨ 150 > parentTriggered.end_time) := by
      decide
    have e4 : ¬ parentTriggered.trigger_time = 0 := by decide
    have e5 : StdMap.keys parentTriggered.triggers = ["P"] := rfl
    rw [TriggerDowntime]
    simp only [e1, e2, if_neg e3, if_neg e4, e5, List.foldlM_cons, List.foldlM_nil]
    rw [ih]
    rfl

/-- C9 (code evaluated at the failing input): `P` and its child `C` are created
by `AddDowntime` with `triggeredBy = P`, the index is rebuilt so that both
resolve, and 150 lies inside both windows. The `triggers` of `P` hold `P`
itself, and `TriggerDowntime(P)` at 150 does not return within any recursion
budget. -/
theorem TriggerDowntime_parent_never_returns :
    runOps familyOps (State.init twoObjects) = Except.ok familyState ∧
    (GetDowntimeByID "P" familyState).1.map (fun d => (d.start_time, d.end_time, d.trigger_time))
      = some (100, 200, 0) ∧
    (GetDowntimeByID "C" familyState).1.map
        (fun d => (d.triggered_by, d.start_time, d.end_time, d.trigger_time))
      = some ("P", 100, 200, 0) ∧
    (GetDowntimeByID "P" familyState).1.map (fun d => d.triggers) = some [("P", "P")] ∧
    ∀ fuel, TriggerDowntime fuel "P" 150 familyState = Except.error Fault.stackExhausted := by
  refine ⟨rfl, by decide, by decide, by decide, ?_⟩
  intro fuel
  cases fuel with
  | zero => rfl
  | succ fuel =>
    have e1 : GetOwnerByDowntimeID "P" familyState = (some 0, familyState) := rfl
    have e2 : GetDowntimeByID "P" familyState
        = (some { parentTriggered with trigger_time := 0 }, familyState) := rfl
    have e3 : ¬ ((150 : Int) < parentTriggered.start_time ∨ 150 > parentTriggered.end_time) := by
      decide
    have e5 : StdMap.keys parentTriggered.triggers = ["P"] := rfl
    have e6 : setTriggerTime 0 "P" 150 familyState = familyTriggered := rfl
    rw [TriggerDowntime]
    simp only [e1, e2, if_neg e3, e5, e6, List.foldlM_cons, List.foldlM_nil, if_true]
    rw [TriggerDowntime_familyTriggered fuel]
    rfl

/-! ## Idempotence of the cascade -/

theorem RecLe.reflRec (now : Int) (r : Downtime) : RecLe now r r := ⟨rfl, Or.inl rfl⟩

theorem RecLe.transRec {now : Int} {a b c : Downtime} (h1 : RecLe now a b) (h2 : RecLe now b c) :
    RecLe now a c := by
  obtain ⟨e1, t1⟩ := h1
  obtain ⟨e2, t2⟩ := h2
  constructor
  · rw [e2, e1]
  · rcases t1 with t1 | ⟨t1, t1'⟩ <;> rcases t2 with t2 | ⟨t2, t2'⟩
    · exact Or.inl (t2.trans t1)
    · exact Or.inr ⟨t1 ▸ t2, t2'⟩
    · exact Or.inr ⟨t1, t2.trans t1'⟩
    · exact Or.inr ⟨t1, t2'⟩

theorem StoreLe.reflStore (now : Int) (d : Downtimes) : StoreLe now d d := by
  induction d with
  | nil => exact List.Forall₂.nil
  | cons e rest ih => exact List.Forall₂.cons ⟨rfl, RecLe.reflRec now e.2⟩ ih

theorem StoreLe.transStore {now : Int} {a b c : Downtimes} (h1 : StoreLe now a b)
    (h2 : StoreLe now b c) : StoreLe now a c := by
  unfold StoreLe at *
  induction h1 generalizing c with
  | nil => cases h2; exact List.Forall₂.nil
  | cons hab _ ih =>
    cases h2 with
    | cons hbc hrest =>
      exact List.Forall₂.cons ⟨hbc.1.trans hab.1, hab.2.transRec hbc.2⟩ (ih hrest)

theorem StoreLe.find_some {now : Int} {d d' : Downtimes} (h : StoreLe now d d') {k : String}
    {r : Downtime} (hr : StdMap.find d k = some r) :
    ∃ r', StdMap.find d' k = some r' ∧ RecLe now r r' := by
  unfold StoreLe at h
  induction h with
  | nil => exact Option.noConfusion hr
  | @cons e e' rest rest' hee _ ih =>
    obtain ⟨k0, v0⟩ := e
    obtain ⟨k0', v0'⟩ := e'
    obtain ⟨hk, hv⟩ := hee
    simp only at hk hv
    subst hk
    simp only [StdMap.find] at hr ⊢
    split
    · rename_i hkk
      rw [if_pos hkk] at hr
      injection hr with hr
      subst hr
      exact ⟨v0', rfl, hv⟩
    · rename_i hkk
      rw [if_neg hkk] at hr
      exact ih hr

theorem StoreLe.find_none {now : Int} {d d' : Downtimes} (h : StoreLe now d d') {k : String}
    (hr : StdMap.find d k = none) : StdMap.find d' k = none := by
  unfold StoreLe at h
  induction h with
  | nil => rfl
  | @cons e e' rest rest' hee _ ih =>
    obtain ⟨k0, v0⟩ := e
    obtain ⟨k0', v0'⟩ := e'
    obtain ⟨hk, hv⟩ := hee
    simp only at hk hv
    subst hk
    simp only [StdMap.find] at hr ⊢
    split
    · rename_i hkk
      rw [if_pos hkk] at hr
      exact Option.noConfusion hr
    · rename_i hkk
      rw [if_neg hkk] at hr
      exact ih hr

theorem StdMap.find_mutate {K V : Type} [DecidableEq K] (m : List (K × V)) (k : K) (f : V → V) :
    StdMap.find (StdMap.mutate m k f) k = (StdMap.find m k).map f := by
  induction m with
  | nil => rfl
  | cons e rest ih =>
    obtain ⟨k0, v0⟩ := e
    simp only [StdMap.mutate]
    split
    · rename_i hk
      simp [StdMap.find, hk]
    · rename_i hk
      simp [StdMap.find, hk, ih]

theorem StdMap.mutate_eq_self {K V : Type} [DecidableEq K] {m : List (K × V)} {k : K}
    {f : V → V} {v : V} (hv : StdMap.find m k = some v) (hf : f v = v) :
    StdMap.mutate m k f = m := by
  induction m with
  | nil => rfl
  | cons e rest ih =>
    obtain ⟨k0, v0⟩ := e
    simp only [StdMap.find] at hv
    simp only [StdMap.mutate]
    split
    · rename_i hk
      rw [if_pos hk] at hv
      injection hv with hv
      rw [hv, hf]
    · rename_i hk
      rw [if_neg hk] at hv
      rw [ih hv]

theorem StoreLe.mutate {now : Int} {d : Downtimes} {k : String} {r : Downtime}
    (hr : StdMap.find d k = some r) (h0 : r.trigger_time = 0) :
    StoreLe now d (StdMap.mutate d k (fun x => { x with trigger_time := now })) := by
  induction d with
  | nil => exact List.Forall₂.nil
  | cons e rest ih =>
    obtain ⟨k0, v0⟩ := e
    simp only [StdMap.find] at hr
    simp only [StdMap.mutate]
    split
    · rename_i hk
      rw [if_pos hk] at hr
      injection hr with hr
      subst hr
      exact List.Forall₂.cons ⟨rfl, rfl, Or.inr ⟨h0, rfl⟩⟩ (StoreLe.reflStore now rest)
    · rename_i hk
      rw [if_neg hk] at hr
      exact List.Forall₂.cons ⟨rfl, RecLe.reflRec now v0⟩ (ih hr)

theorem StateLe.reflState (now : Int) (s : State) : StateLe now s s :=
  { length := rfl
    stores := fun _ d h => ⟨d, h, StoreLe.reflStore now d⟩
    stores_none := fun _ h => h
    cache := fun _ _ h => h }

theorem StateLe.transState {now : Int} {a b c : State} (h1 : StateLe now a b) (h2 : StateLe now b c) :
    StateLe now a c :=
  { length := h2.length.trans h1.length
    stores := fun o d h => by
      obtain ⟨d1, hd1, l1⟩ := h1.stores o d h
      obtain ⟨d2, hd2, l2⟩ := h2.stores o d1 hd1
      exact ⟨d2, hd2, l1.transStore l2⟩
    stores_none := fun o h => h2.stores_none o (h1.stores_none o h)
    cache := fun k w h => h2.cache k w (h1.cache k w h) }

theorem StateLe.of_same {now : Int} {s s' : State} (h : SameStores s s') : StateLe now s s' :=
  { length := by rw [h.1]
    stores := fun o d hd => ⟨d, by unfold GetDowntimes at hd ⊢; rw [← h.1]; exact hd,
      StoreLe.reflStore now d⟩
    stores_none := fun o hd => by unfold GetDowntimes at hd ⊢; rw [← h.1]; exact hd
    cache := fun k w hw => by rw [← h.2]; exact hw }

theorem StateLe.congr_right {now : Int} {s s' t : State} (h : StateLe now s s')
    (ht : SameStores t s') : StateLe now s t :=
  h.transState (StateLe.of_same ⟨ht.1.symm, ht.2.symm⟩)

theorem l_DowntimesCache_InvalidateDowntimesCache (st : State) :
    (InvalidateDowntimesCache st).l_DowntimesCache = st.l_DowntimesCache := by
  unfold InvalidateDowntimesCache
  split
  · rfl
  · cases st.l_DowntimesCacheTimer <;> rfl

theorem SameStores_Touch (self : Nat) (st : State) : SameStores (Touch self st) st :=
  ⟨services_Touch self st, by
    unfold Touch
    rw [l_DowntimesCache_InvalidateDowntimesCache]⟩

theorem StateLe_GetOwnerByDowntimeID (now : Int) (id : String) (s : State) :
    StateLe now s (GetOwnerByDowntimeID id s).2 := by
  unfold GetOwnerByDowntimeID
  split
  · exact StateLe.reflState now s
  · rename_i hnone
    exact
      { length := rfl
        stores := fun _ d h => ⟨d, h, StoreLe.reflStore now d⟩
        stores_none := fun _ h => h
        cache := fun k w hw => by
          simp only [StdMap.find_set]
          rw [if_neg]
          · exact hw
          · intro hk
            rw [hk, hnone] at hw
            exact Option.noConfusion hw }

theorem GetOwnerByDowntimeID_find (id : String) (s : State) :
    ∃ w, StdMap.find (GetOwnerByDowntimeID id s).2.l_DowntimesCache id = some w ∧
      (GetOwnerByDowntimeID id s).1 = lock w (GetOwnerByDowntimeID id s).2 := by
  unfold GetOwnerByDowntimeID
  split
  · rename_i w hw
    exact ⟨w, hw, rfl⟩
  · exact ⟨none, by simp [StdMap.find_set], rfl⟩

theorem GetOwnerByDowntimeID_of_find {id : String} {s : State} {w : Option Nat}
    (h : StdMap.find s.l_DowntimesCache id = some w) :
    GetOwnerByDowntimeID id s = (lock w s, s) := by
  unfold GetOwnerByDowntimeID
  rw [h]

theorem lock_of_length {s s' : State} (h : s'.services.length = s.services.length)
    (w : Option Nat) : lock w s' = lock w s := by
  unfold lock
  rw [h]

theorem lock_lt {w : Option Nat} {s : State} {o : Nat} (h : lock w s = some o) :
    o < s.services.length := by
  unfold lock at h
  cases w with
  | none => exact Option.noConfusion h
  | some i =>
    simp only [Option.some_bind] at h
    split at h
    · injection h with h
      omega
    · exact Option.noConfusion h


theorem TriggerDowntime_succ_shift (fuel : Nat) (id : String) (now : Int) (s : State) :
    TriggerDowntime (fuel + 1) id now s
      = TriggerDowntime (fuel + 1) id now (GetOwnerByDowntimeID id s).2 := by
  obtain ⟨w, hw, h1⟩ := GetOwnerByDowntimeID_find id s
  rw [TriggerDowntime, TriggerDowntime]
  simp only [GetOwnerByDowntimeID_of_find hw, h1]

theorem TriggerDowntime_succ_of_find (fuel : Nat) {id : String} (now : Int) {s : State}
    {w : Option Nat} (hw : StdMap.find s.l_DowntimesCache id = some w) :
    TriggerDowntime (fuel + 1) id now s =
      match lock w s with
      | none => Except.ok s
      | some o =>
        match GetDowntimes o s with
        | none => Except.ok s
        | some d =>
          match StdMap.find d id with
          | none => Except.ok s
          | some r =>
            if now < r.start_time ∨ now > r.end_time then Except.ok s
            else
              match List.foldlM (fun st tid => TriggerDowntime fuel tid now st)
                  (if r.trigger_time = 0 then setTriggerTime o id now s else s)
                  (StdMap.keys r.triggers) with
              | Except.error e => Except.error e
              | Except.ok st2 => Except.ok (Touch o st2) := by
  rw [TriggerDowntime]
  simp only [GetDowntimeByID, GetOwnerByDowntimeID_of_find hw]
  cases lock w s with
  | none => rfl
  | some o =>
    simp only
    cases GetDowntimes o s with
    | none => rfl
    | some d => simp only

theorem foldlM_StateLe {now : Int} {f : State → String → Except Fault State}
    (hf : ∀ c s s1, f s c = Except.ok s1 → StateLe now s s1)
    (cs : List String) {s sd : State} (h : List.foldlM f s cs = Except.ok sd) :
    StateLe now s sd := by
  induction cs generalizing s with
  | nil =>
    simp only [List.foldlM_nil, pure, Except.pure] at h
    injection h with h
    subst h
    exact StateLe.reflState now s
  | cons c rest ih =>
    rw [List.foldlM_cons] at h
    cases hc : f s c with
    | error e =>
      rw [hc] at h
      exact Except.noConfusion h
    | ok sx =>
      rw [hc] at h
      exact (hf c s sx hc).transState (ih h)

theorem GetDowntimes_setTriggerTime {o : Nat} {id : String} {now : Int} {s : State}
    {d : Downtimes} (hd : GetDowntimes o s = some d) :
    GetDowntimes o (setTriggerTime o id now s)
      = some (StdMap.mutate d id (fun x => { x with trigger_time := now })) := by
  unfold setTriggerTime
  rw [hd]
  simp only
  rw [GetDowntimes_setDowntimes, if_pos ⟨rfl, GetDowntimes_lt hd⟩]

theorem StateLe_setTriggerTime {o : Nat} {id : String} {now : Int} {s : State}
    {d : Downtimes} {r : Downtime} (hd : GetDowntimes o s = some d)
    (hr : StdMap.find d id = some r) (h0 : r.trigger_time = 0) :
    StateLe now s (setTriggerTime o id now s) := by
  have hset : setTriggerTime o id now s
      = setDowntimes o (StdMap.mutate d id (fun x => { x with trigger_time := now })) s := by
    unfold setTriggerTime
    rw [hd]
  rw [hset]
  exact
    { length := by
        unfold setDowntimes
        exact length_modifyAt _ _ _
      stores := fun o' d' hd' => by
        rw [GetDowntimes_setDowntimes]
        split
        · rename_i hoo
          rw [hoo.1, hd] at hd'
          injection hd' with hd'
          subst hd'
          exact ⟨_, rfl, StoreLe.mutate hr h0⟩
        · exact ⟨d', hd', StoreLe.reflStore now d'⟩
      stores_none := fun o' hd' => by
        rw [GetDowntimes_setDowntimes]
        split
        · rename_i hoo
          rw [hoo.1, hd] at hd'
          exact Option.noConfusion hd'
        · exact hd'
      cache := fun _ _ h => h }

theorem TriggerDowntime_StateLe (fuel : Nat) (id : String) (now : Int) (s s1 : State)
    (h : TriggerDowntime fuel id now s = Except.ok s1) : StateLe now s s1 := by
  induction fuel generalizing id s s1 with
  | zero => exact Except.noConfusion h
  | succ fuel ih =>
    rw [TriggerDowntime_succ_shift] at h
    obtain ⟨w, hw, _⟩ := GetOwnerByDowntimeID_find id s
    refine (StateLe_GetOwnerByDowntimeID now id s).transState ?_
    generalize (GetOwnerByDowntimeID id s).2 = sa at h hw ⊢
    rw [TriggerDowntime_succ_of_find fuel now hw] at h
    split at h
    · injection h with h; subst h; exact StateLe.reflState now sa
    · rename_i o ho
      split at h
      · injection h with h; subst h; exact StateLe.reflState now sa
      · rename_i d hd
        split at h
        · injection h with h; subst h; exact StateLe.reflState now sa
        · rename_i r hr
          split at h
          · injection h with h; subst h; exact StateLe.reflState now sa
          · split at h
            · exact Except.noConfusion h
            · rename_i sd hfold
              injection h with h
              subst h
              have h1 : StateLe now sa
                  (if r.trigger_time = 0 then setTriggerTime o id now sa else sa) := by
                split
                · rename_i h0
                  exact StateLe_setTriggerTime hd hr h0
                · exact StateLe.reflState now sa
              have h2 := foldlM_StateLe (fun c s s1 hc => ih c s s1 hc) _ hfold
              exact (h1.transState h2).transState (StateLe.of_same
                ⟨(SameStores_Touch o sd).1.symm, (SameStores_Touch o sd).2.symm⟩)

theorem modifyAt_eq_self {α : Type} {f : α → α} {l : List α} {n : Nat} {x : α}
    (hx : l[n]? = some x) (hf : f x = x) : modifyAt f l n = l := by
  induction l generalizing n with
  | nil => rfl
  | cons y ys ih =>
    cases n with
    | zero =>
      simp only [List.getElem?_cons_zero, Option.some.injEq] at hx
      simp only [modifyAt, hx, hf]
    | succ n =>
      simp only [List.getElem?_cons_succ] at hx
      simp only [modifyAt, ih hx]

theorem setDowntimes_eq_self {o : Nat} {s : State} {d : Downtimes}
    (hd : GetDowntimes o s = some d) : setDowntimes o d s = s := by
  unfold GetDowntimes at hd
  cases hs : s.services[o]? with
  | none => simp [hs] at hd
  | some x =>
    simp only [hs, Option.some_bind] at hd
    have hx : (fun _ : Service => ({ m_Downtimes := some d } : Service)) x = x := by
      cases x
      simp only at hd
      simp only [hd]
    unfold setDowntimes
    rw [modifyAt_eq_self hs hx]

theorem WindowsKept.of_sameStores {now1 now2 : Int} {t s : State} (h : SameStores t s)
    (hs : WindowsKept now1 now2 s) : WindowsKept now1 now2 t := by
  intro o d k r hd
  unfold GetDowntimes at hd
  rw [h.1] at hd
  exact hs o d k r hd

theorem WindowsKept.of_le {now now1 now2 : Int} {s s' : State} (h : StateLe now s s')
    (hs : WindowsKept now1 now2 s) : WindowsKept now1 now2 s' := by
  intro o d' k r' hd' hr'
  cases hd : GetDowntimes o s with
  | none =>
    rw [h.stores_none o hd] at hd'
    exact Option.noConfusion hd'
  | some d =>
    obtain ⟨d2, hd2, hdd⟩ := h.stores o d hd
    rw [hd'] at hd2
    injection hd2 with hd2
    subst hd2
    cases hr : StdMap.find d k with
    | none =>
      rw [hdd.find_none hr] at hr'
      exact Option.noConfusion hr'
    | some r =>
      obtain ⟨r2, hr2, hrr⟩ := hdd.find_some hr
      rw [hr'] at hr2
      injection hr2 with hr2
      subst hr2
      have hstart : r'.start_time = r.start_time := by rw [hrr.1]
      have hend : r'.end_time = r.end_time := by rw [hrr.1]
      rw [hstart, hend]
      exact hs o d k r hd hr

theorem foldlM_stable {now : Int} {f1 f2 : State → String → Except Fault State}
    (P : State → Prop) (hP : ∀ t s, SameStores t s → P s → P t)
    (hmono : ∀ c s s1, f1 s c = Except.ok s1 → StateLe now s s1)
    (hstable : ∀ c s s1, f1 s c = Except.ok s1 → ∀ s', StateLe now s1 s' → P s' →
      ∃ s'', f2 s' c = Except.ok s'' ∧ SameStores s'' s')
    (cs : List String) {s sd : State} (h : List.foldlM f1 s cs = Except.ok sd)
    (s' : State) (hle : StateLe now sd s') (hp : P s') :
    ∃ s'', List.foldlM f2 s' cs = Except.ok s'' ∧ SameStores s'' s' := by
  induction cs generalizing s s' with
  | nil => exact ⟨s', rfl, rfl, rfl⟩
  | cons c rest ih =>
    rw [List.foldlM_cons] at h
    cases hc : f1 s c with
    | error e =>
      rw [hc] at h
      exact Except.noConfusion h
    | ok sx =>
      rw [hc] at h
      have hxd : StateLe now sx sd := foldlM_StateLe hmono rest h
      obtain ⟨t, ht, hsame⟩ := hstable c s sx hc s' (hxd.transState hle) hp
      obtain ⟨s'', hs'', hsame'⟩ := ih h t (hle.congr_right hsame) (hP t s' hsame hp)
      refine ⟨s'', ?_, hsame'.1.trans hsame.1, hsame'.2.trans hsame.2⟩
      rw [List.foldlM_cons, ht]
      exact hs''

theorem TriggerDowntime_stable (fuel : Nat) (id : String) (now1 now2 : Int) (s s1 : State)
    (h : TriggerDowntime fuel id now1 s = Except.ok s1) (hzero : now1 = 0 → now2 = 0)
    (s' : State) (hle : StateLe now1 s1 s') (hwin : WindowsKept now1 now2 s') :
    ∃ s'', TriggerDowntime fuel id now2 s' = Except.ok s'' ∧ SameStores s'' s' := by
  induction fuel generalizing id s s1 s' with
  | zero => exact Except.noConfusion h
  | succ fuel ih =>
    rw [TriggerDowntime_succ_shift] at h
    obtain ⟨w, hw, _⟩ := GetOwnerByDowntimeID_find id s
    generalize (GetOwnerByDowntimeID id s).2 = sa at h hw
    have hsa : StateLe now1 sa s' := (TriggerDowntime_StateLe _ _ _ _ _ h).transState hle
    have hw' := hsa.cache id w hw
    have hlock : lock w s' = lock w sa := lock_of_length hsa.length w
    rw [TriggerDowntime_succ_of_find fuel now1 hw] at h
    rw [TriggerDowntime_succ_of_find fuel now2 hw', hlock]
    cases ho : lock w sa with
    | none => exact ⟨s', rfl, rfl, rfl⟩
    | some o =>
      simp only [ho] at h ⊢
      cases hd : GetDowntimes o sa with
      | none =>
        rw [hsa.stores_none o hd]
        exact ⟨s', rfl, rfl, rfl⟩
      | some d =>
        obtain ⟨d', hd', hdd⟩ := hsa.stores o d hd
        simp only [hd] at h
        simp only [hd']
        cases hr : StdMap.find d id with
        | none =>
          rw [hdd.find_none hr]
          exact ⟨s', rfl, rfl, rfl⟩
        | some r =>
          obtain ⟨r', hr', hrr⟩ := hdd.find_some hr
          simp only [hr] at h
          simp only [hr']
          have hstart : r'.start_time = r.start_time := by rw [hrr.1]
          have hend : r'.end_time = r.end_time := by rw [hrr.1]
          have htrig : r'.triggers = r.triggers := by rw [hrr.1]
          by_cases hwin2 : now2 < r'.start_time ∨ now2 > r'.end_time
          · rw [if_pos hwin2]
            exact ⟨s', rfl, rfl, rfl⟩
          · have hwin1 : ¬ (now1 < r.start_time ∨ now1 > r.end_time) := by
              have := hwin o d' id r' hd' hr' hwin2
              rw [hstart, hend] at this
              exact this
            rw [if_neg hwin2, htrig]
            rw [if_neg hwin1] at h
            split at h
            · exact Except.noConfusion h
            · rename_i sd hfold
              injection h with h
              subst h
              have hsd : StateLe now1 sd s' :=
                (StateLe.of_same ⟨(SameStores_Touch o sd).1.symm,
                  (SameStores_Touch o sd).2.symm⟩).transState hle
              have hstart' : (if r'.trigger_time = 0 then setTriggerTime o id now2 s' else s')
                  = s' := by
                split
                · rename_i h0'
                  have hsc : StateLe now1
                      (if r.trigger_time = 0 then setTriggerTime o id now1 sa else sa) s' :=
                    (foldlM_StateLe (fun c s s1 hc => TriggerDowntime_StateLe fuel c now1 s s1 hc)
                      _ hfold).transState hsd
                  have hnow1 : now1 = 0 := by
                    by_cases h0 : r.trigger_time = 0
                    · rw [if_pos h0] at hsc
                      obtain ⟨d2, hd2, hdd2⟩ := hsc.stores o _ (GetDowntimes_setTriggerTime hd)
                      rw [hd'] at hd2
                      injection hd2 with hd2
                      subst hd2
                      have hf := StdMap.find_mutate d id (fun x => { x with trigger_time := now1 })
                      rw [hr] at hf
                      obtain ⟨r2, hr2, hrr2⟩ := hdd2.find_some hf
                      rw [hr'] at hr2
                      injection hr2 with hr2
                      subst hr2
                      rcases hrr2.2 with e | ⟨e, _⟩
                      · simp only at e
                        omega
                      · exact e
                    · rcases hrr.2 with e | ⟨e, _⟩
                      · omega
                      · exact absurd e h0
                  have hnow2 : now2 = 0 := hzero hnow1
                  unfold setTriggerTime
                  rw [hd']
                  simp only
                  have hmut : StdMap.mutate d' id (fun x => { x with trigger_time := now2 }) = d' :=
                    StdMap.mutate_eq_self hr' (by
                      simp only [hnow2]
                      cases r'
                      simp only at h0'
                      simp only [h0'])
                  rw [hmut]
                  exact setDowntimes_eq_self hd'
                · rfl
              rw [hstart']
              obtain ⟨s'', hs'', hsame⟩ := foldlM_stable (WindowsKept now1 now2)
                (fun t s hts hs => hs.of_sameStores hts)
                (fun c s s1 hc => TriggerDowntime_StateLe fuel c now1 s s1 hc)
                (fun c s s1 hc t ht hp => ih c s s1 hc t ht hp) _ hfold s' hsd hwin
              rw [hs'']
              exact ⟨Touch o s'', rfl, (SameStores_Touch o s'').1.trans hsame.1,
                (SameStores_Touch o s'').2.trans hsame.2⟩

/-- C10 (amended): let `TriggerDowntime(id)` return with clock reading `now1`,
and let a second call read `now2`, where every record with `now2` inside its
validity window has `now1` inside it too, and `now2` is 0 if `now1` is (both
hold when the two readings are equal). Then the second call returns and
leaves every store as the first call left it: every record, its
`trigger_time` included, is unchanged, so the same downtimes are triggered
after the second call as after the first. The owner index is unchanged too. -/
theorem TriggerDowntime_twice (fuel : Nat) (id : String) (now1 now2 : Int) (st st1 : State)
    (hfirst : TriggerDowntime fuel id now1 st = Except.ok st1)
    (hzero : now1 = 0 → now2 = 0)
    (hwindows : ∀ o d k r, GetDowntimes o st = some d → StdMap.find d k = some r →
      r.start_time ≤ now2 ∧ now2 ≤ r.end_time → r.start_time ≤ now1 ∧ now1 ≤ r.end_time) :
    ∃ st2, TriggerDowntime fuel id now2 st1 = Except.ok st2 ∧
      st2.services = st1.services ∧
      (∀ o, GetDowntimes o st2 = GetDowntimes o st1) ∧
      st2.l_DowntimesCache = st1.l_DowntimesCache := by
  have hkept : WindowsKept now1 now2 st := by
    intro o d k r hd hr h2
    have := hwindows o d k r hd hr (by omega)
    omega
  obtain ⟨st2, h2, hsame⟩ :=
    TriggerDowntime_stable fuel id now1 now2 st st1 hfirst hzero st1 (StateLe.reflState now1 st1)
      (hkept.of_le (TriggerDowntime_StateLe fuel id now1 st st1 hfirst))
  refine ⟨st2, h2, hsame.1, ?_, hsame.2⟩
  intro o
  unfold GetDowntimes
  rw [hsame.1]

theorem cascadeExample_windows :
    ∀ o d k r, GetDowntimes o cascadeExample = some d → StdMap.find d k = some r →
      r.start_time ≤ 160 ∧ 160 ≤ r.end_time → r.start_time ≤ 150 ∧ 150 ≤ r.end_time := by
  intro o d k r hd hr _
  rcases o with _ | _ | o
  · simp only [GetDowntimes, cascadeExample, State.init, List.getElem?_cons_zero,
      Option.some_bind, Option.some.injEq] at hd
    subst hd
    simp only [StdMap.find] at hr
    split at hr
    · injection hr with hr
      subst hr
      decide
    · exact Option.noConfusion hr
  · simp only [GetDowntimes, cascadeExample, State.init, List.getElem?_cons_succ,
      List.getElem?_cons_zero, Option.some_bind, Option.some.injEq] at hd
    subst hd
    simp only [StdMap.find] at hr
    split at hr
    · injection hr with hr
      subst hr
      decide
    · exact Option.noConfusion hr
  · simp [GetDowntimes, cascadeExample, State.init] at hd

/-- A cascade at 150 triggers `P` and `C`; a second call at 160 returns and
changes no record. -/
theorem TriggerDowntime_twice_witness :
    TriggerDowntime 2 "P" 150 cascadeExample = Except.ok cascadeTriggered ∧
    (GetDowntimeByID "P" cascadeTriggered).1.map (fun d => d.trigger_time) = some 150 ∧
    (GetDowntimeByID "C" cascadeTriggered).1.map (fun d => d.trigger_time) = some 150 ∧
    ∃ st2, TriggerDowntime 2 "P" 160 cascadeTriggered = Except.ok st2 ∧
      st2.services = cascadeTriggered.services :=
  ⟨rfl, by decide, by decide,
   match TriggerDowntime_twice 2 "P" 150 160 cascadeExample cascadeTriggered rfl
      (by decide) cascadeExample_windows with
   | ⟨st2, h2, hs, _⟩ => ⟨st2, h2, hs⟩⟩

/-- C10 (counterexample): the window 100..200 of `a` opens between the two
calls. The first call, at 99, returns with `trigger_time` still 0, which is
what a single call leaves; the second call, at 100, sets it to 100. -/
theorem TriggerDowntime_twice_counterexample :
    ∃ st1 st2, TriggerDowntime 1 "a" 99 pendingExample = Except.ok st1 ∧
      TriggerDowntime 1 "a" 100 st1 = Except.ok st2 ∧
      (GetDowntimeByID "a" st1).1.map (fun d => d.trigger_time) = some 0 ∧
      (GetDowntimeByID "a" st2).1.map (fun d => d.trigger_time) = some 100 :=
  ⟨_, _, rfl, rfl, by decide, by decide⟩

/-! ## Ids that do not resolve -/

theorem StdMap.erase_of_find_none {K V : Type} [DecidableEq K] {m : List (K × V)} {k : K}
    (h : StdMap.find m k = none) : StdMap.erase m k = m := by
  induction m with
  | nil => rfl
  | cons e rest ih =>
    obtain ⟨k0, v0⟩ := e
    simp only [StdMap.find] at h
    split at h
    · exact Option.noConfusion h
    · rename_i hk
      unfold StdMap.erase at ih ⊢
      simp only [List.filter_cons, ne_eq, hk, not_false_eq_true, decide_True, if_true]
      rw [ih h]

/-- C11: for an id that does not resolve (no index entry; or an index entry
whose owner is gone, has no store, or whose store no longer holds the id),
`GetDowntimeByID` returns none, `RemoveDowntime` leaves every store unchanged,
and `TriggerDowntime` returns without fault and leaves every store unchanged;
`GetDowntimeIDFromLegacyID` returns the empty id for a legacy id absent from
the legacy index. -/
theorem unresolved_id_is_harmless (id : String) (now : Int) (fuel : Nat) (st : State)
    (hunresolved : ∀ w, StdMap.find st.l_DowntimesCache id = some w →
      ∀ o, lock w st = some o → ∀ d, GetDowntimes o st = some d → StdMap.find d id = none) :
    (GetDowntimeByID id st).1 = none ∧
    (RemoveDowntime id st).services = st.services ∧
    (∃ st1, TriggerDowntime (fuel + 1) id now st = Except.ok st1 ∧
      st1.services = st.services) ∧
    (∀ legacy, StdMap.find st.l_LegacyDowntimesCache legacy = none →
      GetDowntimeIDFromLegacyID legacy st = "") := by
  refine ⟨?_, ?_, ?_, ?_⟩
  · cases hw : StdMap.find st.l_DowntimesCache id with
    | none => simp only [GetDowntimeByID, GetOwnerByDowntimeID, hw]
    | some w =>
      simp only [GetDowntimeByID, GetOwnerByDowntimeID_of_find hw]
      cases ho : lock w st with
      | none => rfl
      | some o =>
        simp only
        cases hd : GetDowntimes o st with
        | none => rfl
        | some d => exact hunresolved w hw o ho d hd
  · cases hw : StdMap.find st.l_DowntimesCache id with
    | none => simp only [RemoveDowntime, GetOwnerByDowntimeID, hw]
    | some w =>
      simp only [RemoveDowntime, GetOwnerByDowntimeID_of_find hw]
      cases ho : lock w st with
      | none => rfl
      | some o =>
        simp only
        cases hd : GetDowntimes o st with
        | none => rfl
        | some d =>
          simp only
          rw [services_Touch, StdMap.erase_of_find_none (hunresolved w hw o ho d hd),
            setDowntimes_eq_self hd]
  · cases hw : StdMap.find st.l_DowntimesCache id with
    | none =>
      rw [TriggerDowntime_succ_shift]
      have hfind : StdMap.find (GetOwnerByDowntimeID id st).2.l_DowntimesCache id = some none := by
        simp only [GetOwnerByDowntimeID, hw, StdMap.find_set, if_true]
      rw [TriggerDowntime_succ_of_find fuel now hfind]
      exact ⟨_, rfl, services_GetOwnerByDowntimeID id st⟩
    | some w =>
      rw [TriggerDowntime_succ_of_find fuel now hw]
      cases ho : lock w st with
      | none => exact ⟨st, rfl, rfl⟩
      | some o =>
        simp only
        cases hd : GetDowntimes o st with
        | none => exact ⟨st, rfl, rfl⟩
        | some d =>
          simp only [hunresolved w hw o ho d hd]
          exact ⟨st, rfl, rfl⟩
  · intro legacy hnone
    simp only [GetDowntimeIDFromLegacyID, hnone]


theorem collidingExample_zz_unresolved :
    ∀ w, StdMap.find collidingExample.l_DowntimesCache "zz" = some w →
      ∀ o, lock w collidingExample = some o → ∀ d, GetDowntimes o collidingExample = some d →
        StdMap.find d "zz" = none := by
  intro w hw o ho d hd
  have hfind : StdMap.find collidingExample.l_DowntimesCache "zz" = some (some 0) := by decide
  rw [hfind] at hw
  injection hw with hw
  subst hw
  have hlock : lock (some 0) collidingExample = some 0 := by decide
  rw [hlock] at ho
  injection ho with ho
  subst ho
  have hstore : GetDowntimes 0 collidingExample = some
      [("a", newDowntime "admin" "first" 100 200 true "" 0 0 5),
       ("b", newDowntime "admin" "second" 100 200 true "" 0 0 5)] := rfl
  rw [hstore] at hd
  injection hd with hd
  subst hd
  decide

/-- The id `zz` is listed in the index of `collidingExample` but held by no
store; the legacy id 4 is absent from the legacy index. -/
theorem unresolved_id_is_harmless_witness :
    (GetDowntimeByID "zz" collidingExample).1 = none ∧
    (RemoveDowntime "zz" collidingExample).services = collidingExample.services ∧
    (∃ st1, TriggerDowntime 1 "zz" 150 collidingExample = Except.ok st1 ∧
      st1.services = collidingExample.services) ∧
    GetDowntimeIDFromLegacyID 4 collidingExample = "" :=
  match unresolved_id_is_harmless "zz" 150 0 collidingExample collidingExample_zz_unresolved with
  | ⟨h1, h2, h3, h4⟩ => ⟨h1, h2, h3, h4 4 (by decide)⟩

/-! ## A top-level `AddDowntime` -/

theorem StdMap.set_perm {K V : Type} [DecidableEq K] (lt : K → K → Bool) {m : List (K × V)}
    {k : K} (v : V) (h : StdMap.find m k = none) :
    (StdMap.set lt m k v).Perm ((k, v) :: m) := by
  induction m with
  | nil => exact List.Perm.refl _
  | cons e rest ih =>
    obtain ⟨k0, v0⟩ := e
    simp only [StdMap.find] at h
    split at h
    · exact Option.noConfusion h
    · rename_i hk
      simp only [StdMap.set]
      split
      · exact List.Perm.refl _
      · rw [if_neg (fun hkk => hk hkk.symm)]
        exact ((ih h).cons (k0, v0)).trans (List.Perm.swap _ _ _)

/-- C12 (amended): an `AddDowntime` call with empty `triggeredBy` and a fresh id
returns that id; afterwards the caller's store is the old store with exactly
one more entry, under the returned id, carrying the arguments, `trigger_time`
0, empty `triggers` and the old counter value as `legacy_id`; every other id
of the store keeps its record and the other stores are unchanged. The counter
is the `int` successor of its old value: it has grown by exactly 1 when the old
value was an `int` below `INT_MAX`, and it is `INT_MIN` when the old value was
`INT_MAX`. -/
theorem AddDowntime_toplevel (self : Nat) (author comment : String) (startTime endTime : Int)
    ( fixed : Bool) (duration now : Int) (id : String) (st : State)
    (hself : self < st.services.length)
    (hfresh : ∀ d, GetDowntimes self st = some d → StdMap.find d id = none) :
    ∃ st1 store1 record,
      AddDowntime self author comment startTime endTime fixed "" duration now id st
        = Except.ok (id, st1) ∧
      GetDowntimes self st1 = some store1 ∧
      store1.Perm ((id, record) ::
        (match GetDowntimes self st with | some d => d | none => [])) ∧
      StdMap.find store1 id = some record ∧
      (∀ k, k ≠ id → StdMap.find store1 k
        = StdMap.find (match GetDowntimes self st with | some d => d | none => []) k) ∧
      record.author = author ∧ record.comment = comment ∧
      record.start_time = startTime ∧ record.end_time = endTime ∧
      record.fixed = fixed ∧ record.duration = duration ∧
      record.trigger_time = 0 ∧ record.triggers = [] ∧
      record.legacy_id = st.l_NextDowntimeID ∧
      st1.l_NextDowntimeID = wrapInt (st.l_NextDowntimeID + 1) ∧
      (INT_MIN ≤ st.l_NextDowntimeID → st.l_NextDowntimeID < INT_MAX →
        st1.l_NextDowntimeID = st.l_NextDowntimeID + 1) ∧
      (st.l_NextDowntimeID = INT_MAX → st1.l_NextDowntimeID = INT_MIN) ∧
      (∀ o, o ≠ self → GetDowntimes o st1 = GetDowntimes o st) := by
  have hold : StdMap.find (match GetDowntimes self st with | some d => d | none => []) id
      = none := by
    cases hd : GetDowntimes self st with
    | none => rfl
    | some d => exact hfresh d hd
  have hnext : (Touch self (setDowntimes self
      (StdMap.set strLt (match GetDowntimes self st with | some d => d | none => []) id
        (newDowntime author comment startTime endTime fixed "" duration now st.l_NextDowntimeID))
      { st with l_NextDowntimeID := wrapInt (st.l_NextDowntimeID + 1) })).l_NextDowntimeID
      = wrapInt (st.l_NextDowntimeID + 1) := by
    rw [l_NextDowntimeID_Touch]
    rfl
  refine ⟨Touch self (setDowntimes self
      (StdMap.set strLt (match GetDowntimes self st with | some d => d | none => []) id
        (newDowntime author comment startTime endTime fixed "" duration now st.l_NextDowntimeID))
      { st with l_NextDowntimeID := wrapInt (st.l_NextDowntimeID + 1) }),
    StdMap.set strLt (match GetDowntimes self st with | some d => d | none => []) id
      (newDowntime author comment startTime endTime fixed "" duration now st.l_NextDowntimeID),
    newDowntime author comment startTime endTime fixed "" duration now st.l_NextDowntimeID,
    AddDowntime_of_empty_triggeredBy _ _ _ _ _ _ _ _ _ _, ?_, StdMap.set_perm strLt _ hold, ?_, ?_,
    rfl, rfl, rfl, rfl, rfl, rfl, rfl, rfl, rfl, hnext, ?_, ?_, ?_⟩
  · rw [GetDowntimes_Touch, GetDowntimes_setDowntimes, if_pos ⟨rfl, hself⟩]
  · rw [StdMap.find_set, if_pos rfl]
  · intro k hk
    rw [StdMap.find_set, if_neg hk]
  · intro hlow hhigh
    rw [hnext]
    exact wrapInt_of_range (by unfold INT_MIN at hlow ⊢; omega) (by omega)
  · intro hmax
    rw [hnext, hmax]
    decide
  · intro o ho
    rw [GetDowntimes_Touch, GetDowntimes_setDowntimes, if_neg (fun h => ho h.1)]
    rfl

/-- A first downtime `P` added to object 0 of a fresh process: the counter moves
from 1 to 2. -/
theorem AddDowntime_toplevel_witness :
    (0 : Nat) < (State.init twoObjects).services.length ∧
    ∃ st1 store1 record,
      AddDowntime 0 "admin" "parent" 100 200 false "" 60 10 "P" (State.init twoObjects)
        = Except.ok ("P", st1) ∧
      GetDowntimes 0 st1 = some store1 ∧
      StdMap.find store1 "P" = some record ∧
      record.legacy_id = 1 ∧ st1.l_NextDowntimeID = 2 :=
  ⟨by decide,
   match AddDowntime_toplevel 0 "admin" "parent" 100 200 false 60 10 "P" (State.init twoObjects)
      (by decide) (by intro d hd; simp [GetDowntimes, State.init, twoObjects] at hd) with
   | ⟨st1, store1, record, h1, h2, _, h4, _, _, _, _, _, _, _, _, _, h14, _, h16, _, _⟩ =>
     ⟨st1, store1, record, h1, h2, h4, h14, h16 (by decide) (by decide)⟩⟩

/-- C12 (counterexample): with the counter at `INT_MAX = 2147483647`, a call on
object 0 of `counterAtMax` stores the record with legacy id `INT_MAX` and
leaves the counter at `INT_MIN = -2147483648`, not at the old value plus 1. -/
theorem AddDowntime_toplevel_counterexample :
    counterAtMax.l_NextDowntimeID = 2147483647 ∧
    GetDowntimes 0 counterAtMax = none ∧
    ∃ st1,
      AddDowntime 0 "admin" "parent" 100 200 false "" 60 10 "P" counterAtMax
        = Except.ok ("P", st1) ∧
      (GetDowntimes 0 st1).map (fun d => d.map (fun e => (e.1, e.2.legacy_id)))
        = some [("P", 2147483647)] ∧
      st1.l_NextDowntimeID = -2147483648 ∧
      st1.l_NextDowntimeID ≠ counterAtMax.l_NextDowntimeID + 1 :=
  ⟨rfl, rfl, _, rfl, by decide, by decide, by decide⟩

/-! ## The notification log -/

theorem touchLog_InvalidateDowntimesCache (st : State) :
    (InvalidateDowntimesCache st).touchLog = st.touchLog := by
  unfold InvalidateDowntimesCache
  split
  · rfl
  · cases st.l_DowntimesCacheTimer <;> rfl

theorem touchLog_Touch (self : Nat) (st : State) :
    (Touch self st).touchLog = st.touchLog ++ [self] := by
  unfold Touch
  rw [touchLog_InvalidateDowntimesCache]

theorem touchLog_GetOwnerByDowntimeID (id : String) (st : State) :
    (GetOwnerByDowntimeID id st).2.touchLog = st.touchLog := by
  unfold GetOwnerByDowntimeID
  split <;> rfl

theorem touchLog_setTriggerTime (o : Nat) (id : String) (now : Int) (st : State) :
    (setTriggerTime o id now st).touchLog = st.touchLog := by
  unfold setTriggerTime
  split <;> rfl

/-! ## Termination of the cascade -/

theorem Ranked.of_stateLe {now : Int} {rank : String → Nat} {s s' : State} (h : StateLe now s s')
    (hs : Ranked rank s) : Ranked rank s' := by
  intro o d' k r' hd' hr'
  cases hd : GetDowntimes o s with
  | none =>
    rw [h.stores_none o hd] at hd'
    exact Option.noConfusion hd'
  | some d =>
    obtain ⟨d2, hd2, hdd⟩ := h.stores o d hd
    rw [hd'] at hd2
    injection hd2 with hd2
    subst hd2
    cases hr : StdMap.find d k with
    | none =>
      rw [hdd.find_none hr] at hr'
      exact Option.noConfusion hr'
    | some r =>
      obtain ⟨r2, hr2, hrr⟩ := hdd.find_some hr
      rw [hr'] at hr2
      injection hr2 with hr2
      subst hr2
      have htrig : r'.triggers = r.triggers := by rw [hrr.1]
      rw [htrig]
      exact hs o d k r hd hr

theorem foldlM_terminates {now : Int} {rank : String → Nat}
    {f : State → String → Except Fault State} {n : Nat}
    (hmono : ∀ c s s1, f s c = Except.ok s1 → StateLe now s s1)
    (hterm : ∀ c s, Ranked rank s → rank c < n → ∃ s1, f s c = Except.ok s1)
    (cs : List String) (hcs : ∀ c ∈ cs, rank c < n) (s : State) (hs : Ranked rank s) :
    ∃ sd, List.foldlM f s cs = Except.ok sd := by
  induction cs generalizing s with
  | nil => exact ⟨s, rfl⟩
  | cons c rest ih =>
    obtain ⟨sx, hsx⟩ := hterm c s hs (hcs c (List.mem_cons_self _ _))
    obtain ⟨sd, hsd⟩ := ih (fun c' hc' => hcs c' (List.mem_cons_of_mem _ hc')) sx
      (hs.of_stateLe (hmono c s sx hsx))
    refine ⟨sd, ?_⟩
    rw [List.foldlM_cons, hsx]
    exact hsd

theorem TriggerDowntime_terminates_of_ranked (rank : String → Nat) (now : Int) (fuel : Nat)
    (id : String) (s : State) (hs : Ranked rank s) (hfuel : rank id < fuel) :
    ∃ s1, TriggerDowntime fuel id now s = Except.ok s1 := by
  induction fuel generalizing id s with
  | zero => exact absurd hfuel (Nat.not_lt_zero _)
  | succ fuel ih =>
    rw [TriggerDowntime_succ_shift]
    obtain ⟨w, hw, _⟩ := GetOwnerByDowntimeID_find id s
    have hsa : Ranked rank (GetOwnerByDowntimeID id s).2 :=
      hs.of_stateLe (StateLe_GetOwnerByDowntimeID now id s)
    generalize (GetOwnerByDowntimeID id s).2 = sa at hw hsa
    rw [TriggerDowntime_succ_of_find fuel now hw]
    cases ho : lock w sa with
    | none => exact ⟨sa, rfl⟩
    | some o =>
      simp only
      cases hd : GetDowntimes o sa with
      | none => exact ⟨sa, rfl⟩
      | some d =>
        simp only
        cases hr : StdMap.find d id with
        | none => exact ⟨sa, rfl⟩
        | some r =>
          simp only
          by_cases hwin : now < r.start_time ∨ now > r.end_time
          · rw [if_pos hwin]
            exact ⟨sa, rfl⟩
          · rw [if_neg hwin]
            have hsc : Ranked rank
                (if r.trigger_time = 0 then setTriggerTime o id now sa else sa) := by
              split
              · rename_i h0
                exact hsa.of_stateLe (StateLe_setTriggerTime hd hr h0)
              · exact hsa
            obtain ⟨sd, hsd⟩ := foldlM_terminates
              (fun c s s1 hc => TriggerDowntime_StateLe fuel c now s s1 hc)
              (fun c s hs' hc => ih c s hs' hc)
              (StdMap.keys r.triggers)
              (fun c hc => by have := hsa o d id r hd hr c hc; omega) _ hsc
            rw [hsd]
            exact ⟨_, rfl⟩

theorem exists_rank_bound (rank : String → Nat) (l : List String) :
    ∃ n, ∀ k ∈ l, rank k < n := by
  induction l with
  | nil => exact ⟨0, fun _ h => absurd h (List.not_mem_nil _)⟩
  | cons a rest ih =>
    obtain ⟨n, hn⟩ := ih
    refine ⟨max (rank a + 1) n, ?_⟩
    intro k hk
    rcases List.mem_cons.mp hk with rfl | hk
    · exact lt_of_lt_of_le (Nat.lt_succ_self _) (le_max_left _ _)
    · exact lt_of_lt_of_le (hn k hk) (le_max_right _ _)

/-- C14 (amended): when the trigger relation has no cycle (it descends along a
rank), a cascade terminates: `TriggerDowntime(id)` returns once the recursion
budget exceeds the rank of `id`, and `TriggerDowntimes` returns for a large
enough budget. -/
theorem cascade_terminates_of_ranked (rank : String → Nat) (now : Int) (s : State)
    (hranked : Ranked rank s) :
    (∀ id, ∃ s1, TriggerDowntime (rank id + 1) id now s = Except.ok s1) ∧
    (∀ self, ∃ fuel s1, TriggerDowntimes fuel self now s = Except.ok s1) := by
  constructor
  · intro id
    exact TriggerDowntime_terminates_of_ranked rank now _ id s hranked (Nat.lt_succ_self _)
  · intro self
    unfold TriggerDowntimes
    cases hd : GetDowntimes self s with
    | none => exact ⟨0, s, rfl⟩
    | some d =>
      obtain ⟨n, hn⟩ := exists_rank_bound rank (StdMap.keys d)
      obtain ⟨sd, hsd⟩ := foldlM_terminates
        (fun c s s1 hc => TriggerDowntime_StateLe n c now s s1 hc)
        (fun c s hs' hc => TriggerDowntime_terminates_of_ranked rank now n c s hs' hc)
        (StdMap.keys d) hn s hranked
      exact ⟨n, sd, hsd⟩

theorem TriggerDowntime_cycleTriggered (fuel : Nat) :
    TriggerDowntime fuel "A" 150 cycleTriggered = Except.error Fault.stackExhausted ∧
    TriggerDowntime fuel "B" 150 cycleTriggered = Except.error Fault.stackExhausted := by
  induction fuel with
  | zero => exact ⟨rfl, rfl⟩
  | succ fuel ih =>
    have a1 : GetOwnerByDowntimeID "A" cycleTriggered = (some 0, cycleTriggered) := rfl
    have a2 : GetDowntimeByID "A" cycleTriggered
        = (some { cycleA with trigger_time := 150 }, cycleTriggered) := rfl
    have b1 : GetOwnerByDowntimeID "B" cycleTriggered = (some 0, cycleTriggered) := rfl
    have b2 : GetDowntimeByID "B" cycleTriggered
        = (some { cycleB with trigger_time := 150 }, cycleTriggered) := rfl
    have e3 : ¬ ((150 : Int) < cycleA.start_time ∨ 150 > cycleA.end_time) := by decide
    have e4 : ¬ ((150 : Int) < cycleB.start_time ∨ 150 > cycleB.end_time) := by decide
    have ka : StdMap.keys cycleA.triggers = ["B"] := rfl
    have kb : StdMap.keys cycleB.triggers = ["A"] := rfl
    constructor
    · rw [TriggerDowntime]
      simp only [a1, a2, if_neg e3, ka, List.foldlM_cons, List.foldlM_nil]
      rw [if_neg (by decide), ih.2]
      rfl
    · rw [TriggerDowntime]
      simp only [b1, b2, if_neg e4, kb, List.foldlM_cons, List.foldlM_nil]
      rw [if_neg (by decide), ih.1]
      rfl

theorem TriggerDowntime_cycleHalf (fuel : Nat) :
    TriggerDowntime fuel "B" 150 cycleHalf = Except.error Fault.stackExhausted := by
  cases fuel with
  | zero => rfl
  | succ fuel =>
    have b1 : GetOwnerByDowntimeID "B" cycleHalf = (some 0, cycleHalf) := rfl
    have b2 : GetDowntimeByID "B" cycleHalf = (some cycleB, cycleHalf) := rfl
    have e4 : ¬ ((150 : Int) < cycleB.start_time ∨ 150 > cycleB.end_time) := by decide
    have kb : StdMap.keys cycleB.triggers = ["A"] := rfl
    have e6 : setTriggerTime 0 "B" 150 cycleHalf = cycleTriggered := rfl
    rw [TriggerDowntime]
    simp only [b1, b2, if_neg e4, kb, List.foldlM_cons, List.foldlM_nil]
    rw [if_pos (by decide), e6, (TriggerDowntime_cycleTriggered fuel).1]
    rfl

theorem TriggerDowntime_cycleExample (fuel : Nat) :
    TriggerDowntime fuel "A" 150 cycleExample = Except.error Fault.stackExhausted := by
  cases fuel with
  | zero => rfl
  | succ fuel =>
    have a1 : GetOwnerByDowntimeID "A" cycleExample = (some 0, cycleExample) := rfl
    have a2 : GetDowntimeByID "A" cycleExample = (some cycleA, cycleExample) := rfl
    have e3 : ¬ ((150 : Int) < cycleA.start_time ∨ 150 > cycleA.end_time) := by decide
    have ka : StdMap.keys cycleA.triggers = ["B"] := rfl
    have e6 : setTriggerTime 0 "A" 150 cycleExample = cycleHalf := rfl
    rw [TriggerDowntime]
    simp only [a1, a2, if_neg e3, ka, List.foldlM_cons, List.foldlM_nil]
    rw [if_pos (by decide), e6, TriggerDowntime_cycleHalf fuel]
    rfl

/-- C14 (counterexample): in `cycleExample` the downtimes `A` and `B` trigger
each other; `TriggerDowntime(A)` at 150, inside both windows, returns for no
recursion budget. And in `diamondExample`, which has no cycle, the cascade
from `P` visits `C`, the only downtime of object 1, twice: object 1 is
notified twice. -/
theorem cascade_cycle_counterexample :
    (¬ ∃ fuel s1, TriggerDowntime fuel "A" 150 cycleExample = Except.ok s1) ∧
    touchesOf (TriggerDowntime 3 "P" 150 diamondExample) = [1, 0, 1, 0, 0] := by
  refine ⟨?_, by decide⟩
  rintro ⟨fuel, s1, h⟩
  rw [TriggerDowntime_cycleExample fuel] at h
  exact Except.noConfusion h

theorem cascadeExample_ranked : Ranked cascadeRank cascadeExample := by
  intro o d k r hd hr c hc
  rcases o with _ | _ | o
  · simp only [GetDowntimes, cascadeExample, State.init, List.getElem?_cons_zero,
      Option.some_bind, Option.some.injEq] at hd
    subst hd
    simp only [StdMap.find] at hr
    split at hr
    · rename_i hk
      injection hr with hr
      subst hr
      subst hk
      simp only [StdMap.keys, List.map_cons, List.map_nil, List.mem_singleton] at hc
      subst hc
      decide
    · exact Option.noConfusion hr
  · simp only [GetDowntimes, cascadeExample, State.init, List.getElem?_cons_succ,
      List.getElem?_cons_zero, Option.some_bind, Option.some.injEq] at hd
    subst hd
    simp only [StdMap.find] at hr
    split at hr
    · injection hr with hr
      subst hr
      simp [StdMap.keys, newDowntime] at hc
    · exact Option.noConfusion hr
  · simp [GetDowntimes, cascadeExample, State.init] at hd

/-- The cascade from `P` over its child `C` returns with budget 2, and
`TriggerDowntimes` of object 0 returns for some budget. -/
theorem cascade_terminates_of_ranked_witness :
    Ranked cascadeRank cascadeExample ∧
    (∃ s1, TriggerDowntime (cascadeRank "P" + 1) "P" 150 cascadeExample = Except.ok s1) ∧
    (∃ fuel s1, TriggerDowntimes fuel 0 150 cascadeExample = Except.ok s1) :=
  ⟨cascadeExample_ranked,
   (cascade_terminates_of_ranked cascadeRank 150 cascadeExample cascadeExample_ranked).1 "P",
   (cascade_terminates_of_ranked cascadeRank 150 cascadeExample cascadeExample_ranked).2 0⟩

/-! ## What a rebuild changes in the stores -/

theorem not_nodup_append_singleton {V : List Int} {x : Int}
    (h : x ∈ V ∨ ¬ V.Nodup) : ¬ (V ++ [x]).Nodup := by
  intro hn
  rw [List.nodup_append] at hn
  rcases h with h | h
  · exact hn.2.2 h (List.mem_singleton_self x)
  · exact h hn.1

theorem not_mem_of_count_eq_one {V T : List Int} {x : Int}
    (h : (V ++ x :: T).count x = 1) : x ∉ V := by
  intro hx
  have hpos := List.count_pos_iff.mpr hx
  rw [List.count_append, List.count_cons_self] at h
  omega

theorem refreshEntry_kept {H : Prop} {L : List Int} {c0 : Int} {c : NewCaches}
    {V T : List Int} {st : State} (service : Nat) (id : String) (downtime : Downtime)
    (hinv : FreshInv H c V (downtime.legacy_id :: T) c0 st)
    (hL : L = V ++ downtime.legacy_id :: T) :
    Kept H L c0 (id, downtime) (id, (refreshEntry service id downtime st c).1) ∧
    FreshInv H (refreshEntry service id downtime st c).2.2 (V ++ [downtime.legacy_id]) T c0
      (refreshEntry service id downtime st c).2.1 := by
  obtain ⟨hroom, hkeys⟩ := hinv
  have hold : ∀ y i, StdMap.find c.newLegacyDowntimesCache y = some i →
      y ∈ V ++ [downtime.legacy_id] ∨
        (¬ (V ++ [downtime.legacy_id]).Nodup ∧ (H → c0 ≤ y)) := by
    intro y i hy
    rcases hkeys y i hy with h | ⟨h1, h2⟩
    · exact Or.inl (List.mem_append_left _ h)
    · exact Or.inr ⟨not_nodup_append_singleton (Or.inr h1), h2⟩
  have hstep : H → c0 ≤ (refreshEntry service id downtime st c).2.1.l_NextDowntimeID ∧
      Room (refreshEntry service id downtime st c).2.1.l_NextDowntimeID T := by
    intro hH
    obtain ⟨h0, hr⟩ := hroom hH
    obtain ⟨hm, hr'⟩ := refreshEntry_room service id downtime c hr
    exact ⟨le_trans h0 hm, hr'⟩
  have hbump : H → c0 ≤ (if downtime.legacy_id ≥ st.l_NextDowntimeID then
        ({ st with l_NextDowntimeID := wrapInt (downtime.legacy_id + 1) } : State)
        else st).l_NextDowntimeID := by
    intro hH
    obtain ⟨h0, h1, h2, h3⟩ := hroom hH
    have hx := h3 _ (List.mem_cons_self _ _)
    simp only [List.length_cons, Nat.cast_add, Nat.cast_one, INT_MIN, INT_MAX] at h1 h2 hx
    split
    · simp only
      unfold wrapInt
      omega
    · exact h0
  refine ⟨?_, hstep, ?_⟩
  · unfold refreshEntry
    simp only
    split
    · rename_i hcoll
      obtain ⟨i, hi⟩ := Option.isSome_iff_exists.mp hcoll
      have hdup := hkeys _ i hi
      refine ⟨rfl, rfl, ?_⟩
      intro hcount hcase
      simp only at hcount hcase
      exfalso
      have hnot : downtime.legacy_id ∉ V := not_mem_of_count_eq_one (hL ▸ hcount)
      rcases hdup with h | ⟨h1, h2⟩
      · exact hnot h
      · rcases hcase with ⟨hlt, hH⟩ | h
        · have := h2 hH
          omega
        · rw [hL] at h
          exact h1 (List.nodup_append.mp h).1
    · exact ⟨rfl, rfl, fun _ _ => rfl⟩
  · intro y i hy
    unfold refreshEntry at hy
    simp only at hy
    generalize (if downtime.legacy_id ≥ st.l_NextDowntimeID then
      ({ st with l_NextDowntimeID := wrapInt (downtime.legacy_id + 1) } : State)
      else st) = st1 at hbump hy
    split at hy
    · rename_i hcoll
      obtain ⟨j, hj⟩ := Option.isSome_iff_exists.mp hcoll
      have hdup := hkeys _ j hj
      simp only [StdMap.find_set] at hy
      split at hy
      · rename_i hyn
        right
        refine ⟨not_nodup_append_singleton (hdup.imp (fun h => h) (fun h => h.1)), ?_⟩
        intro hH
        rw [hyn]
        exact hbump hH
      · exact hold y i hy
    · simp only [StdMap.find_set] at hy
      split at hy
      · rename_i hyn
        left
        rw [hyn]
        exact List.mem_append_right _ (List.mem_singleton_self _)
      · exact hold y i hy

theorem refreshEntries_kept {H : Prop} {L : List Int} {c0 : Int} (service : Nat)
    (d : Downtimes) {c : NewCaches} {V T : List Int} {st : State}
    (hinv : FreshInv H c V (d.map (fun e => e.2.legacy_id) ++ T) c0 st)
    (hL : L = V ++ (d.map (fun e => e.2.legacy_id) ++ T)) :
    List.Forall₂ (Kept H L c0) d (refreshEntries service d st c).1 ∧
    FreshInv H (refreshEntries service d st c).2.2 (V ++ d.map (fun e => e.2.legacy_id)) T c0
      (refreshEntries service d st c).2.1 := by
  induction d generalizing c V st with
  | nil =>
    simp only [refreshEntries, List.map_nil, List.append_nil]
    exact ⟨List.Forall₂.nil, by simpa using hinv⟩
  | cons e rest ih =>
    obtain ⟨id, downtime⟩ := e
    simp only [List.map_cons, List.cons_append] at hinv hL
    have h1 := refreshEntry_kept service id downtime hinv hL
    have h2 := ih h1.2 (by rw [hL]; simp)
    simp only [refreshEntries, List.map_cons]
    refine ⟨List.Forall₂.cons h1.1 h2.1, ?_⟩
    have := h2.2
    simp only [List.append_assoc, List.singleton_append] at this
    exact this

theorem refreshObjects_kept {H : Prop} {L : List Int} {c0 : Int} (base : Nat)
    (svcs : List Service) {c : NewCaches} {V T : List Int} {st : State}
    (hinv : FreshInv H c V (svcs.flatMap storeLegacyIds ++ T) c0 st)
    (hL : L = V ++ (svcs.flatMap storeLegacyIds ++ T)) :
    List.Forall₂ (KeptStore H L c0) svcs (refreshObjects base svcs st c).1 ∧
    FreshInv H (refreshObjects base svcs st c).2.2 (V ++ svcs.flatMap storeLegacyIds) T c0
      (refreshObjects base svcs st c).2.1 := by
  induction svcs generalizing base c V st with
  | nil =>
    simp only [refreshObjects, List.flatMap_nil, List.append_nil]
    exact ⟨List.Forall₂.nil, by simpa using hinv⟩
  | cons s rest ih =>
    unfold refreshObjects
    cases hs : s.m_Downtimes with
    | none =>
      have hnil : storeLegacyIds s = [] := by simp [storeLegacyIds, hs]
      simp only [List.flatMap_cons, hnil, List.nil_append] at hinv hL ⊢
      have h2 := ih (base + 1) hinv hL
      exact ⟨List.Forall₂.cons (Or.inl ⟨hs, hs⟩) h2.1, h2.2⟩
    | some d =>
      have hd : storeLegacyIds s = d.map (fun e => e.2.legacy_id) := by
        simp [storeLegacyIds, hs]
      simp only [List.flatMap_cons, hd, List.append_assoc] at hinv hL ⊢
      have h1 := refreshEntries_kept base d hinv hL
      have h2 := ih (base + 1) h1.2 (by rw [hL]; simp)
      refine ⟨List.Forall₂.cons (Or.inr ⟨d, _, hs, rfl, h1.1⟩) h2.1, ?_⟩
      have := h2.2
      simp only [List.append_assoc] at this ⊢
      exact this

theorem forall₂_getElem? {α β : Type} {R : α → β → Prop} {l : List α} {l' : List β}
    (h : List.Forall₂ R l l') (n : Nat) :
    (l[n]? = none ∧ l'[n]? = none) ∨ ∃ a b, l[n]? = some a ∧ l'[n]? = some b ∧ R a b := by
  induction h generalizing n with
  | nil => exact Or.inl ⟨rfl, rfl⟩
  | @cons a b l l' hab _ ih =>
    cases n with
    | zero => exact Or.inr ⟨a, b, by simp, by simp, hab⟩
    | succ n => simpa using ih n

theorem rebuild_kept (st : State) :
    List.Forall₂ (KeptStore (Headroom st) (legacyIds st) st.l_NextDowntimeID) st.services
      (rebuild st).services := by
  rw [services_rebuild]
  have hinv : FreshInv (Headroom st) { newLegacyDowntimesCache := [], newDowntimesCache := [] } []
      (st.services.flatMap storeLegacyIds ++ []) st.l_NextDowntimeID
      { st with l_DowntimesCacheNeedsUpdate := false } := by
    refine ⟨fun hH => ⟨le_refl _, ?_⟩, fun _ _ h => Option.noConfusion h⟩
    rw [List.append_nil, ← legacyIds_eq]
    exact hH
  have hL : legacyIds st = [] ++ (st.services.flatMap storeLegacyIds ++ []) := by
    rw [legacyIds_eq]
    simp
  exact (refreshObjects_kept 0 st.services hinv hL).1

/-- C13 (amended): a `RefreshDowntimesCache` keeps the key and every field other
than `legacy_id` of every record of every store, and it keeps the `legacy_id`
of every record whose `legacy_id` was held by no other record before the
rebuild, provided that either that `legacy_id` was below the counter
`l_NextDowntimeID` before the rebuild and the pass had room (`Headroom`), or no
two records shared a legacy id at all. -/
theorem RefreshDowntimesCache_frame (st : State) (o : Nat) :
    (GetDowntimes o st = none → GetDowntimes o (RefreshDowntimesCache st) = none) ∧
    (∀ d, GetDowntimes o st = some d →
      ∃ d', GetDowntimes o (RefreshDowntimesCache st) = some d' ∧
        List.Forall₂ (fun e e' =>
          e'.1 = e.1 ∧ e'.2 = { e.2 with legacy_id := e'.2.legacy_id } ∧
          ((legacyIds st).count e.2.legacy_id = 1 →
            ((e.2.legacy_id < st.l_NextDowntimeID ∧ Headroom st) ∨ (legacyIds st).Nodup) →
            e'.2.legacy_id = e.2.legacy_id)) d d') := by
  unfold RefreshDowntimesCache
  split
  · have h := forall₂_getElem? (rebuild_kept st) o
    unfold GetDowntimes
    rcases h with ⟨h1, h2⟩ | ⟨s, s', h1, h2, hk⟩
    · rw [h1, h2]
      exact ⟨fun _ => rfl, fun d hd => Option.noConfusion hd⟩
    · rw [h1, h2]
      simp only [Option.some_bind]
      rcases hk with ⟨hn, hn'⟩ | ⟨d, d', hd, hd', hf⟩
      · rw [hn, hn']
        exact ⟨fun _ => rfl, fun d hd => Option.noConfusion hd⟩
      · rw [hd, hd']
        refine ⟨fun h => Option.noConfusion h, fun d0 hd0 => ?_⟩
        injection hd0 with hd0
        subst hd0
        exact ⟨d', rfl, hf⟩
  · refine ⟨fun h => h, fun d hd => ⟨d, hd, ?_⟩⟩
    clear hd
    induction d with
    | nil => exact List.Forall₂.nil
    | cons e rest ih => exact List.Forall₂.cons ⟨rfl, rfl, fun _ _ => rfl⟩ ih

/-- C13 (counterexample): in `collidingExample` the record `c` of object 1 is the
only one with legacy id 6; the rebuild hands 6 to the colliding record `b` and
then reassigns 7 to `c`. Without room for the pass a legacy id below the
counter is not safe either: in `overflowFrameExample` the record `d` is the
only one with legacy id 8, below the counter 100; the record with legacy id
`INT_MAX` sends the counter to `INT_MIN`, the next record brings it to 8, and
the rebuild hands 8 to the colliding record `c` and then reassigns 9 to `d`. -/
theorem RefreshDowntimesCache_frame_counterexample :
    collidingExample.l_DowntimesCacheNeedsUpdate = true ∧
    (GetDowntimes 1 collidingExample).map (fun d => d.map (fun e => (e.1, e.2.legacy_id)))
      = some [("c", 6)] ∧
    (legacyIds collidingExample).count 6 = 1 ∧
    (GetDowntimes 1 (RefreshDowntimesCache collidingExample)).map
        (fun d => d.map (fun e => (e.1, e.2.legacy_id)))
      = some [("c", 7)] ∧
    overflowFrameExample.l_DowntimesCacheNeedsUpdate = true ∧
    overflowFrameExample.l_NextDowntimeID = 100 ∧
    (GetDowntimes 0 overflowFrameExample).map (fun d => d.map (fun e => (e.1, e.2.legacy_id)))
      = some [("a", 2147483647), ("b", 7), ("c", 7), ("d", 8)] ∧
    (legacyIds overflowFrameExample).count 8 = 1 ∧
    (GetDowntimes 0 (RefreshDowntimesCache overflowFrameExample)).map
        (fun d => d.map (fun e => (e.1, e.2.legacy_id)))
      = some [("a", 2147483647), ("b", 7), ("c", 8), ("d", 9)] :=
  ⟨rfl, by decide, by decide, by decide, rfl, rfl, by decide, by decide, by decide⟩

/-! ## Changes of `trigger_time` -/

theorem StdMap.find_mutate_ne {K V : Type} [DecidableEq K] (m : List (K × V)) {k k' : K}
    (f : V → V) (h : k' ≠ k) : StdMap.find (StdMap.mutate m k f) k' = StdMap.find m k' := by
  induction m with
  | nil => rfl
  | cons e rest ih =>
    obtain ⟨k0, v0⟩ := e
    simp only [StdMap.mutate]
    split
    · rename_i hk
      have : ¬ k0 = k' := fun hh => h (hh.symm.trans hk)
      simp [StdMap.find, this]
    · simp [StdMap.find, ih]

theorem StdMap.find_erase {K V : Type} [DecidableEq K] (m : List (K × V)) (k k' : K) :
    StdMap.find (StdMap.erase m k) k' = if k' = k then none else StdMap.find m k' := by
  induction m with
  | nil => simp [StdMap.erase, StdMap.find]
  | cons e rest ih =>
    obtain ⟨k0, v0⟩ := e
    unfold StdMap.erase at ih ⊢
    by_cases hk0 : k0 = k
    · subst hk0
      simp only [List.filter_cons, ne_eq, not_true_eq_false, decide_False, Bool.false_eq_true,
        if_false, ih, StdMap.find]
      by_cases hkk : k' = k0
      · simp [hkk]
      · have : ¬ k0 = k' := fun h => hkk h.symm
        simp [hkk, this]
    · simp only [List.filter_cons, ne_eq, hk0, not_false_eq_true, decide_True, if_true,
        StdMap.find, ih]
      by_cases hkk : k0 = k'
      · have : ¬ k' = k := fun h => hk0 (hkk.trans h)
        simp [hkk, this]
      · simp [hkk]

theorem StdMap.find_foldl_erase {K V : Type} [DecidableEq K] (ks : List K) (m : List (K × V))
    (k' : K) {v : V} (h : StdMap.find (ks.foldl StdMap.erase m) k' = some v) :
    StdMap.find m k' = some v := by
  induction ks generalizing m with
  | nil => exact h
  | cons k ks ih =>
    have := ih (StdMap.erase m k) h
    rw [StdMap.find_erase] at this
    split at this
    · exact Option.noConfusion this
    · exact this

theorem StdMap.find_forall₂ {K V : Type} [DecidableEq K] {R : K × V → K × V → Prop}
    {d d' : List (K × V)} (h : List.Forall₂ R d d') (hkey : ∀ e e', R e e' → e'.1 = e.1)
    {k : K} {r : V} (hr : StdMap.find d k = some r) :
    ∃ r', StdMap.find d' k = some r' ∧ R (k, r) (k, r') := by
  induction h with
  | nil => exact Option.noConfusion hr
  | @cons e e' rest rest' hee _ ih =>
    obtain ⟨k0, v0⟩ := e
    obtain ⟨k0', v0'⟩ := e'
    have hk : k0' = k0 := hkey _ _ hee
    subst hk
    simp only [StdMap.find] at hr ⊢
    split
    · rename_i hkk
      rw [if_pos hkk] at hr
      injection hr with hr
      subst hr
      subst hkk
      exact ⟨v0', rfl, hee⟩
    · rename_i hkk
      rw [if_neg hkk] at hr
      exact ih hr

theorem RecTrig.reflTrig (now : Int) (r : Downtime) : RecTrig now r r := ⟨rfl, Or.inl rfl⟩

theorem RecTrig.transTrig {now : Int} {a b c : Downtime} (h1 : RecTrig now a b)
    (h2 : RecTrig now b c) : RecTrig now a c := by
  obtain ⟨e1, t1⟩ := h1
  obtain ⟨e2, t2⟩ := h2
  have hs : b.start_time = a.start_time := by rw [e1]
  have he : b.end_time = a.end_time := by rw [e1]
  constructor
  · rw [e2, e1]
  · rcases t1 with t1 | ⟨t1, t1', w1, w2⟩ <;> rcases t2 with t2 | ⟨t2, t2', w3, w4⟩
    · exact Or.inl (t2.trans t1)
    · exact Or.inr ⟨t1 ▸ t2, t2', hs ▸ w3, he ▸ w4⟩
    · exact Or.inr ⟨t1, t2.trans t1', w1, w2⟩
    · exact Or.inr ⟨t1, t2', w1, w2⟩

theorem StateTrig.reflTrigState (now : Int) (s : State) : StateTrig now s s :=
  fun _ d hd => ⟨d, hd, fun _ r hr => ⟨r, hr, RecTrig.reflTrig now r⟩⟩

theorem StateTrig.transTrigState {now : Int} {a b c : State} (h1 : StateTrig now a b)
    (h2 : StateTrig now b c) : StateTrig now a c := by
  intro o d hd
  obtain ⟨d1, hd1, f1⟩ := h1 o d hd
  obtain ⟨d2, hd2, f2⟩ := h2 o d1 hd1
  refine ⟨d2, hd2, fun k r hr => ?_⟩
  obtain ⟨r1, hr1, t1⟩ := f1 k r hr
  obtain ⟨r2, hr2, t2⟩ := f2 k r1 hr1
  exact ⟨r2, hr2, t1.transTrig t2⟩

theorem StateTrig.of_services {now : Int} {s s' : State} (h : s'.services = s.services) :
    StateTrig now s s' := by
  intro o d hd
  refine ⟨d, ?_, fun _ r hr => ⟨r, hr, RecTrig.reflTrig now r⟩⟩
  unfold GetDowntimes at hd ⊢
  rw [h]
  exact hd

theorem StateTrig_setTriggerTime {o : Nat} {id : String} {now : Int} {s : State}
    {d : Downtimes} {r : Downtime} (hd : GetDowntimes o s = some d)
    (hr : StdMap.find d id = some r) (h0 : r.trigger_time = 0)
    (hwin : r.start_time ≤ now ∧ now ≤ r.end_time) :
    StateTrig now s (setTriggerTime o id now s) := by
  intro o' d' hd'
  by_cases hoo : o' = o
  · subst hoo
    rw [hd] at hd'
    injection hd' with hd'
    subst hd'
    refine ⟨_, GetDowntimes_setTriggerTime hd, fun k r0 hr0 => ?_⟩
    by_cases hk : k = id
    · subst hk
      rw [hr] at hr0
      injection hr0 with hr0
      subst hr0
      refine ⟨{ r with trigger_time := now }, ?_, rfl, Or.inr ⟨h0, rfl, hwin.1, hwin.2⟩⟩
      rw [StdMap.find_mutate, hr]
      rfl
    · refine ⟨r0, ?_, RecTrig.reflTrig now r0⟩
      rw [StdMap.find_mutate_ne _ _ hk]
      exact hr0
  · refine ⟨d', ?_, fun _ r0 hr0 => ⟨r0, hr0, RecTrig.reflTrig now r0⟩⟩
    unfold setTriggerTime
    rw [hd]
    simp only
    rw [GetDowntimes_setDowntimes, if_neg (fun h => hoo h.1)]
    exact hd'

theorem foldlM_StateTrig {now : Int} {f : State → String → Except Fault State}
    (hf : ∀ c s s1, f s c = Except.ok s1 → StateTrig now s s1)
    (cs : List String) {s sd : State} (h : List.foldlM f s cs = Except.ok sd) :
    StateTrig now s sd := by
  induction cs generalizing s with
  | nil =>
    simp only [List.foldlM_nil, pure, Except.pure] at h
    injection h with h
    subst h
    exact StateTrig.reflTrigState now s
  | cons c rest ih =>
    rw [List.foldlM_cons] at h
    cases hc : f s c with
    | error e =>
      rw [hc] at h
      exact Except.noConfusion h
    | ok sx =>
      rw [hc] at h
      exact (hf c s sx hc).transTrigState (ih h)

theorem TriggerDowntime_StateTrig (fuel : Nat) (id : String) (now : Int) (s s1 : State)
    (h : TriggerDowntime fuel id now s = Except.ok s1) : StateTrig now s s1 := by
  induction fuel generalizing id s s1 with
  | zero => exact Except.noConfusion h
  | succ fuel ih =>
    rw [TriggerDowntime_succ_shift] at h
    obtain ⟨w, hw, _⟩ := GetOwnerByDowntimeID_find id s
    refine (StateTrig.of_services (services_GetOwnerByDowntimeID id s)).transTrigState ?_
    generalize (GetOwnerByDowntimeID id s).2 = sa at h hw ⊢
    rw [TriggerDowntime_succ_of_find fuel now hw] at h
    split at h
    · injection h with h; subst h; exact StateTrig.reflTrigState now sa
    · rename_i o ho
      split at h
      · injection h with h; subst h; exact StateTrig.reflTrigState now sa
      · rename_i d hd
        split at h
        · injection h with h; subst h; exact StateTrig.reflTrigState now sa
        · rename_i r hr
          split at h
          · injection h with h; subst h; exact StateTrig.reflTrigState now sa
          · rename_i hwin
            split at h
            · exact Except.noConfusion h
            · rename_i sd hfold
              injection h with h
              subst h
              have h1 : StateTrig now sa
                  (if r.trigger_time = 0 then setTriggerTime o id now sa else sa) := by
                split
                · rename_i h0
                  exact StateTrig_setTriggerTime hd hr h0 (by omega)
                · exact StateTrig.reflTrigState now sa
              have h2 := foldlM_StateTrig (fun c s s1 hc => ih c s s1 hc) _ hfold
              exact (h1.transTrigState h2).transTrigState
                (StateTrig.of_services (services_Touch o sd))


theorem StdMap.find_mutate_map {K V β : Type} [DecidableEq K] (m : List (K × V)) (k k' : K)
    (f : V → V) (g : V → β) (h : ∀ v, g (f v) = g v) :
    (StdMap.find (StdMap.mutate m k f) k').map g = (StdMap.find m k').map g := by
  by_cases hk : k' = k
  · subst hk
    rw [StdMap.find_mutate]
    cases StdMap.find m k' with
    | none => rfl
    | some v => simp [h]
  · rw [StdMap.find_mutate_ne _ _ hk]

theorem GetDowntimes_GetOwnerByDowntimeID (id : String) (o : Nat) (st : State) :
    GetDowntimes o (GetOwnerByDowntimeID id st).2 = GetDowntimes o st := by
  unfold GetDowntimes
  rw [services_GetOwnerByDowntimeID]

theorem registerTrigger_trigger_time {triggeredBy : String} {st st2 : State}
    (h : registerTrigger triggeredBy st = Except.ok st2) (o : Nat) (d : Downtimes)
    (hd : GetDowntimes o st = some d) :
    ∃ d2, GetDowntimes o st2 = some d2 ∧
      ∀ k, (StdMap.find d2 k).map (fun r => r.trigger_time)
        = (StdMap.find d k).map (fun r => r.trigger_time) := by
  unfold registerTrigger at h
  simp only at h
  split at h
  · exact Except.noConfusion h
  · rename_i otherOwner _
    split at h
    · exact Except.noConfusion h
    · rename_i otherDowntimes hod
      split at h
      · exact Except.noConfusion h
      · injection h with h
        subst h
        rw [GetDowntimes_GetOwnerByDowntimeID] at hod
        rw [GetDowntimes_Touch, GetDowntimes_setDowntimes]
        split
        · rename_i hoo
          rw [hoo.1, hod] at hd
          injection hd with hd
          subst hd
          refine ⟨_, rfl, fun k => ?_⟩
          exact StdMap.find_mutate_map _ _ _ _ _ (fun _ => rfl)
        · rw [GetDowntimes_GetOwnerByDowntimeID]
          exact ⟨d, hd, fun _ => rfl⟩

theorem AddDowntime_trigger_time {self : Nat} {author comment : String}
    {startTime endTime : Int} { fixed : Bool} {triggeredBy : String} {duration now : Int}
    {id : String} {st : State} {res : String × State}
    (hadd : AddDowntime self author comment startTime endTime fixed triggeredBy duration now id st
      = Except.ok res)
    (hfresh : ∀ d, GetDowntimes self st = some d → StdMap.find d id = none)
    {o : Nat} {d d1 : Downtimes} {k : String} {r r1 : Downtime}
    (hd : GetDowntimes o st = some d) (hr : StdMap.find d k = some r)
    (hd1 : GetDowntimes o res.2 = some d1) (hr1 : StdMap.find d1 k = some r1) :
    r1.trigger_time = r.trigger_time := by
  unfold AddDowntime at hadd
  simp only at hadd
  split at hadd
  · exact Except.noConfusion hadd
  · rename_i st2 hreg
    injection hadd with hadd
    subst hadd
    have hst2 : ∃ d2, GetDowntimes o st2 = some d2 ∧
        ∀ k, (StdMap.find d2 k).map (fun r => r.trigger_time)
          = (StdMap.find d k).map (fun r => r.trigger_time) := by
      split at hreg
      · exact registerTrigger_trigger_time hreg o d hd
      · injection hreg with hreg
        subst hreg
        exact ⟨d, hd, fun _ => rfl⟩
    obtain ⟨d2, hd2, hsame⟩ := hst2
    have hk := hsame k
    rw [hr] at hk
    simp only [Option.map_some'] at hk
    simp only at hd1
    rw [GetDowntimes_Touch, GetDowntimes_setDowntimes] at hd1
    split at hd1
    · rename_i hoo
      have hos : o = self := hoo.1
      subst hos
      injection hd1 with hd1
      subst hd1
      rw [hd2] at hr1
      simp only at hr1
      have hkid : k ≠ id := by
        intro hkid
        rw [hkid, hfresh d hd] at hr
        exact Option.noConfusion hr
      rw [StdMap.find_set, if_neg hkid] at hr1
      rw [hr1] at hk
      simp only [Option.map_some', Option.some.injEq] at hk
      exact hk
    · rw [hd2] at hd1
      injection hd1 with hd1
      subst hd1
      rw [hr1] at hk
      simp only [Option.map_some', Option.some.injEq] at hk
      exact hk

theorem RemoveDowntime_record {id : String} {st : State} {o : Nat} {d d1 : Downtimes}
    {k : String} {r r1 : Downtime}
    (hd : GetDowntimes o st = some d) (hr : StdMap.find d k = some r)
    (hd1 : GetDowntimes o (RemoveDowntime id st) = some d1)
    (hr1 : StdMap.find d1 k = some r1) : r1 = r := by
  unfold RemoveDowntime at hd1
  simp only at hd1
  split at hd1
  · rw [GetDowntimes_GetOwnerByDowntimeID, hd] at hd1
    injection hd1 with hd1
    subst hd1
    rw [hr] at hr1
    injection hr1 with hr1
    exact hr1.symm
  · rename_i owner _
    split at hd1
    · rw [GetDowntimes_GetOwnerByDowntimeID, hd] at hd1
      injection hd1 with hd1
      subst hd1
      rw [hr] at hr1
      injection hr1 with hr1
      exact hr1.symm
    · rename_i downtimes hdt
      rw [GetDowntimes_GetOwnerByDowntimeID] at hdt
      rw [GetDowntimes_Touch, GetDowntimes_setDowntimes] at hd1
      split at hd1
      · rename_i hoo
        rw [hoo.1, hdt] at hd
        injection hd with hd
        subst hd
        injection hd1 with hd1
        subst hd1
        rw [StdMap.find_erase] at hr1
        split at hr1
        · exact Option.noConfusion hr1
        · rw [hr] at hr1
          injection hr1 with hr1
          exact hr1.symm
      · rw [GetDowntimes_GetOwnerByDowntimeID, hd] at hd1
        injection hd1 with hd1
        subst hd1
        rw [hr] at hr1
        injection hr1 with hr1
        exact hr1.symm

theorem RemoveExpiredDowntimes_record {self : Nat} {now : Int} {st : State} {o : Nat}
    {d d1 : Downtimes} {k : String} {r r1 : Downtime}
    (hd : GetDowntimes o st = some d) (hr : StdMap.find d k = some r)
    (hd1 : GetDowntimes o (RemoveExpiredDowntimes self now st) = some d1)
    (hr1 : StdMap.find d1 k = some r1) : r1 = r := by
  unfold RemoveExpiredDowntimes at hd1
  split at hd1
  · rw [hd] at hd1
    injection hd1 with hd1
    subst hd1
    rw [hr] at hr1
    injection hr1 with hr1
    exact hr1.symm
  · rename_i downtimes hdt
    simp only at hd1
    split at hd1
    · rw [hd] at hd1
      injection hd1 with hd1
      subst hd1
      rw [hr] at hr1
      injection hr1 with hr1
      exact hr1.symm
    · rw [GetDowntimes_Touch, GetDowntimes_setDowntimes] at hd1
      split at hd1
      · rename_i hoo
        rw [hoo.1, hdt] at hd
        injection hd with hd
        subst hd
        injection hd1 with hd1
        subst hd1
        have := StdMap.find_foldl_erase _ _ _ hr1
        rw [hr] at this
        injection this with this
        exact this.symm
      · rw [hd] at hd1
        injection hd1 with hd1
        subst hd1
        rw [hr] at hr1
        injection hr1 with hr1
        exact hr1.symm

theorem RefreshDowntimesCache_trigger_time {st : State} {o : Nat} {d d1 : Downtimes}
    {k : String} {r r1 : Downtime}
    (hd : GetDowntimes o st = some d) (hr : StdMap.find d k = some r)
    (hd1 : GetDowntimes o (RefreshDowntimesCache st) = some d1)
    (hr1 : StdMap.find d1 k = some r1) : r1.trigger_time = r.trigger_time := by
  unfold RefreshDowntimesCache at hd1
  split at hd1
  · have h := forall₂_getElem? (rebuild_kept st) o
    unfold GetDowntimes at hd hd1
    rcases h with ⟨h1, _⟩ | ⟨s, s', h1, h2, hk⟩
    · rw [h1] at hd
      exact Option.noConfusion hd
    · rw [h1] at hd
      rw [h2] at hd1
      simp only [Option.some_bind] at hd hd1
      rcases hk with ⟨hn, _⟩ | ⟨d0, d0', hd0, hd0', hf⟩
      · rw [hn] at hd
        exact Option.noConfusion hd
      · rw [hd0] at hd
        rw [hd0'] at hd1
        injection hd with hd
        injection hd1 with hd1
        subst hd
        subst hd1
        obtain ⟨r', hr', hkept⟩ := StdMap.find_forall₂ hf (fun _ _ h => h.1) hr
        rw [hr1] at hr'
        injection hr' with hr'
        subst hr'
        have := hkept.2.1
        simp only at this
        rw [this]
  · rw [hd] at hd1
    injection hd1 with hd1
    subst hd1
    rw [hr] at hr1
    injection hr1 with hr1
    rw [hr1]


theorem RecTrig.outcome {now : Int} {r r1 : Downtime} (h : RecTrig now r r1) :
    r1.trigger_time = r.trigger_time ∨
      (r.trigger_time = 0 ∧ r1.trigger_time = now ∧ r.start_time ≤ now ∧ now ≤ r.end_time) :=
  h.2

theorem StateTrig.record {now : Int} {s s1 : State} (h : StateTrig now s s1) {o : Nat}
    {d d1 : Downtimes} {k : String} {r r1 : Downtime}
    (hd : GetDowntimes o s = some d) (hr : StdMap.find d k = some r)
    (hd1 : GetDowntimes o s1 = some d1) (hr1 : StdMap.find d1 k = some r1) :
    RecTrig now r r1 := by
  obtain ⟨d', hd', hf⟩ := h o d hd
  rw [hd1] at hd'
  injection hd' with hd'
  subst hd'
  obtain ⟨r', hr', ht⟩ := hf k r hr
  rw [hr1] at hr'
  injection hr' with hr'
  subst hr'
  exact ht

/-- C15: across a call of any operation of the subsystem, a record that is in
a store before and after the call either keeps its `trigger_time`, or the call
ran `TriggerDowntime` with clock reading `now`, the `trigger_time` was 0 and
is now `now`, and `start_time <= now <= end_time` for that record; a non-zero
`trigger_time` is never changed. The id generated by an `AddDowntime` call is
taken to be fresh. -/
theorem trigger_time_changes_only_in_trigger (call : Call) (st st1 : State) (o : Nat)
    (d d1 : Downtimes) (k : String) (r r1 : Downtime)
    (hrun : call.run st = Except.ok st1) (hfresh : call.idFresh st)
    (hd : GetDowntimes o st = some d) (hr : StdMap.find d k = some r)
    (hd1 : GetDowntimes o st1 = some d1) (hr1 : StdMap.find d1 k = some r1) :
    (r1.trigger_time = r.trigger_time ∨
      ∃ now, call.triggerClock = some now ∧ r.trigger_time = 0 ∧ r1.trigger_time = now ∧
        r.start_time ≤ now ∧ now ≤ r.end_time) ∧
    (r.trigger_time ≠ 0 → r1.trigger_time = r.trigger_time) := by
  have key : r1.trigger_time = r.trigger_time ∨
      ∃ now, call.triggerClock = some now ∧ r.trigger_time = 0 ∧ r1.trigger_time = now ∧
        r.start_time ≤ now ∧ now ≤ r.end_time := by
    cases call with
    | addDowntime self author comment startTime endTime fixed triggeredBy duration now id =>
      simp only [Call.run] at hrun
      split at hrun
      · exact Except.noConfusion hrun
      · rename_i res hadd
        injection hrun with hrun
        subst hrun
        exact Or.inl (AddDowntime_trigger_time hadd hfresh hd hr hd1 hr1)
    | removeDowntime id =>
      simp only [Call.run] at hrun
      injection hrun with hrun
      subst hrun
      rw [RemoveDowntime_record hd hr hd1 hr1]
      exact Or.inl rfl
    | triggerDowntime fuel id now =>
      simp only [Call.run] at hrun
      have ht := (TriggerDowntime_StateTrig fuel id now st st1 hrun).record hd hr hd1 hr1
      rcases ht.outcome with h | h
      · exact Or.inl h
      · exact Or.inr ⟨now, rfl, h⟩
    | triggerDowntimes fuel self now =>
      simp only [Call.run, TriggerDowntimes] at hrun
      have hst : StateTrig now st st1 := by
        split at hrun
        · injection hrun with hrun
          subst hrun
          exact StateTrig.reflTrigState now st
        · exact foldlM_StateTrig
            (fun c s s1 hc => TriggerDowntime_StateTrig fuel c now s s1 hc) _ hrun
      rcases (hst.record hd hr hd1 hr1).outcome with h | h
      · exact Or.inl h
      · exact Or.inr ⟨now, rfl, h⟩
    | refreshDowntimesCache =>
      simp only [Call.run] at hrun
      injection hrun with hrun
      subst hrun
      exact Or.inl (RefreshDowntimesCache_trigger_time hd hr hd1 hr1)
    | removeExpiredDowntimes self now =>
      simp only [Call.run] at hrun
      injection hrun with hrun
      subst hrun
      rw [RemoveExpiredDowntimes_record hd hr hd1 hr1]
      exact Or.inl rfl
  refine ⟨key, fun hne => ?_⟩
  rcases key with h | ⟨_, _, h0, _⟩
  · exact h
  · exact absurd h0 hne

/-- The cascade from `P` at 150 changes the `trigger_time` of the child `C` of
object 1 from 0 to 150, inside its window 120..180. -/
theorem trigger_time_changes_only_in_trigger_witness :
    (Call.triggerDowntime 2 "P" 150).run cascadeExample = Except.ok cascadeTriggered ∧
    StdMap.find [("C", newDowntime "admin" "child" 120 180 false "P" 60 11 2)] "C"
      = some (newDowntime "admin" "child" 120 180 false "P" 60 11 2) ∧
    ((150 : Int) = 0 ∨
      ∃ now, (Call.triggerDowntime 2 "P" 150).triggerClock = some now ∧
        (0 : Int) = 0 ∧ (150 : Int) = now ∧ (120 : Int) ≤ now ∧ now ≤ 180) :=
  ⟨rfl, rfl,
   (trigger_time_changes_only_in_trigger (Call.triggerDowntime 2 "P" 150) cascadeExample
      cascadeTriggered 1
      [("C", newDowntime "admin" "child" 120 180 false "P" 60 11 2)]
      [("C", { newDowntime "admin" "child" 120 180 false "P" 60 11 2 with trigger_time := 150 })]
      "C" (newDowntime "admin" "child" 120 180 false "P" 60 11 2)
      { newDowntime "admin" "child" 120 180 false "P" 60 11 2 with trigger_time := 150 }
      rfl trivial rfl rfl rfl rfl).1⟩

/-! ## Notifications of a cascade -/

theorem GetDowntimeByID_eq_some {id : String} {st : State} {r : Downtime} :
    (GetDowntimeByID id st).1 = some r ↔
      ∃ w o d, StdMap.find st.l_DowntimesCache id = some w ∧ lock w st = some o ∧
        GetDowntimes o st = some d ∧ StdMap.find d id = some r := by
  cases hw : StdMap.find st.l_DowntimesCache id with
  | none =>
    have h1 : (GetDowntimeByID id st).1 = none := by
      unfold GetDowntimeByID GetOwnerByDowntimeID
      simp only [hw]
    rw [h1]
    constructor
    · intro h
      exact Option.noConfusion h
    · rintro ⟨w, _, _, hw', _⟩
      exact Option.noConfusion hw'
  | some w =>
    have h1 : (GetDowntimeByID id st).1
        = (lock w st).bind (fun o => (GetDowntimes o st).bind (fun d => StdMap.find d id)) := by
      unfold GetDowntimeByID
      rw [GetOwnerByDowntimeID_of_find hw]
      simp only
      cases lock w st with
      | none => rfl
      | some o =>
        simp only [Option.some_bind]
        cases GetDowntimes o st with
        | none => rfl
        | some d => rfl
    rw [h1]
    constructor
    · intro h
      cases ho : lock w st with
      | none =>
        rw [ho] at h
        exact Option.noConfusion h
      | some o =>
        rw [ho] at h
        simp only [Option.some_bind] at h
        cases hd : GetDowntimes o st with
        | none =>
          rw [hd] at h
          exact Option.noConfusion h
        | some d =>
          rw [hd] at h
          exact ⟨w, o, d, rfl, ho, hd, h⟩
    · rintro ⟨w', o, d, hw', ho, hd, hf⟩
      injection hw' with hw'
      subst hw'
      rw [ho]
      simp only [Option.some_bind]
      rw [hd]
      exact hf

theorem ResolvesInWindow_of_stateLe {now : Int} {s s' : State} (h : StateLe now s s')
    {id : String} (hres : ResolvesInWindow id now s) : ResolvesInWindow id now s' := by
  obtain ⟨r, hr, hwin⟩ := hres
  obtain ⟨w, o, d, hw, ho, hd, hf⟩ := GetDowntimeByID_eq_some.mp hr
  obtain ⟨d', hd', hle⟩ := h.stores o d hd
  obtain ⟨r', hr', hrec⟩ := hle.find_some hf
  refine ⟨r', GetDowntimeByID_eq_some.mpr ⟨w, o, d', h.cache id w hw, ?_, hd', hr'⟩, ?_⟩
  · rw [lock_of_length h.length]
    exact ho
  · have h1 : r'.start_time = r.start_time := by rw [hrec.1]
    have h2 : r'.end_time = r.end_time := by rw [hrec.1]
    rw [h1, h2]
    exact hwin

theorem find_l_DowntimesCache_GetOwnerByDowntimeID {k c : String} {s : State} {w : Option Nat}
    (h : StdMap.find (GetOwnerByDowntimeID c s).2.l_DowntimesCache k = some w) :
    StdMap.find s.l_DowntimesCache k = some w ∨ w = none := by
  unfold GetOwnerByDowntimeID at h
  split at h
  · exact Or.inl h
  · simp only [StdMap.find_set] at h
    split at h
    · injection h with h
      exact Or.inr h.symm
    · exact Or.inl h

theorem GetDowntimeByID_GetOwnerByDowntimeID (k c : String) (s : State) :
    (GetDowntimeByID k (GetOwnerByDowntimeID c s).2).1 = (GetDowntimeByID k s).1 := by
  apply Option.ext
  intro r
  simp only [Option.mem_def]
  rw [GetDowntimeByID_eq_some, GetDowntimeByID_eq_some]
  have hlen := congrArg List.length (services_GetOwnerByDowntimeID c s)
  constructor
  · rintro ⟨w, o, d, hw, ho, hd, hf⟩
    rw [lock_of_length hlen] at ho
    rw [GetDowntimes_GetOwnerByDowntimeID] at hd
    rcases find_l_DowntimesCache_GetOwnerByDowntimeID hw with hw' | hw'
    · exact ⟨w, o, d, hw', ho, hd, hf⟩
    · rw [hw'] at ho
      exact Option.noConfusion ho
  · rintro ⟨w, o, d, hw, ho, hd, hf⟩
    refine ⟨w, o, d, (StateLe_GetOwnerByDowntimeID 0 c s).cache k w hw, ?_, ?_, hf⟩
    · rw [lock_of_length hlen]
      exact ho
    · rw [GetDowntimes_GetOwnerByDowntimeID]
      exact hd

theorem ResolvesInWindow_GetOwnerByDowntimeID (k c : String) (now : Int) (s : State) :
    ResolvesInWindow k now (GetOwnerByDowntimeID c s).2 ↔ ResolvesInWindow k now s := by
  unfold ResolvesInWindow
  rw [GetDowntimeByID_GetOwnerByDowntimeID]

theorem ResolvesInWindow_setTriggerTime (k : String) (now : Int) (o : Nat) (id : String)
    (t : Int) (s : State) :
    ResolvesInWindow k now (setTriggerTime o id t s) ↔ ResolvesInWindow k now s := by
  unfold setTriggerTime
  cases hd : GetDowntimes o s with
  | none => exact Iff.rfl
  | some d =>
    simp only
    have hlen : (setDowntimes o (StdMap.mutate d id (fun x => { x with trigger_time := t })) s).services.length
        = s.services.length := by
      unfold setDowntimes
      exact length_modifyAt _ _ _
    have hwin : ∀ r : Downtime,
        (({ r with trigger_time := t } : Downtime).start_time, ({ r with trigger_time := t } : Downtime).end_time)
          = (r.start_time, r.end_time) := fun _ => rfl
    have hfind := StdMap.find_mutate_map d id k (fun x => { x with trigger_time := t })
      (fun r : Downtime => (r.start_time, r.end_time)) hwin
    constructor
    · rintro ⟨r', hr', hw'⟩
      obtain ⟨w, o', d', hcache, hlock, hd', hf⟩ := GetDowntimeByID_eq_some.mp hr'
      rw [lock_of_length hlen] at hlock
      rw [GetDowntimes_setDowntimes] at hd'
      split at hd'
      · rename_i hoo
        injection hd' with hd'
        subst hd'
        rw [hf] at hfind
        cases hr : StdMap.find d k with
        | none =>
          rw [hr] at hfind
          exact Option.noConfusion hfind
        | some r =>
          rw [hr] at hfind
          simp only [Option.map_some', Option.some.injEq, Prod.mk.injEq] at hfind
          refine ⟨r, GetDowntimeByID_eq_some.mpr ⟨w, o', d, hcache, hlock, ?_, hr⟩, ?_⟩
          · rw [hoo.1]
            exact hd
          · rw [← hfind.1, ← hfind.2]
            exact hw'
      · exact ⟨r', GetDowntimeByID_eq_some.mpr ⟨w, o', d', hcache, hlock, hd', hf⟩, hw'⟩
    · rintro ⟨r, hr, hw⟩
      obtain ⟨w, o', d', hcache, hlock, hd', hf⟩ := GetDowntimeByID_eq_some.mp hr
      by_cases hoo : o' = o
      · subst hoo
        rw [hd] at hd'
        injection hd' with hd'
        subst hd'
        rw [hf] at hfind
        cases hr' : StdMap.find (StdMap.mutate d id (fun x => { x with trigger_time := t })) k with
        | none =>
          rw [hr'] at hfind
          exact Option.noConfusion hfind
        | some r' =>
          rw [hr'] at hfind
          simp only [Option.map_some', Option.some.injEq, Prod.mk.injEq] at hfind
          refine ⟨r', GetDowntimeByID_eq_some.mpr ⟨w, o', _, hcache, ?_, ?_, hr'⟩, ?_⟩
          · rw [lock_of_length hlen]
            exact hlock
          · rw [GetDowntimes_setDowntimes, if_pos ⟨rfl, GetDowntimes_lt hd⟩]
          · rw [hfind.1, hfind.2]
            exact hw
      · refine ⟨r, GetDowntimeByID_eq_some.mpr ⟨w, o', d', hcache, ?_, ?_, hf⟩, hw⟩
        · rw [lock_of_length hlen]
          exact hlock
        · rw [GetDowntimes_setDowntimes, if_neg (fun h => hoo h.1)]
          exact hd'

theorem TriggerDowntime_resolved {fuel : Nat} {id : String} {now : Int} {st st1 : State}
    {r : Downtime} (hrun : TriggerDowntime (fuel + 1) id now st = Except.ok st1)
    (hrecord : (GetDowntimeByID id st).1 = some r)
    (hwindow : r.start_time ≤ now ∧ now ≤ r.end_time) :
    ∃ o sd, (GetOwnerByDowntimeID id st).1 = some o ∧
      List.foldlM (fun s tid => TriggerDowntime fuel tid now s)
          (if r.trigger_time = 0 then setTriggerTime o id now st else st)
          (StdMap.keys r.triggers) = Except.ok sd ∧
      st1 = Touch o sd := by
  have hwin : ¬ (now < r.start_time ∨ now > r.end_time) := by omega
  obtain ⟨w, o, d, hw, ho, hd, hf⟩ := GetDowntimeByID_eq_some.mp hrecord
  rw [TriggerDowntime_succ_of_find fuel now hw, ho] at hrun
  simp only [hd, hf, if_neg hwin] at hrun
  split at hrun
  · exact Except.noConfusion hrun
  · rename_i sd hfold
    injection hrun with hrun
    refine ⟨o, sd, ?_, hfold, hrun.symm⟩
    rw [GetOwnerByDowntimeID_of_find hw]
    exact ho

theorem TriggerDowntime_of_not_resolves {fuel : Nat} {id : String} {now : Int} {s s1 : State}
    (h : TriggerDowntime fuel id now s = Except.ok s1) (hn : ¬ ResolvesInWindow id now s) :
    s1 = (GetOwnerByDowntimeID id s).2 := by
  cases fuel with
  | zero => exact Except.noConfusion h
  | succ fuel =>
    rw [TriggerDowntime_succ_shift] at h
    obtain ⟨w, hw, _⟩ := GetOwnerByDowntimeID_find id s
    rw [← ResolvesInWindow_GetOwnerByDowntimeID id id now s] at hn
    generalize (GetOwnerByDowntimeID id s).2 = sa at h hw hn ⊢
    rw [TriggerDowntime_succ_of_find fuel now hw] at h
    split at h
    · injection h with h; exact h.symm
    · rename_i o ho
      split at h
      · injection h with h; exact h.symm
      · rename_i d hd
        split at h
        · injection h with h; exact h.symm
        · rename_i r hr
          split at h
          · injection h with h; exact h.symm
          · rename_i hwin
            exact absurd ⟨r, GetDowntimeByID_eq_some.mpr ⟨w, o, d, hw, ho, hd, hr⟩,
              by omega, by omega⟩ hn

theorem foldlM_touchLog {f : State → String → Except Fault State}
    (hf : ∀ c s s1, f s c = Except.ok s1 → ∃ more, s1.touchLog = s.touchLog ++ more)
    (cs : List String) {s sd : State} (h : List.foldlM f s cs = Except.ok sd) :
    ∃ more, sd.touchLog = s.touchLog ++ more := by
  induction cs generalizing s with
  | nil =>
    simp only [List.foldlM_nil, pure, Except.pure] at h
    injection h with h
    subst h
    exact ⟨[], (List.append_nil _).symm⟩
  | cons c rest ih =>
    rw [List.foldlM_cons] at h
    cases hc : f s c with
    | error e =>
      rw [hc] at h
      exact Except.noConfusion h
    | ok sx =>
      rw [hc] at h
      obtain ⟨m1, h1⟩ := hf c s sx hc
      obtain ⟨m2, h2⟩ := ih h
      exact ⟨m1 ++ m2, by rw [h2, h1, List.append_assoc]⟩

theorem TriggerDowntime_touchLog (fuel : Nat) (id : String) (now : Int) (s s1 : State)
    (h : TriggerDowntime fuel id now s = Except.ok s1) :
    ∃ more, s1.touchLog = s.touchLog ++ more := by
  induction fuel generalizing id s s1 with
  | zero => exact Except.noConfusion h
  | succ fuel ih =>
    by_cases hres : ResolvesInWindow id now s
    · obtain ⟨r, hr, hwin⟩ := hres
      obtain ⟨o, sd, _, hfold, hst1⟩ := TriggerDowntime_resolved h hr hwin
      obtain ⟨more, hmore⟩ := foldlM_touchLog (fun c s s1 hc => ih c s s1 hc) _ hfold
      have hsc : (if r.trigger_time = 0 then setTriggerTime o id now s else s).touchLog
          = s.touchLog := by
        split
        · exact touchLog_setTriggerTime _ _ _ _
        · rfl
      refine ⟨more ++ [o], ?_⟩
      rw [hst1, touchLog_Touch, hmore, hsc, List.append_assoc]
    · rw [TriggerDowntime_of_not_resolves h hres, touchLog_GetOwnerByDowntimeID]
      exact ⟨[], (List.append_nil _).symm⟩

theorem TriggerDowntime_loud {fuel : Nat} {id : String} {now : Int} {s s1 : State}
    (h : TriggerDowntime fuel id now s = Except.ok s1) (hres : ResolvesInWindow id now s) :
    s.touchLog.length < s1.touchLog.length := by
  cases fuel with
  | zero => exact Except.noConfusion h
  | succ fuel =>
    obtain ⟨r, hr, hwin⟩ := hres
    obtain ⟨o, sd, _, hfold, hst1⟩ := TriggerDowntime_resolved h hr hwin
    obtain ⟨more, hmore⟩ := foldlM_touchLog
      (fun c s s1 hc => TriggerDowntime_touchLog fuel c now s s1 hc) _ hfold
    have hsc : (if r.trigger_time = 0 then setTriggerTime o id now s else s).touchLog
        = s.touchLog := by
      split
      · exact touchLog_setTriggerTime _ _ _ _
      · rfl
    rw [hst1, touchLog_Touch, hmore, hsc]
    simp only [List.length_append, List.length_singleton]
    omega

theorem foldlM_quiet {fuel : Nat} {now : Int} (cs : List String) {s sd : State}
    (h : List.foldlM (fun s tid => TriggerDowntime fuel tid now s) s cs = Except.ok sd)
    (hn : ∀ c ∈ cs, ¬ ResolvesInWindow c now s) : sd.touchLog = s.touchLog := by
  induction cs generalizing s with
  | nil =>
    simp only [List.foldlM_nil, pure, Except.pure] at h
    injection h with h
    subst h
    rfl
  | cons c rest ih =>
    rw [List.foldlM_cons] at h
    cases hc : TriggerDowntime fuel c now s with
    | error e =>
      simp only [hc] at h
      exact Except.noConfusion h
    | ok sx =>
      simp only [hc] at h
      have hsx := TriggerDowntime_of_not_resolves hc (hn c (List.mem_cons_self _ _))
      have hrest : ∀ c' ∈ rest, ¬ ResolvesInWindow c' now sx := by
        intro c' hc'
        rw [hsx, ResolvesInWindow_GetOwnerByDowntimeID]
        exact hn c' (List.mem_cons_of_mem _ hc')
      rw [ih h hrest, hsx, touchLog_GetOwnerByDowntimeID]

theorem foldlM_loud {fuel : Nat} {now : Int} (cs : List String) {s sd : State}
    (h : List.foldlM (fun s tid => TriggerDowntime fuel tid now s) s cs = Except.ok sd)
    {c : String} (hc : c ∈ cs) (hres : ResolvesInWindow c now s) :
    s.touchLog.length < sd.touchLog.length := by
  induction cs generalizing s with
  | nil => exact absurd hc (List.not_mem_nil _)
  | cons c0 rest ih =>
    rw [List.foldlM_cons] at h
    cases hstep : TriggerDowntime fuel c0 now s with
    | error e =>
      simp only [hstep] at h
      exact Except.noConfusion h
    | ok sx =>
      simp only [hstep] at h
      rcases List.mem_cons.mp hc with hc | hc
      · subst hc
        have h1 := TriggerDowntime_loud hstep hres
        obtain ⟨more, hmore⟩ := foldlM_touchLog
          (fun c s s1 hc => TriggerDowntime_touchLog fuel c now s s1 hc) _ h
        rw [hmore, List.length_append]
        omega
      · obtain ⟨more, hmore⟩ := TriggerDowntime_touchLog fuel c0 now s sx hstep
        have h2 := ih h hc (ResolvesInWindow_of_stateLe (TriggerDowntime_StateLe fuel c0 now s sx hstep) hres)
        rw [hmore, List.length_append] at h2
        omega

/-- C16 (amended): a `TriggerDowntime` invocation, top-level or recursive, that
resolves its record inside the validity window runs the cascade over the
record's `triggers` from the state in which its own `trigger_time` is set, and
then issues exactly one `Touch("downtimes")`, to the owner of its record, as
its last step. The notifications of the whole call are those of the recursive
invocations, in order, followed by this one; their number is exactly one if
and only if no id in the record's `triggers` resolves to a record inside its
validity window, and so at least two when one does. -/
theorem TriggerDowntime_touches (fuel : Nat) (id : String) (now : Int) (st st1 : State)
    (o : Nat) (r : Downtime)
    (hrun : TriggerDowntime (fuel + 1) id now st = Except.ok st1)
    (howner : (GetOwnerByDowntimeID id st).1 = some o)
    (hrecord : (GetDowntimeByID id st).1 = some r)
    (hwindow : r.start_time ≤ now ∧ now ≤ r.end_time) :
    ∃ sd more,
      List.foldlM (fun s tid => TriggerDowntime fuel tid now s)
          (if r.trigger_time = 0 then setTriggerTime o id now st else st)
          (StdMap.keys r.triggers) = Except.ok sd ∧
      st1 = Touch o sd ∧
      sd.touchLog = st.touchLog ++ more ∧
      st1.touchLog = st.touchLog ++ more ++ [o] ∧
      (more = [] ↔ ∀ c ∈ StdMap.keys r.triggers, ¬ ResolvesInWindow c now st) ∧
      ((∃ c ∈ StdMap.keys r.triggers, ResolvesInWindow c now st) →
        st.touchLog.length + 2 ≤ st1.touchLog.length) := by
  obtain ⟨o', sd, ho', hfold, hst1⟩ := TriggerDowntime_resolved hrun hrecord hwindow
  rw [howner] at ho'
  injection ho' with ho'
  subst ho'
  have hsc : (if r.trigger_time = 0 then setTriggerTime o id now st else st).touchLog
      = st.touchLog := by
    split
    · exact touchLog_setTriggerTime _ _ _ _
    · rfl
  have hres : ∀ c, ResolvesInWindow c now
      (if r.trigger_time = 0 then setTriggerTime o id now st else st)
        ↔ ResolvesInWindow c now st := by
    intro c
    split
    · exact ResolvesInWindow_setTriggerTime c now o id now st
    · exact Iff.rfl
  obtain ⟨more, hmore⟩ := foldlM_touchLog
    (fun c s s1 hc => TriggerDowntime_touchLog fuel c now s s1 hc) _ hfold
  rw [hsc] at hmore
  have hiff : more = [] ↔ ∀ c ∈ StdMap.keys r.triggers, ¬ ResolvesInWindow c now st := by
    constructor
    · intro hnil c hc hr
      have := foldlM_loud _ hfold hc ((hres c).mpr hr)
      rw [hsc, hmore, hnil, List.append_nil] at this
      exact lt_irrefl _ this
    · intro hnone
      have := foldlM_quiet _ hfold (fun c hc hr => hnone c hc ((hres c).mp hr))
      rw [hsc, hmore] at this
      exact List.append_right_eq_self.mp this
  refine ⟨sd, more, hfold, hst1, hmore, ?_, hiff, ?_⟩
  · rw [hst1, touchLog_Touch, hmore]
  · rintro ⟨c, hc, hr⟩
    have hne : more ≠ [] := fun hnil => hiff.mp hnil c hc hr
    rw [hst1, touchLog_Touch, hmore]
    simp only [List.length_append, List.length_singleton]
    have := List.length_pos.mpr hne
    omega

/-- C16 (counterexample): the call `TriggerDowntime(P)` at 150 on `cascadeExample`
resolves `P` inside its window and issues two notifications, one to the owner
of the child `C` and one to the owner of `P`. -/
theorem TriggerDowntime_touches_counterexample :
    (GetDowntimeByID "P" cascadeExample).1.map (fun d => (d.start_time, d.end_time))
      = some (100, 200) ∧
    cascadeExample.touchLog = [] ∧
    TriggerDowntime 2 "P" 150 cascadeExample = Except.ok cascadeTriggered ∧
    cascadeTriggered.touchLog = [1, 0] :=
  ⟨by decide, rfl, rfl, by decide⟩

/-- In `cascadeExample` the child `C` has no triggers and its call issues one
notification, to object 1; the parent `P` has the child `C`, which resolves
inside its window 120..180 at time 150, and the call on `P` issues at least
two. -/
theorem TriggerDowntime_touches_witness :
    (∃ st1, TriggerDowntime 1 "C" 150 cascadeExample = Except.ok st1 ∧
      st1.touchLog = cascadeExample.touchLog ++ [1]) ∧
    cascadeExample.touchLog.length + 2 ≤ cascadeTriggered.touchLog.length :=
  ⟨⟨_, rfl,
    match TriggerDowntime_touches 0 "C" 150 cascadeExample _ 1
      (newDowntime "admin" "child" 120 180 false "P" 60 11 2) rfl rfl rfl (by decide) with
    | ⟨_, more, _, _, _, h4, h5, _⟩ => by
      have hnil : more = [] := h5.mpr (fun _ hc => absurd hc (List.not_mem_nil _))
      rw [h4, hnil]
      rfl⟩,
   match TriggerDowntime_touches 1 "P" 150 cascadeExample cascadeTriggered 0
      { newDowntime "admin" "parent" 100 200 false "" 60 10 1 with triggers := [("C", "C")] }
      rfl rfl rfl (by decide) with
   | ⟨_, _, _, _, _, _, _, h6⟩ =>
     h6 ⟨"C", by decide,
       ⟨newDowntime "admin" "child" 120 180 false "P" 60 11 2, rfl, by decide, by decide⟩⟩⟩

/-! ## Debounced invalidation and the callbacks that follow -/

end Icinga
